import Mathlib

/-!
# clox: the hash table, the upvalue machinery and the dispatcher

A shallow embedding of `src/table.c` and of the parts of `src/vm.c` that the
verified properties are about.

Conventions of the embedding.

* A C pointer to a heap object (`Obj *`, `ObjString *`, `ObjUpvalue *`) is an
  `ObjPtr`; `NULL` is `none` of `Option ObjPtr`.
* A function whose C body can run into undefined behaviour (an access outside
  an array, `% 0`) or into a loop that never returns yields `none` there; a
  returned C result is `some _`.
* `int` fields (`count`, `capacity`) are natural numbers: the embedding covers
  tables whose capacity stays below `INT_MAX / 2`, where no `int` operation of
  `table.c` overflows.
-/

namespace Clox

/-- Address of a heap object. -/
abbrev ObjPtr := Nat

/-- Modelled from the spec: `value.h` is not among the sources. A runtime value
is one of four variants (spec §3): Nil, Boolean, Number (the payload is kept as
the bit pattern of the double), or a reference to a heap object. -/
inductive Value where
  | nil : Value
  | bool (b : Bool) : Value
  | number (bits : Nat) : Value
  | obj (p : ObjPtr) : Value
  deriving DecidableEq, Repr

/-- `IS_NIL(value)`. -/
def IS_NIL (v : Value) : Bool :=
  match v with
  | Value.nil => true
  | _ => false

/-- `struct ObjString` of `object.h`: `length`, the bytes `chars` and the
cached `hash`. -/
structure ObjString where
  length : Nat
  chars : List Nat
  hash : Nat
  deriving DecidableEq, Repr

/-- `Entry` of `table.h`. -/
structure Entry where
  key : Option ObjPtr
  value : Value
  deriving DecidableEq, Repr

/-- `Table` of `table.h`; `entries` is the array of `capacity` slots. -/
structure Table where
  count : Nat
  capacity : Nat
  entries : List Entry
  deriving DecidableEq, Repr

/-- `initTable`. -/
def initTable : Table :=
  { count := 0, capacity := 0, entries := [] }

/-- `GROW_CAPACITY` of `memory.h`. -/
def GROW_CAPACITY (capacity : Nat) : Nat :=
  if capacity < 8 then 8 else capacity * 2

/-- The `for (;;)` loop of `findEntry`: `index` is the slot under inspection,
`tombstone` the first tombstone passed so far. The result is the index of the
returned `Entry *`. `fuel` bounds the number of iterations. -/
def findEntryLoop (entries : List Entry) (capacity : Nat) (key : ObjPtr) :
    Nat → Nat → Option Nat → Option Nat
  | 0, _, _ => none
  | fuel + 1, index, tombstone =>
    match entries[index]? with
    | none => none
    | some entry =>
      match entry.key with
      | none =>
        if IS_NIL entry.value then
          some (match tombstone with
            | some t => t
            | none => index)
        else
          findEntryLoop entries capacity key fuel ((index + 1) % capacity)
            (match tombstone with
              | some t => some t
              | none => some index)
      | some k =>
        if key = k then some index
        else findEntryLoop entries capacity key fuel ((index + 1) % capacity) tombstone

/-- `findEntry`. The probe starts at `key->hash % capacity` (undefined for
`capacity = 0`). The loop is run for `capacity` iterations: after that many
steps every slot has been inspected, and a loop that has not returned by then
never returns (`findEntryLoop_stuck`). -/
def findEntry (strs : ObjPtr → ObjString) (entries : List Entry) (capacity : Nat)
    (key : ObjPtr) : Option Nat :=
  if capacity = 0 then none
  else findEntryLoop entries capacity key capacity ((strs key).hash % capacity) none

/-- `tableGet`: `some none` is the result `false`, `some (some v)` is the result
`true` with `*value = v`. -/
def tableGet (strs : ObjPtr → ObjString) (table : Table) (key : ObjPtr) :
    Option (Option Value) :=
  if table.count = 0 then some none
  else
    match findEntry strs table.entries table.capacity key with
    | none => none
    | some i =>
      match table.entries[i]? with
      | none => none
      | some entry =>
        match entry.key with
        | none => some none
        | some _ => some (some entry.value)

/-- The second loop of `adjustCapacity`: the slots of the old array still to
be visited, the new array and the running `table->count`. -/
def adjustLoop (strs : ObjPtr → ObjString) (capacity : Nat) :
    List Entry → List Entry → Nat → Option (List Entry × Nat)
  | [], entries, count => some (entries, count)
  | entry :: rest, entries, count =>
    match entry.key with
    | none => adjustLoop strs capacity rest entries count
    | some k =>
      match findEntry strs entries capacity k with
      | none => none
      | some dest =>
        adjustLoop strs capacity rest (entries.set dest { key := some k, value := entry.value })
          (count + 1)

/-- `adjustCapacity`. -/
def adjustCapacity (strs : ObjPtr → ObjString) (table : Table) (capacity : Nat) :
    Option Table :=
  match adjustLoop strs capacity table.entries
      (List.replicate capacity { key := none, value := Value.nil }) 0 with
  | none => none
  | some (entries, count) => some { count := count, capacity := capacity, entries := entries }

/-- The test `table->count + 1 > table->capacity * TABLE_MAX_LOAD` of
`tableSet`, with `TABLE_MAX_LOAD = 0.75`. The product is exact in double
arithmetic for every `int` capacity, so the comparison is that of
`4 * (count + 1)` with `3 * capacity`. -/
def overLoad (table : Table) : Bool :=
  decide (3 * table.capacity < 4 * (table.count + 1))

/-- `tableSet`: the returned pair is `isNewKey` and the table afterwards. -/
def tableSet (strs : ObjPtr → ObjString) (table : Table) (key : ObjPtr) (value : Value) :
    Option (Bool × Table) :=
  match (if overLoad table then adjustCapacity strs table (GROW_CAPACITY table.capacity)
         else some table) with
  | none => none
  | some table =>
    match findEntry strs table.entries table.capacity key with
    | none => none
    | some i =>
      match table.entries[i]? with
      | none => none
      | some entry =>
        let isNewKey := entry.key.isNone
        some (isNewKey,
          { count := if isNewKey && IS_NIL entry.value then table.count + 1 else table.count,
            capacity := table.capacity,
            entries := table.entries.set i { key := some key, value := value } })

/-- `tableDelete`: the returned pair is the result and the table afterwards;
the deleted slot becomes the tombstone `(NULL, BOOL_VAL(true))`. -/
def tableDelete (strs : ObjPtr → ObjString) (table : Table) (key : ObjPtr) :
    Option (Bool × Table) :=
  if table.count = 0 then some (false, table)
  else
    match findEntry strs table.entries table.capacity key with
    | none => none
    | some i =>
      match table.entries[i]? with
      | none => none
      | some entry =>
        match entry.key with
        | none => some (false, table)
        | some _ =>
          some (true, { table with
            entries := table.entries.set i { key := none, value := Value.bool true } })

/-- The loop of `tableAddAll` over the slots of `from`. -/
def tableAddAllLoop (strs : ObjPtr → ObjString) : List Entry → Table → Option Table
  | [], dst => some dst
  | entry :: rest, dst =>
    match entry.key with
    | none => tableAddAllLoop strs rest dst
    | some k =>
      match tableSet strs dst k entry.value with
      | none => none
      | some (_, dst) => tableAddAllLoop strs rest dst

/-- `tableAddAll`. -/
def tableAddAll (strs : ObjPtr → ObjString) (src : Table) (dst : Table) : Option Table :=
  tableAddAllLoop strs src.entries dst

/-- `0 == memcmp (a, b, length)`: the first `length` bytes agree. -/
def memcmpEq (a b : List Nat) (length : Nat) : Bool :=
  decide (a.take length = b.take length)

/-- The test of the `else if` in `tableFindString`: same `length`, same
`hash`, and `memcmp` finds the first `length` bytes equal. -/
def keyMatches (strs : ObjPtr → ObjString) (chars : List Nat) (length : Nat) (hash : Nat)
    (k : ObjPtr) : Bool :=
  decide (length = (strs k).length) && decide (hash = (strs k).hash)
    && memcmpEq (strs k).chars chars length

/-- The `for (;;)` loop of `tableFindString`; `some none` is the result
`NULL`. -/
def tableFindStringLoop (strs : ObjPtr → ObjString) (table : Table) (chars : List Nat)
    (length : Nat) (hash : Nat) : Nat → Nat → Option (Option ObjPtr)
  | 0, _ => none
  | fuel + 1, index =>
    match table.entries[index]? with
    | none => none
    | some entry =>
      match entry.key with
      | none =>
        if IS_NIL entry.value then some none
        else tableFindStringLoop strs table chars length hash fuel ((index + 1) % table.capacity)
      | some k =>
        if keyMatches strs chars length hash k then some (some k)
        else tableFindStringLoop strs table chars length hash fuel ((index + 1) % table.capacity)

/-- `tableFindString`. As in `findEntry`, `capacity` iterations inspect every
slot (`tableFindStringLoop_stuck`). -/
def tableFindString (strs : ObjPtr → ObjString) (table : Table) (chars : List Nat)
    (length : Nat) (hash : Nat) : Option (Option ObjPtr) :=
  if table.count = 0 then some none
  else if table.capacity = 0 then none
  else tableFindStringLoop strs table chars length hash table.capacity (hash % table.capacity)

/-! ## Heap objects and the VM state -/

/-- A `Value *`: the address of a slot of the VM stack, or of the `closed`
field of an upvalue object. -/
inductive ValuePtr where
  | stack (slot : Nat) : ValuePtr
  | closed (upvalue : ObjPtr) : ValuePtr
  deriving DecidableEq, Repr

/-- `Chunk` of `chunk.h`: the `count` bytes of `code`, their `lines`, and the
constant pool. -/
structure Chunk where
  code : List Nat
  lines : List Nat
  constants : List Value
  deriving DecidableEq, Repr

/-- `ObjFunction` of `object.h`. -/
structure ObjFunction where
  arity : Nat
  upvalueCount : Nat
  chunk : Chunk
  name : Option ObjPtr
  deriving DecidableEq, Repr

/-- `ObjUpvalue` of `object.h`. The `next` link is carried by the list
`VM.openUpvalues`. -/
structure ObjUpvalue where
  location : ValuePtr
  closed : Value
  deriving DecidableEq, Repr

/-- `ObjClosure` of `object.h`. -/
structure ObjClosure where
  function : ObjPtr
  upvalues : List (Option ObjPtr)
  upvalueCount : Nat
  deriving DecidableEq, Repr

/-- A heap object with its `ObjType` tag; a native carries the address of its
host function. -/
inductive Obj where
  | function (f : ObjFunction) : Obj
  | native (fn : Nat) : Obj
  | string (s : ObjString) : Obj
  | upvalue (u : ObjUpvalue) : Obj
  | closure (c : ObjClosure) : Obj
  deriving DecidableEq, Repr

/-- Modelled from the spec: `CallFrame` of `vm.h`, which is not among the
sources: the closure, the instruction pointer and the slot base (spec §3).
`ip` is an offset into the code of the closure's function, `slots` an index
into the VM stack. -/
structure CallFrame where
  closure : ObjPtr
  ip : Nat
  slots : Nat
  deriving DecidableEq, Repr

/-- Modelled from the spec: `vm.h` is not among the sources. The VM state
(spec §3) with the fields `vm.c` uses. `stack` is the whole array of
`STACK_MAX` values and `stackTop` the index `vm.stackTop - vm.stack`; `frames`
is the whole array of `FRAMES_MAX` frames; `openUpvalues` is the chain
`vm.openUpvalues`, `->next`, ... and `objects` the chain `vm.objects`,
`->next`, ...; `heap` is the memory holding the objects, by address; `out` and
`err` are what has been written to stdout and stderr. -/
structure VM where
  frames : List CallFrame
  frameCount : Nat
  stack : List Value
  stackTop : Nat
  globals : Table
  strings : Table
  openUpvalues : List ObjPtr
  objects : List ObjPtr
  heap : List Obj
  out : String
  err : String
  deriving DecidableEq, Repr

/-- Modelled from the spec: `InterpretResult` of `vm.h`, which is not among
the sources: the three outcomes of spec §7, under the names `vm.c` uses. -/
inductive InterpretResult where
  | INTERPRET_OK
  | INTERPRET_COMPILE_ERROR
  | INTERPRET_RUNTIME_ERROR
  deriving DecidableEq, Repr

/-- `FRAMES_MAX`: the size of the array `vm.frames`. -/
def VM.FRAMES_MAX (vm : VM) : Nat :=
  vm.frames.length

/-- The string object at an address. -/
def stringAt (heap : List Obj) (p : ObjPtr) : Option ObjString :=
  match heap[p]? with
  | some (Obj.string s) => some s
  | _ => none

/-- The function object at an address. -/
def functionAt (heap : List Obj) (p : ObjPtr) : Option ObjFunction :=
  match heap[p]? with
  | some (Obj.function f) => some f
  | _ => none

/-- The upvalue object at an address. -/
def upvalueAt (heap : List Obj) (p : ObjPtr) : Option ObjUpvalue :=
  match heap[p]? with
  | some (Obj.upvalue u) => some u
  | _ => none

/-- The closure object at an address. -/
def closureAt (heap : List Obj) (p : ObjPtr) : Option ObjClosure :=
  match heap[p]? with
  | some (Obj.closure c) => some c
  | _ => none

/-- The fields read through an `ObjString *`, as the table functions use
them. -/
def strsOf (heap : List Obj) : ObjPtr → ObjString :=
  fun p =>
    match stringAt heap p with
    | some s => s
    | none => { length := 0, chars := [], hash := 0 }

/-- `resetStack`. -/
def resetStack (vm : VM) : VM :=
  { vm with stackTop := 0, objects := [], frameCount := 0, openUpvalues := [] }

/-- The text `%s` prints for a C string: its bytes up to the terminating
NUL. -/
def cString (chars : List Nat) : String :=
  String.mk ((chars.takeWhile (fun c => c ≠ 0)).map Char.ofNat)

/-- One line of the stack trace of `runtimeError`, for the frame `frame`. -/
def traceLine (heap : List Obj) (frame : CallFrame) : Option String :=
  match closureAt heap frame.closure with
  | none => none
  | some closure =>
    match functionAt heap closure.function with
    | none => none
    | some function =>
      if frame.ip = 0 then none
      else
        match function.chunk.lines[frame.ip - 1]? with
        | none => none
        | some line =>
          match function.name with
          | none => some ("[line " ++ toString line ++ "] in script\n")
          | some n =>
            match stringAt heap n with
            | none => none
            | some name => some ("[line " ++ toString line ++ "] in " ++ cString name.chars ++ "()\n")

/-- The `for` loop of `runtimeError`, from frame `i - 1` down to frame 0. -/
def traceLoop (heap : List Obj) (frames : List CallFrame) : Nat → String → Option String
  | 0, err => some err
  | i + 1, err =>
    match frames[i]? with
    | none => none
    | some frame =>
      match traceLine heap frame with
      | none => none
      | some line => traceLoop heap frames i (err ++ line)

/-- `runtimeError`, applied to the formatted message. -/
def runtimeError (vm : VM) (message : String) : Option VM :=
  match traceLoop vm.heap vm.frames vm.frameCount (vm.err ++ message ++ "\n") with
  | none => none
  | some err => some (resetStack { vm with err := err })

/-- `push`: `*vm.stackTop = value; vm.stackTop++;`, with no test; the write is
outside the array when the stack is full. -/
def push (vm : VM) (value : Value) : Option VM :=
  if vm.stackTop < vm.stack.length then
    some { vm with stack := vm.stack.set vm.stackTop value, stackTop := vm.stackTop + 1 }
  else none

/-- `pop`: `vm.stackTop--; return *vm.stackTop;`, with no test; the pointer
leaves the array when the stack is empty. The popped value and the state
afterwards. -/
def pop (vm : VM) : Option (Value × VM) :=
  if vm.stackTop = 0 then none
  else
    match vm.stack[vm.stackTop - 1]? with
    | none => none
    | some v => some (v, { vm with stackTop := vm.stackTop - 1 })

/-- `peek`. -/
def peek (vm : VM) (distance : Nat) : Option Value :=
  if vm.stackTop < 1 + distance then none
  else vm.stack[vm.stackTop - 1 - distance]?

/-- Modelled from the spec: `object.c` is not among the sources. Allocation of
a heap object: it is placed at a fresh address and linked at the head of
`vm.objects` (spec §5: every heap allocation is linked into the heap list at
creation). -/
def allocateObject (vm : VM) (o : Obj) : ObjPtr × VM :=
  (vm.heap.length, { vm with heap := vm.heap ++ [o], objects := vm.heap.length :: vm.objects })

/-- Modelled from the spec: `newUpvalue` of `object.c`, which is not among the
sources: a new upvalue with `location = slot` (spec §4.6), its `closed` field
nil. -/
def newUpvalue (vm : VM) (slot : Nat) : ObjPtr × VM :=
  allocateObject vm (Obj.upvalue { location := ValuePtr.stack slot, closed := Value.nil })

/-- Modelled from the spec: `newClosure` of `object.c`, which is not among the
sources: a closure of the function with an array of `upvalueCount` upvalue
references (spec §3), none of them set yet. -/
def newClosure (vm : VM) (function : ObjPtr) : Option (ObjPtr × VM) :=
  match functionAt vm.heap function with
  | none => none
  | some f =>
    some (allocateObject vm (Obj.closure
      { function := function, upvalues := List.replicate f.upvalueCount none,
        upvalueCount := f.upvalueCount }))

/-- `call`. -/
def call (vm : VM) (closure : ObjPtr) (argCount : Nat) : Option (Bool × VM) :=
  match closureAt vm.heap closure with
  | none => none
  | some c =>
    match functionAt vm.heap c.function with
    | none => none
    | some function =>
      if function.arity ≠ argCount then
        (runtimeError vm ("Expected " ++ toString function.arity ++ " arguments but got "
          ++ toString argCount ++ ".")).map (fun vm => (false, vm))
      else if vm.FRAMES_MAX = vm.frameCount then
        (runtimeError vm "Stack overflow.").map (fun vm => (false, vm))
      else if vm.FRAMES_MAX < vm.frameCount ∨ vm.stackTop < argCount + 1 then none
      else
        some (true, { vm with
          frames := vm.frames.set vm.frameCount
            { closure := closure, ip := 0, slots := vm.stackTop - argCount - 1 },
          frameCount := vm.frameCount + 1 })

/-- The walk of `captureUpvalue` along the open upvalues whose location is
above `slot`: the upvalues passed (the last of them is `prevUpvalue`) and the
rest of the list (its head is `upvalue`). Comparing a stack address with an
address outside the stack is undefined. -/
def captureWalk (heap : List Obj) (slot : Nat) : List ObjPtr → Option (List ObjPtr × List ObjPtr)
  | [] => some ([], [])
  | u :: rest =>
    match upvalueAt heap u with
    | none => none
    | some uv =>
      match uv.location with
      | ValuePtr.closed _ => none
      | ValuePtr.stack i =>
        if slot < i then
          match captureWalk heap slot rest with
          | none => none
          | some (passed, remaining) => some (u :: passed, remaining)
        else some ([], u :: rest)

/-- `captureUpvalue`: the returned upvalue and the state afterwards. -/
def captureUpvalue (vm : VM) (slot : Nat) : Option (ObjPtr × VM) :=
  match captureWalk vm.heap slot vm.openUpvalues with
  | none => none
  | some (passed, remaining) =>
    let found : Option ObjPtr :=
      match remaining with
      | [] => none
      | u :: _ =>
        match upvalueAt vm.heap u with
        | some uv => if uv.location = ValuePtr.stack slot then some u else none
        | none => none
    match found with
    | some u => some (u, vm)
    | none =>
      let (created, vm) := newUpvalue vm slot
      some (created, { vm with openUpvalues := passed ++ created :: remaining })

/-- The loop of `closeUpvalues` over the open upvalues, from the head: the
open upvalues left and the heap afterwards. -/
def closeLoop (stack : List Value) (last : Nat) : List ObjPtr → List Obj →
    Option (List ObjPtr × List Obj)
  | [], heap => some ([], heap)
  | u :: rest, heap =>
    match upvalueAt heap u with
    | none => none
    | some uv =>
      match uv.location with
      | ValuePtr.closed _ => none
      | ValuePtr.stack i =>
        if last ≤ i then
          match stack[i]? with
          | none => none
          | some v =>
            closeLoop stack last rest
              (heap.set u (Obj.upvalue { location := ValuePtr.closed u, closed := v }))
        else some (u :: rest, heap)

/-- `closeUpvalues`. -/
def closeUpvalues (vm : VM) (last : Nat) : Option VM :=
  match closeLoop vm.stack last vm.openUpvalues vm.heap with
  | none => none
  | some (openUpvalues, heap) => some { vm with openUpvalues := openUpvalues, heap := heap }

/-- Read `*p`. -/
def deref (vm : VM) (p : ValuePtr) : Option Value :=
  match p with
  | ValuePtr.stack i => vm.stack[i]?
  | ValuePtr.closed u =>
    match upvalueAt vm.heap u with
    | some uv => some uv.closed
    | none => none

/-- Write `*p = v`. -/
def assign (vm : VM) (p : ValuePtr) (v : Value) : Option VM :=
  match p with
  | ValuePtr.stack i =>
    if i < vm.stack.length then some { vm with stack := vm.stack.set i v } else none
  | ValuePtr.closed u =>
    match upvalueAt vm.heap u with
    | some uv => some { vm with heap := vm.heap.set u (Obj.upvalue { uv with closed := v }) }
    | none => none

/-- Read `*upvalue->location`. -/
def readUpvalue (vm : VM) (u : ObjPtr) : Option Value :=
  match upvalueAt vm.heap u with
  | some uv => deref vm uv.location
  | none => none

/-- `isFalsey`. -/
def isFalsey (value : Value) : Bool :=
  match value with
  | Value.nil => true
  | Value.bool b => !b
  | _ => false

/-- `IS_NUMBER(value)`. -/
def IS_NUMBER (v : Value) : Bool :=
  match v with
  | Value.number _ => true
  | _ => false

/-- `IS_STRING(value)`. -/
def IS_STRING (heap : List Obj) (v : Value) : Bool :=
  match v with
  | Value.obj p => (stringAt heap p).isSome
  | _ => false

/-- What `vm.c` calls that is not among the sources: `printValue` and
`valuesEqual` of `value.c`, the arithmetic of C doubles on their bit patterns,
and the host functions behind natives (by address, applied to `argCount` and
the arguments). -/
structure Host where
  printValue : List Obj → Value → String
  valuesEqual : Value → Value → Bool
  greater : Nat → Nat → Bool
  less : Nat → Nat → Bool
  add : Nat → Nat → Nat
  subtract : Nat → Nat → Nat
  multiply : Nat → Nat → Nat
  divide : Nat → Nat → Nat
  negate : Nat → Nat
  native : Nat → Nat → List Value → Value

/-- Modelled from the spec: the string hash of `object.c`, which is not among
the sources: 32-bit FNV-1a (spec §3). -/
def hashString (chars : List Nat) : Nat :=
  chars.foldl (fun hash c => ((hash ^^^ c) * 16777619) % 4294967296) 2166136261

/-- Modelled from the spec: `takeString` of `object.c`, which is not among the
sources (spec §4.4): the canonical string with these bytes if one is interned,
else a new string, which is inserted into the intern table. -/
def takeString (vm : VM) (chars : List Nat) (length : Nat) : Option (ObjPtr × VM) :=
  let hash := hashString (chars.take length)
  match tableFindString (strsOf vm.heap) vm.strings chars length hash with
  | none => none
  | some (some interned) => some (interned, vm)
  | some none =>
    let (string, vm) :=
      allocateObject vm (Obj.string { length := length, chars := chars, hash := hash })
    match tableSet (strsOf vm.heap) vm.strings string Value.nil with
    | none => none
    | some (_, strings) => some (string, { vm with strings := strings })

/-- `callValue`. -/
def callValue (host : Host) (vm : VM) (callee : Value) (argCount : Nat) : Option (Bool × VM) :=
  let notCallable := (runtimeError vm "Can only call functions and classes.").map
    (fun vm => (false, vm))
  match callee with
  | Value.obj p =>
    match vm.heap[p]? with
    | none => none
    | some (Obj.native fn) =>
      if vm.stackTop < argCount + 1 then none
      else
        let result := host.native fn argCount
          ((vm.stack.drop (vm.stackTop - argCount)).take argCount)
        (push { vm with stackTop := vm.stackTop - (argCount + 1) } result).map
          (fun vm => (true, vm))
    | some (Obj.closure _) => call vm p argCount
    | some _ => notCallable
  | _ => notCallable

/-- `concatenate`. -/
def concatenate (vm : VM) : Option VM :=
  match pop vm with
  | none => none
  | some (bv, vm) =>
    match pop vm with
    | none => none
    | some (av, vm) =>
      match av, bv with
      | Value.obj ap, Value.obj bp =>
        match stringAt vm.heap ap, stringAt vm.heap bp with
        | some a, some b =>
          let length := a.length + b.length
          let chars := a.chars.take a.length ++ b.chars.take b.length ++ [0]
          match takeString vm chars length with
          | none => none
          | some (result, vm) => push vm (Value.obj result)
        | _, _ => none
      | _, _ => none

/-- What one turn of the loop of `run` leads to: the loop goes on, or `run`
returns. -/
inductive Step where
  | next (vm : VM) : Step
  | halt (result : InterpretResult) (vm : VM) : Step
  deriving DecidableEq, Repr

/-- `return INTERPRET_RUNTIME_ERROR` after `runtimeError (message)`. -/
def failWith (vm : VM) (message : String) : Option Step :=
  (runtimeError vm message).map (Step.halt InterpretResult.INTERPRET_RUNTIME_ERROR)

/-- `READ_BYTE()` on the frame `vm.frames[fi]`. -/
def READ_BYTE (vm : VM) (fi : Nat) : Option (Nat × VM) :=
  match vm.frames[fi]? with
  | none => none
  | some frame =>
    match closureAt vm.heap frame.closure with
    | none => none
    | some closure =>
      match functionAt vm.heap closure.function with
      | none => none
      | some function =>
        match function.chunk.code[frame.ip]? with
        | none => none
        | some byte =>
          some (byte, { vm with frames := vm.frames.set fi { frame with ip := frame.ip + 1 } })

/-- `READ_CONSTANT()`. -/
def READ_CONSTANT (vm : VM) (fi : Nat) : Option (Value × VM) :=
  match READ_BYTE vm fi with
  | none => none
  | some (index, vm) =>
    match vm.frames[fi]? with
    | none => none
    | some frame =>
      match closureAt vm.heap frame.closure with
      | none => none
      | some closure =>
        match functionAt vm.heap closure.function with
        | none => none
        | some function =>
          match function.chunk.constants[index]? with
          | none => none
          | some value => some (value, vm)

/-- `READ_SHORT()`. -/
def READ_SHORT (vm : VM) (fi : Nat) : Option (Nat × VM) :=
  match READ_BYTE vm fi with
  | none => none
  | some (hi, vm) =>
    match READ_BYTE vm fi with
    | none => none
    | some (lo, vm) => some (((hi <<< 8) ||| lo) % 65536, vm)

/-- `READ_STRING()`: the constant is the address of a string object. -/
def READ_STRING (vm : VM) (fi : Nat) : Option (ObjPtr × VM) :=
  match READ_CONSTANT vm fi with
  | some (Value.obj p, vm) =>
    match stringAt vm.heap p with
    | some _ => some (p, vm)
    | none => none
  | _ => none

/-- Move `frame->ip` of the frame `vm.frames[fi]`. -/
def setIp (vm : VM) (fi : Nat) (f : Nat → Option Nat) : Option VM :=
  match vm.frames[fi]? with
  | none => none
  | some frame =>
    match f frame.ip with
    | none => none
    | some ip => some { vm with frames := vm.frames.set fi { frame with ip := ip } }

/-- `BINARY_OP(valueType, op)`. -/
def BINARY_OP (vm : VM) (op : Nat → Nat → Value) : Option Step :=
  match peek vm 0 with
  | none => none
  | some (Value.number _) =>
    match peek vm 1 with
    | none => none
    | some (Value.number _) =>
      match pop vm with
      | some (Value.number b, vm) =>
        match pop vm with
        | some (Value.number a, vm) => (push vm (op a b)).map Step.next
        | _ => none
      | _ => none
    | some _ => failWith vm "Operands must be numbers."
  | some _ => failWith vm "Operands must be numbers."

/-- `OpCode` of `chunk.h`. -/
inductive OpCode where
  | OP_CONSTANT | OP_NIL | OP_TRUE | OP_FALSE | OP_POP | OP_GET_LOCAL | OP_SET_LOCAL
  | OP_GET_GLOBAL | OP_DEFINE_GLOBAL | OP_SET_GLOBAL | OP_GET_UPVALUE | OP_SET_UPVALUE
  | OP_EQUAL | OP_GREATER | OP_LESS | OP_ADD | OP_SUBTRACT | OP_MULTIPLY | OP_DIVIDE
  | OP_NOT | OP_NEGATE | OP_PRINT | OP_JUMP | OP_JUMP_IF_FALSE | OP_LOOP | OP_CALL
  | OP_CLOSURE | OP_CLOSE_UPVALUE | OP_RETURN
  deriving DecidableEq, Repr

/-- The opcodes in the order of the `enum`: the opcode of value `n` is at
index `n`. -/
def OpCode.all : List OpCode :=
  [OP_CONSTANT, OP_NIL, OP_TRUE, OP_FALSE, OP_POP, OP_GET_LOCAL, OP_SET_LOCAL,
   OP_GET_GLOBAL, OP_DEFINE_GLOBAL, OP_SET_GLOBAL, OP_GET_UPVALUE, OP_SET_UPVALUE,
   OP_EQUAL, OP_GREATER, OP_LESS, OP_ADD, OP_SUBTRACT, OP_MULTIPLY, OP_DIVIDE,
   OP_NOT, OP_NEGATE, OP_PRINT, OP_JUMP, OP_JUMP_IF_FALSE, OP_LOOP, OP_CALL,
   OP_CLOSURE, OP_CLOSE_UPVALUE, OP_RETURN]

/-- The opcode an instruction byte stands for, if any. -/
def OpCode.ofByte (byte : Nat) : Option OpCode :=
  OpCode.all[byte]?

/-- The byte of an opcode. -/
def OpCode.toByte (op : OpCode) : Nat :=
  OpCode.all.indexOf op

/-- The `for` loop of `OP_CLOSURE` over the upvalue operands, from index `i`,
with `n` upvalues still to set. -/
def closureLoop (closure : ObjPtr) (fi : Nat) : Nat → Nat → VM → Option VM
  | 0, _, vm => some vm
  | n + 1, i, vm =>
    match READ_BYTE vm fi with
    | none => none
    | some (isLocal, vm) =>
      match READ_BYTE vm fi with
      | none => none
      | some (index, vm) =>
        match vm.frames[fi]? with
        | none => none
        | some frame =>
          let captured : Option (Option ObjPtr × VM) :=
            if isLocal ≠ 0 then
              (captureUpvalue vm (frame.slots + index)).map (fun r => (some r.1, r.2))
            else
              match closureAt vm.heap frame.closure with
              | none => none
              | some enclosing =>
                match enclosing.upvalues[index]? with
                | none => none
                | some u => some (u, vm)
          match captured with
          | none => none
          | some (u, vm) =>
            match closureAt vm.heap closure with
            | none => none
            | some c =>
              if i < c.upvalues.length then
                let c := Obj.closure { c with upvalues := c.upvalues.set i u }
                closureLoop closure fi n (i + 1) { vm with heap := vm.heap.set closure c }
              else none

/-- One turn of the `for (;;)` loop of `run`, built without
`DEBUG_TRACE_EXECUTION`: read an instruction byte of the frame
`vm.frames[vm.frameCount - 1]` and execute it. -/
def step (host : Host) (vm : VM) : Option Step :=
  if vm.frameCount = 0 then none
  else
    let fi := vm.frameCount - 1
    match READ_BYTE vm fi with
    | none => none
    | some (instruction, vm) =>
      match OpCode.ofByte instruction with
      | none => some (Step.next vm)
      | some OpCode.OP_CONSTANT =>
        match READ_CONSTANT vm fi with
        | none => none
        | some (aValue, vm) =>
          match push vm aValue with
          | none => none
          | some vm => some (Step.next { vm with out := vm.out ++ "\n" })
      | some OpCode.OP_NIL => (push vm Value.nil).map Step.next
      | some OpCode.OP_TRUE => (push vm (Value.bool true)).map Step.next
      | some OpCode.OP_FALSE => (push vm (Value.bool false)).map Step.next
      | some OpCode.OP_POP => (pop vm).map (fun r => Step.next r.2)
      | some OpCode.OP_GET_LOCAL =>
        match READ_BYTE vm fi with
        | none => none
        | some (offset8, vm) =>
          match vm.frames[fi]? with
          | none => none
          | some frame =>
            match vm.stack[frame.slots + offset8]? with
            | none => none
            | some v => (push vm v).map Step.next
      | some OpCode.OP_SET_LOCAL =>
        match READ_BYTE vm fi with
        | none => none
        | some (offset8, vm) =>
          match vm.frames[fi]?, peek vm 0 with
          | some frame, some v => (assign vm (ValuePtr.stack (frame.slots + offset8)) v).map Step.next
          | _, _ => none
      | some OpCode.OP_GET_GLOBAL =>
        match READ_STRING vm fi with
        | none => none
        | some (name, vm) =>
          match tableGet (strsOf vm.heap) vm.globals name with
          | none => none
          | some none =>
            failWith vm ("Undefined variable '" ++ cString (strsOf vm.heap name).chars ++ "'.")
          | some (some aValue) => (push vm aValue).map Step.next
      | some OpCode.OP_DEFINE_GLOBAL =>
        match READ_STRING vm fi with
        | none => none
        | some (name, vm) =>
          match peek vm 0 with
          | none => none
          | some v =>
            match tableSet (strsOf vm.heap) vm.globals name v with
            | none => none
            | some (_, globals) => (pop { vm with globals := globals }).map (fun r => Step.next r.2)
      | some OpCode.OP_SET_GLOBAL =>
        match READ_STRING vm fi with
        | none => none
        | some (name, vm) =>
          match peek vm 0 with
          | none => none
          | some v =>
            match tableSet (strsOf vm.heap) vm.globals name v with
            | none => none
            | some (true, globals) =>
              match tableDelete (strsOf vm.heap) globals name with
              | none => none
              | some (_, globals) =>
                failWith { vm with globals := globals }
                  ("Undefined variable '" ++ cString (strsOf vm.heap name).chars ++ "'.")
            | some (false, globals) => some (Step.next { vm with globals := globals })
      | some OpCode.OP_GET_UPVALUE =>
        match READ_BYTE vm fi with
        | none => none
        | some (offset8, vm) =>
          match vm.frames[fi]? with
          | none => none
          | some frame =>
            match closureAt vm.heap frame.closure with
            | none => none
            | some closure =>
              match closure.upvalues[offset8]? with
              | some (some u) =>
                match readUpvalue vm u with
                | none => none
                | some v => (push vm v).map Step.next
              | _ => none
      | some OpCode.OP_SET_UPVALUE =>
        match READ_BYTE vm fi with
        | none => none
        | some (offset8, vm) =>
          match vm.frames[fi]? with
          | none => none
          | some frame =>
            match closureAt vm.heap frame.closure with
            | none => none
            | some closure =>
              match closure.upvalues[offset8]?, peek vm 0 with
              | some (some u), some v =>
                match upvalueAt vm.heap u with
                | none => none
                | some uv => (assign vm uv.location v).map Step.next
              | _, _ => none
      | some OpCode.OP_EQUAL =>
        match pop vm with
        | none => none
        | some (bValue, vm) =>
          match pop vm with
          | none => none
          | some (aValue, vm) =>
            (push vm (Value.bool (host.valuesEqual aValue bValue))).map Step.next
      | some OpCode.OP_GREATER => BINARY_OP vm (fun a b => Value.bool (host.greater a b))
      | some OpCode.OP_LESS => BINARY_OP vm (fun a b => Value.bool (host.less a b))
      | some OpCode.OP_ADD =>
        match peek vm 0 with
        | none => none
        | some p0 =>
          let bothStrings : Option Bool :=
            if IS_STRING vm.heap p0 then (peek vm 1).map (IS_STRING vm.heap) else some false
          match bothStrings with
          | none => none
          | some true => (concatenate vm).map Step.next
          | some false =>
            let bothNumbers : Option Bool :=
              if IS_NUMBER p0 then (peek vm 1).map IS_NUMBER else some false
            match bothNumbers with
            | none => none
            | some true =>
              match pop vm with
              | some (Value.number b, vm) =>
                match pop vm with
                | some (Value.number a, vm) =>
                  (push vm (Value.number (host.add a b))).map Step.next
                | _ => none
              | _ => none
            | some false => failWith vm "Operands must be two numbers or two strings."
      | some OpCode.OP_SUBTRACT => BINARY_OP vm (fun a b => Value.number (host.subtract a b))
      | some OpCode.OP_MULTIPLY => BINARY_OP vm (fun a b => Value.number (host.multiply a b))
      | some OpCode.OP_DIVIDE => BINARY_OP vm (fun a b => Value.number (host.divide a b))
      | some OpCode.OP_NOT =>
        match pop vm with
        | none => none
        | some (v, vm) => (push vm (Value.bool (isFalsey v))).map Step.next
      | some OpCode.OP_NEGATE =>
        match peek vm 0 with
        | none => none
        | some (Value.number _) =>
          match pop vm with
          | some (Value.number a, vm) => (push vm (Value.number (host.negate a))).map Step.next
          | _ => none
        | some _ => failWith vm "Operand must be a number."
      | some OpCode.OP_PRINT =>
        match pop vm with
        | none => none
        | some (v, vm) =>
          some (Step.next { vm with out := vm.out ++ host.printValue vm.heap v ++ "\n" })
      | some OpCode.OP_JUMP =>
        match READ_SHORT vm fi with
        | none => none
        | some (offset16, vm) => (setIp vm fi (fun ip => some (ip + offset16))).map Step.next
      | some OpCode.OP_JUMP_IF_FALSE =>
        match READ_SHORT vm fi with
        | none => none
        | some (offset16, vm) =>
          match peek vm 0 with
          | none => none
          | some v =>
            if isFalsey v then (setIp vm fi (fun ip => some (ip + offset16))).map Step.next
            else some (Step.next vm)
      | some OpCode.OP_LOOP =>
        match READ_SHORT vm fi with
        | none => none
        | some (offset16, vm) =>
          (setIp vm fi (fun ip => if ip < offset16 then none else some (ip - offset16))).map
            Step.next
      | some OpCode.OP_CALL =>
        match READ_BYTE vm fi with
        | none => none
        | some (argCount, vm) =>
          match peek vm argCount with
          | none => none
          | some callee =>
            match callValue host vm callee argCount with
            | none => none
            | some (false, vm) => some (Step.halt InterpretResult.INTERPRET_RUNTIME_ERROR vm)
            | some (true, vm) => some (Step.next vm)
      | some OpCode.OP_CLOSURE =>
        match READ_CONSTANT vm fi with
        | some (Value.obj function, vm) =>
          match newClosure vm function with
          | none => none
          | some (closure, vm) =>
            match push vm (Value.obj closure), closureAt vm.heap closure with
            | some vm, some c => (closureLoop closure fi c.upvalueCount 0 vm).map Step.next
            | _, _ => none
        | _ => none
      | some OpCode.OP_CLOSE_UPVALUE =>
        if vm.stackTop = 0 then none
        else
          match closeUpvalues vm (vm.stackTop - 1) with
          | none => none
          | some vm => (pop vm).map (fun r => Step.next r.2)
      | some OpCode.OP_RETURN =>
        match pop vm with
        | none => none
        | some (result, vm) =>
          match vm.frames[fi]? with
          | none => none
          | some frame =>
            match closeUpvalues vm frame.slots with
            | none => none
            | some vm =>
              let vm := { vm with frameCount := vm.frameCount - 1 }
              if vm.frameCount = 0 then
                (pop vm).map (fun r => Step.halt InterpretResult.INTERPRET_OK r.2)
              else (push { vm with stackTop := frame.slots } result).map Step.next

/-- The loop of `run`, for at most `fuel` instructions. -/
def run (host : Host) : Nat → VM → Option (InterpretResult × VM)
  | 0, _ => none
  | fuel + 1, vm =>
    match step host vm with
    | none => none
    | some (Step.halt result vm) => some (result, vm)
    | some (Step.next vm) => run host fuel vm

/-- `interpret`, applied to what `compile (source)` returned: `none` for
`NULL`, else the address of the top-level function. -/
def interpret (host : Host) (fuel : Nat) (vm : VM) (compiled : Option ObjPtr) :
    Option (InterpretResult × VM) :=
  match compiled with
  | none => some (InterpretResult.INTERPRET_COMPILE_ERROR, vm)
  | some function =>
    match push vm (Value.obj function) with
    | none => none
    | some vm =>
      match newClosure vm function with
      | none => none
      | some (closure, vm) =>
        match pop vm with
        | none => none
        | some (_, vm) =>
          match push vm (Value.obj closure) with
          | none => none
          | some vm =>
            match call vm closure 0 with
            | none => none
            | some (_, vm) => run host fuel vm

/-! ## Well-formed tables -/

/-- The slot is truly empty: `key == NULL` and `IS_NIL(value)`. -/
def Entry.isEmpty (e : Entry) : Bool :=
  e.key.isNone && IS_NIL e.value

/-- Key stored in slot `i` (`none` for an empty slot, a tombstone, or an index
outside the array). -/
def keyAt (entries : List Entry) (i : Nat) : Option ObjPtr :=
  match entries[i]? with
  | some e => e.key
  | none => none

/-- Slot `i` exists and is truly empty. -/
def emptyAt (entries : List Entry) (i : Nat) : Bool :=
  match entries[i]? with
  | some e => e.isEmpty
  | none => false

/-- Slot inspected `j` steps after the home slot of hash `h`. -/
def probe (capacity h j : Nat) : Nat :=
  (h + j) % capacity

/-- Well-formedness of the slot array: it has `capacity` slots, no key is
stored twice, and no truly empty slot lies between the home slot of a stored
key and the slot that holds it (tombstones and other keys may). -/
def RawWF (strs : ObjPtr → ObjString) (capacity : Nat) (entries : List Entry) : Prop :=
  entries.length = capacity ∧
  (∀ i, i < capacity → ∀ j, j < capacity →
    keyAt entries i ≠ none → keyAt entries i = keyAt entries j → i = j) ∧
  (∀ i, i < capacity → ∀ k, k ∈ keyAt entries i → ∀ d, d < capacity →
    probe capacity (strs k).hash d = i →
    ∀ j, j < d → emptyAt entries (probe capacity (strs k).hash j) = false)

instance (strs : ObjPtr → ObjString) (capacity : Nat) (entries : List Entry) :
    Decidable (RawWF strs capacity entries) := by
  unfold RawWF; infer_instance

/-- Number of slots that are not truly empty (live entries plus tombstones). -/
def occupied (entries : List Entry) : Nat :=
  entries.countP (fun e => !e.isEmpty)

/-- Well-formed table: a well-formed slot array, `count` is the number of
non-empty slots, and a table with slots has a truly empty one. -/
def Table.WF (strs : ObjPtr → ObjString) (t : Table) : Prop :=
  RawWF strs t.capacity t.entries ∧ t.count = occupied t.entries ∧
  (t.capacity = 0 ∨ t.count < t.capacity)

instance (strs : ObjPtr → ObjString) (t : Table) : Decidable (t.WF strs) := by
  unfold Table.WF; infer_instance

/-- Key `k` has a live entry with value `v`. -/
def Live (entries : List Entry) (k : ObjPtr) (v : Value) : Prop :=
  ∃ i : Nat, entries[i]? = some (Entry.mk (some k) v)

/-- Slot `r` is where key `k` belongs: it holds `k` or no key, no other slot
holds `k`, and no truly empty slot comes before it on the probe path of `k`. -/
def Admissible (strs : ObjPtr → ObjString) (capacity : Nat) (entries : List Entry)
    (k : ObjPtr) (r : Nat) : Prop :=
  r < capacity ∧ (keyAt entries r = none ∨ keyAt entries r = some k) ∧
  (∀ i, keyAt entries i = some k → i = r) ∧
  (∀ d, d < capacity → probe capacity (strs k).hash d = r →
    ∀ j, j < d → emptyAt entries (probe capacity (strs k).hash j) = false)

/-- Number of slots that hold a key. -/
def liveCount (entries : List Entry) : Nat :=
  entries.countP (fun e => e.key.isSome)

/-- No slot of the array is a tombstone. -/
def NoTomb (entries : List Entry) : Prop :=
  ∀ e ∈ entries, e.key = none → e.isEmpty = true

/-- No key occurs in two slots of the list. -/
def DistinctKeys (l : List Entry) : Prop :=
  l.Pairwise (fun a b => ∀ k, a.key = some k → b.key ≠ some k)

/-! ## The open-upvalue list -/

/-- Stack slot an upvalue points to, if the address holds an open upvalue. -/
def openLocation (heap : List Obj) (u : ObjPtr) : Option Nat :=
  match upvalueAt heap u with
  | some uv =>
    match uv.location with
    | ValuePtr.stack i => some i
    | ValuePtr.closed _ => none
  | none => none

/-- The locations of the upvalues of a list. -/
def openLocs (heap : List Obj) (l : List ObjPtr) : List (Option Nat) :=
  l.map (openLocation heap)

/-- Both are stack slots and the second lies strictly below the first. -/
def locBelow : Option Nat → Option Nat → Bool
  | some i, some j => decide (j < i)
  | _, _ => false

/-- The location is a slot of a stack array of `n` values. -/
def locInStack (n : Nat) : Option Nat → Bool
  | some i => decide (i < n)
  | none => false

/-- The open-upvalue list is sorted by strictly decreasing location: every
entry is an upvalue that points into the stack array, and each points strictly
below the entries before it. -/
def OpenSorted (vm : VM) : Prop :=
  (openLocs vm.heap vm.openUpvalues).Pairwise (fun a b => locBelow a b = true) ∧
  ∀ a ∈ openLocs vm.heap vm.openUpvalues, locInStack vm.stack.length a = true

instance (vm : VM) : Decidable (OpenSorted vm) := by
  unfold OpenSorted; infer_instance

/-! ## Sample data -/

/-- String objects for the samples: the string at address `p` has the single
byte `p`, and its hash is `p`. -/
def sampleStrs : ObjPtr → ObjString :=
  fun p => { length := 1, chars := [p], hash := p }

/-- A table of capacity 8 with the keys 1 and 17 (home slot 1 both) and a
tombstone between them. -/
def sampleTable : Table :=
  { count := 3, capacity := 8,
    entries :=
      [{ key := none, value := Value.nil },
       { key := some 1, value := Value.number 10 },
       { key := none, value := Value.bool true },
       { key := some 17, value := Value.number 170 },
       { key := none, value := Value.nil },
       { key := none, value := Value.nil },
       { key := none, value := Value.nil },
       { key := none, value := Value.nil }] }

/-- The bytes `(chars, length)` of a string object. -/
def ObjString.bytes (s : ObjString) : List Nat :=
  s.chars.take s.length

/-- String objects for the interning samples: the string at address `p` has
the two bytes `p / 16` and `p % 16`, and stores their FNV-1a hash. -/
def internStrs : ObjPtr → ObjString :=
  fun p => { length := 2, chars := [p / 16, p % 16, 0], hash := hashString [p / 16, p % 16] }

/-- An intern table of capacity 8 with the strings at 5 and 22 (home slot 6
both) and a tombstone between them; the probe path of 22 wraps around. -/
def internTable : Table :=
  { count := 3, capacity := 8,
    entries :=
      [{ key := some 22, value := Value.nil },
       { key := none, value := Value.nil },
       { key := none, value := Value.nil },
       { key := none, value := Value.nil },
       { key := none, value := Value.nil },
       { key := none, value := Value.nil },
       { key := some 5, value := Value.nil },
       { key := none, value := Value.bool true }] }

/-- A state with three open upvalues, at the addresses 0, 1 and 2, which point
to the stack slots 5, 3 and 1. -/
def upvalueVM : VM :=
  { frames := [{ closure := 0, ip := 0, slots := 0 }],
    frameCount := 0,
    stack := [Value.number 10, Value.number 11, Value.number 12, Value.number 13,
      Value.number 14, Value.number 15, Value.nil, Value.nil],
    stackTop := 6,
    globals := initTable,
    strings := initTable,
    openUpvalues := [0, 1, 2],
    objects := [2, 1, 0],
    heap := [Obj.upvalue { location := ValuePtr.stack 5, closed := Value.nil },
      Obj.upvalue { location := ValuePtr.stack 3, closed := Value.nil },
      Obj.upvalue { location := ValuePtr.stack 1, closed := Value.nil }],
    out := "",
    err := "" }

/-- The stack trace of `runtimeError` is defined: every active frame has a
line to report. -/
def TraceDefined (vm : VM) : Prop :=
  ∀ i, i < vm.frameCount →
    (match vm.frames[i]? with
      | some frame => (traceLine vm.heap frame).isSome
      | none => false) = true

instance (vm : VM) : Decidable (TraceDefined vm) := by
  unfold TraceDefined; infer_instance

/-- A host whose functions are constant. -/
def plainHost : Host :=
  { printValue := fun _ _ => "",
    valuesEqual := fun _ _ => false,
    greater := fun _ _ => false,
    less := fun _ _ => false,
    add := fun _ _ => 0,
    subtract := fun _ _ => 0,
    multiply := fun _ _ => 0,
    divide := fun _ _ => 0,
    negate := fun _ => 0,
    native := fun _ _ _ => Value.nil }

/-- A state about to execute `x = 5;` for an undefined global `x`: the script
at address 0 has the code `OP_SET_GLOBAL 0`, its closure is at address 1, the
name `x` at address 2, and the only global is `y`, at address 3, with value 1;
the value 5 is on top of the stack. -/
def setGlobalVM : VM :=
  { frames := [{ closure := 1, ip := 0, slots := 0 }, { closure := 0, ip := 0, slots := 0 }],
    frameCount := 1,
    stack := [Value.obj 1, Value.number 5, Value.nil, Value.nil],
    stackTop := 2,
    globals :=
      { count := 1, capacity := 8,
        entries :=
          [{ key := none, value := Value.nil },
           { key := some 3, value := Value.number 1 },
           { key := none, value := Value.nil },
           { key := none, value := Value.nil },
           { key := none, value := Value.nil },
           { key := none, value := Value.nil },
           { key := none, value := Value.nil },
           { key := none, value := Value.nil }] },
    strings := initTable,
    openUpvalues := [],
    objects := [3, 2, 1, 0],
    heap :=
      [Obj.function
        { arity := 0, upvalueCount := 0,
          chunk := { code := [9, 0, 4, 1, 28], lines := [1, 1, 1, 1, 1],
                     constants := [Value.obj 2] },
          name := none },
       Obj.closure { function := 0, upvalues := [], upvalueCount := 0 },
       Obj.string { length := 1, chars := [120, 0], hash := 17 },
       Obj.string { length := 1, chars := [121, 0], hash := 9 }],
    out := "",
    err := "" }

/-- A state about to execute `OP_CONSTANT 0`: the script at address 0, its
closure at address 1, which is in slot 0 of the stack. -/
def constantVM : VM :=
  { frames := [{ closure := 1, ip := 0, slots := 0 }, { closure := 0, ip := 0, slots := 0 }],
    frameCount := 1,
    stack := [Value.obj 1, Value.nil, Value.nil, Value.nil],
    stackTop := 1,
    globals := initTable,
    strings := initTable,
    openUpvalues := [],
    objects := [1, 0],
    heap :=
      [Obj.function
        { arity := 0, upvalueCount := 0,
          chunk := { code := [0, 0, 21, 1, 28], lines := [1, 1, 1, 1, 1],
                     constants := [Value.number 1] },
          name := none },
       Obj.closure { function := 0, upvalues := [], upvalueCount := 0 }],
    out := "",
    err := "" }

/-- The state in which `OP_SET_GLOBAL` of `setGlobalVM` signals its error: the
operand has been read; four heap objects are linked in `objects`. -/
def errorVM : VM :=
  { setGlobalVM with frames :=
      [{ closure := 1, ip := 2, slots := 0 }, { closure := 0, ip := 0, slots := 0 }] }

/-! ## Tables reached from `initTable` -/

/-- The tables reached from `initTable` by any sequence of `tableSet`,
`tableDelete` and `tableAddAll` (from any source table) that returns. -/
inductive Reachable (strs : ObjPtr → ObjString) : Table → Prop where
  | init : Reachable strs initTable
  | set {t t' : Table} {k : ObjPtr} {v : Value} {b : Bool} :
      Reachable strs t → tableSet strs t k v = some (b, t') → Reachable strs t'
  | delete {t t' : Table} {k : ObjPtr} {b : Bool} :
      Reachable strs t → tableDelete strs t k = some (b, t') → Reachable strs t'
  | addAll {src dst dst' : Table} :
      Reachable strs dst → tableAddAll strs src dst = some dst' → Reachable strs dst'

/-- The occupancy invariant: a well-formed table whose capacity is 0 or
`8 * 2 ^ k` and whose `count` is at most 0.75 times the capacity. -/
def Occupancy (strs : ObjPtr → ObjString) (t : Table) : Prop :=
  t.WF strs ∧ (t.capacity = 0 ∨ ∃ k, t.capacity = 8 * 2 ^ k) ∧ 4 * t.count ≤ 3 * t.capacity

/-- The table after `tableSet` of key 1 into `initTable`. -/
def oneKeyTable : Table :=
  { count := 1, capacity := 8,
    entries :=
      [{ key := none, value := Value.nil },
       { key := some 1, value := Value.number 10 },
       { key := none, value := Value.nil },
       { key := none, value := Value.nil },
       { key := none, value := Value.nil },
       { key := none, value := Value.nil },
       { key := none, value := Value.nil },
       { key := none, value := Value.nil }] }

/-- The table after `tableDelete` of key 1 from `oneKeyTable`: a tombstone is
its only non-empty slot. -/
def tombstoneTable : Table :=
  { oneKeyTable with
    entries := oneKeyTable.entries.set 1 { key := none, value := Value.bool true } }

/-! ## Runtime errors and calls -/

/-- The stack trace `runtimeError` prints after its message: one line per
active frame, the top-most first. -/
def stackTrace (vm : VM) : Option String :=
  traceLoop vm.heap vm.frames vm.frameCount ""

/-- The state after `runtimeError (message)`: the message, a newline and the
stack trace `trace` have been written to stderr, and `resetStack` has run. -/
def afterError (vm : VM) (message trace : String) : VM :=
  resetStack { vm with err := vm.err ++ message ++ "\n" ++ trace }

/-- A state about to call a function of two parameters with two arguments:
the script at address 0 and its closure at 1, the function `f` at 2 and its
closure at 3, the name `f` at 4; the script has read `OP_CALL 2`; the callee is
in stack slot 1 and the arguments are in the slots 2 and 3. -/
def callVM : VM :=
  { frames := [{ closure := 1, ip := 2, slots := 0 }, { closure := 0, ip := 0, slots := 0 },
      { closure := 0, ip := 0, slots := 0 }],
    frameCount := 1,
    stack := [Value.obj 1, Value.obj 3, Value.number 7, Value.number 8, Value.nil, Value.nil],
    stackTop := 4,
    globals := initTable,
    strings := initTable,
    openUpvalues := [],
    objects := [4, 3, 2, 1, 0],
    heap :=
      [Obj.function
        { arity := 0, upvalueCount := 0,
          chunk := { code := [25, 2, 4, 1, 28], lines := [1, 1, 1, 1, 1], constants := [] },
          name := none },
       Obj.closure { function := 0, upvalues := [], upvalueCount := 0 },
       Obj.function
        { arity := 2, upvalueCount := 0,
          chunk := { code := [1, 28], lines := [2, 2], constants := [] },
          name := some 4 },
       Obj.closure { function := 2, upvalues := [], upvalueCount := 0 },
       Obj.string { length := 1, chars := [102, 0], hash := 5 }],
    out := "",
    err := "" }

/-- The value is neither a native nor a closure: it is nil, a Boolean, a
number, or a reference to a string, a bare function or an upvalue. -/
def notCallable (heap : List Obj) (callee : Value) : Bool :=
  match callee with
  | Value.obj p =>
    match heap[p]? with
    | some (Obj.string _) => true
    | some (Obj.function _) => true
    | some (Obj.upvalue _) => true
    | _ => false
  | _ => true

/-- The arguments of a call with `argCount` arguments: the top `argCount`
values of the stack, the first pushed first. -/
def callArgs (vm : VM) (argCount : Nat) : List Value :=
  (vm.stack.drop (vm.stackTop - argCount)).take argCount

/-- A host whose native at address 0 returns its second argument. -/
def secondArgHost : Host :=
  { plainHost with
    native := fun _ _ args =>
      match args with
      | [_, b] => b
      | _ => Value.nil }

/-- A state about to call a native with two arguments: as `callVM`, with the
native at address 5 as the callee in stack slot 1. -/
def nativeCallVM : VM :=
  { callVM with
    stack := [Value.obj 1, Value.obj 5, Value.number 7, Value.number 8, Value.nil, Value.nil],
    heap := callVM.heap ++ [Obj.native 0],
    objects := 5 :: callVM.objects }

/-! ## The current frame of the dispatcher -/

/-- The frame `vm.frames[vm.frameCount - 1]` the dispatcher executes in. -/
def currentFrame (vm : VM) : Option CallFrame :=
  if vm.frameCount = 0 then none else vm.frames[vm.frameCount - 1]?

/-- The code bytes `frame->closure->function->chunk.code` of a frame. -/
def frameCode (heap : List Obj) (frame : CallFrame) : Option (List Nat) :=
  match closureAt heap frame.closure with
  | none => none
  | some closure =>
    match functionAt heap closure.function with
    | none => none
    | some function => some function.chunk.code

/-- The state with the `ip` of the current frame `frame` moved to `ip`. -/
def atIp (vm : VM) (frame : CallFrame) (ip : Nat) : VM :=
  { vm with frames := vm.frames.set (vm.frameCount - 1) { frame with ip := ip } }

/-- A state about to execute `OP_JUMP_IF_FALSE` with the operand bytes 1 and 2
while `false` is on top of the stack. -/
def jumpVM : VM :=
  { frames := [{ closure := 1, ip := 1, slots := 0 }, { closure := 0, ip := 0, slots := 0 }],
    frameCount := 1,
    stack := [Value.obj 1, Value.bool false, Value.nil, Value.nil],
    stackTop := 2,
    globals := initTable,
    strings := initTable,
    openUpvalues := [],
    objects := [1, 0],
    heap :=
      [Obj.function
        { arity := 0, upvalueCount := 0,
          chunk := { code := [3, 23, 1, 2, 4, 1, 28], lines := [1, 1, 1, 1, 1, 1, 1],
                     constants := [] },
          name := none },
       Obj.closure { function := 0, upvalues := [], upvalueCount := 0 }],
    out := "",
    err := "" }

/-- The `valueType (a op b)` of the five cases of `run` that expand
`BINARY_OP`: `BOOL_VAL` of `>` and `<`, `NUMBER_VAL` of `-`, `*` and `/`, with
the value below the top as the left operand. -/
def binaryOperator (host : Host) : OpCode → Option (Nat → Nat → Value)
  | OpCode.OP_GREATER => some (fun a b => Value.bool (host.greater a b))
  | OpCode.OP_LESS => some (fun a b => Value.bool (host.less a b))
  | OpCode.OP_SUBTRACT => some (fun a b => Value.number (host.subtract a b))
  | OpCode.OP_MULTIPLY => some (fun a b => Value.number (host.multiply a b))
  | OpCode.OP_DIVIDE => some (fun a b => Value.number (host.divide a b))
  | _ => none

/-- A state about to execute `OP_DIVIDE` on the numbers 6 (below) and 0 (on
top). -/
def divideVM : VM :=
  { jumpVM with
    frames := [{ closure := 1, ip := 0, slots := 0 }, { closure := 0, ip := 0, slots := 0 }],
    stack := [Value.obj 1, Value.number 6, Value.number 0, Value.nil],
    stackTop := 3,
    heap :=
      [Obj.function
        { arity := 0, upvalueCount := 0,
          chunk := { code := [18, 4, 1, 28], lines := [1, 1, 1, 1], constants := [] },
          name := none },
       Obj.closure { function := 0, upvalues := [], upvalueCount := 0 }] }

/-- A host whose division returns 1000 times the left operand plus the right
operand. -/
def divideHost : Host :=
  { plainHost with divide := fun a b => 1000 * a + b }

/-- What `closeUpvalues (last)` has done between `vm` and `vm'`: every upvalue
still open points strictly below `last`, and every upvalue that was open at
`last` or above is off the list and closed, holding the value of its slot. -/
def ClosedFrom (vm vm' : VM) (last : Nat) : Prop :=
  (∀ u ∈ vm'.openUpvalues, ∃ i, openLocation vm'.heap u = some i ∧ i < last) ∧
  ∀ u ∈ vm.openUpvalues, ∀ i, openLocation vm.heap u = some i → last ≤ i →
    u ∉ vm'.openUpvalues ∧ ∃ v, vm.stack[i]? = some v ∧
      upvalueAt vm'.heap u = some { location := ValuePtr.closed u, closed := v }

/-- A state about to execute `OP_RETURN` in a called frame whose slots start at
1, with the result 9 on top and an open upvalue on the slot 2. -/
def returnVM : VM :=
  { callVM with
    frames := [{ closure := 1, ip := 2, slots := 0 }, { closure := 3, ip := 1, slots := 1 },
      { closure := 0, ip := 0, slots := 0 }],
    frameCount := 2,
    stack := [Value.obj 1, Value.obj 3, Value.number 7, Value.number 8, Value.number 9,
      Value.nil],
    stackTop := 5,
    openUpvalues := [5],
    objects := [5, 4, 3, 2, 1, 0],
    heap := callVM.heap ++ [Obj.upvalue { location := ValuePtr.stack 2, closed := Value.nil }] }

/-- A state about to execute `OP_ADD` on the strings "ab" (below) and "c" (on
top), neither "abc" nor any other string being interned. -/
def addVM : VM :=
  { jumpVM with
    frames := [{ closure := 1, ip := 0, slots := 0 }, { closure := 0, ip := 0, slots := 0 }],
    stack := [Value.obj 1, Value.obj 2, Value.obj 3, Value.nil],
    stackTop := 3,
    objects := [3, 2, 1, 0],
    heap :=
      [Obj.function
        { arity := 0, upvalueCount := 0,
          chunk := { code := [15, 4, 1, 28], lines := [1, 1, 1, 1], constants := [] },
          name := none },
       Obj.closure { function := 0, upvalues := [], upvalueCount := 0 },
       Obj.string { length := 2, chars := [97, 98, 0], hash := hashString [97, 98] },
       Obj.string { length := 1, chars := [99, 0], hash := hashString [99] }] }

/-! ## What a helper of the dispatcher leaves in place -/

/-- Function objects stay what they are, and closure objects keep their
function. -/
def HeapKept (heap heap' : List Obj) : Prop :=
  (∀ p fn, functionAt heap p = some fn → functionAt heap' p = some fn) ∧
  ∀ p c, closureAt heap p = some c →
    ∃ c', closureAt heap' p = some c' ∧ c'.function = c.function

/-- Between `vm` and `vm'` the arrays keep their sizes, the frame count is the
same, every frame other than `fi` is unchanged, the frame `fi` keeps its
closure and slots, the heap keeps its functions, and a stack pointer inside
the stack array stays inside it. -/
def Pres (fi : Nat) (vm vm' : VM) : Prop :=
  vm'.stack.length = vm.stack.length ∧
  vm'.frames.length = vm.frames.length ∧
  vm'.frameCount = vm.frameCount ∧
  (∀ i, i ≠ fi → vm'.frames[i]? = vm.frames[i]?) ∧
  (∀ f, vm.frames[fi]? = some f →
    ∃ f', vm'.frames[fi]? = some f' ∧ f'.closure = f.closure ∧ f'.slots = f.slots) ∧
  HeapKept vm.heap vm'.heap ∧
  (vm.stackTop ≤ vm.stack.length → vm'.stackTop ≤ vm'.stack.length)

/-- The `ip` of the frame `fi`, as an offset into its chunk. -/
def ipAt (vm : VM) (fi : Nat) : Nat :=
  match vm.frames[fi]? with
  | some f => f.ip
  | none => 0

/-- The chunk `frame->closure->function->chunk` of the frame `fi`. -/
def chunkAt (vm : VM) (fi : Nat) : Option Chunk :=
  match vm.frames[fi]? with
  | none => none
  | some frame =>
    match closureAt vm.heap frame.closure with
    | none => none
    | some closure =>
      match functionAt vm.heap closure.function with
      | none => none
      | some function => some function.chunk

/-- `Pres`, with the `ip` of the frame `fi` advanced by `dip` and the stack
height changed by `up` pushes and `down` pops. -/
def Eff (fi : Nat) (vm vm' : VM) (dip up down : Nat) : Prop :=
  Pres fi vm vm' ∧ ipAt vm' fi = ipAt vm fi + dip ∧ vm'.stackTop + down = vm.stackTop + up

/-- The state a step of the dispatcher leads to. -/
def Step.vm : Step → VM
  | Step.next vm => vm
  | Step.halt _ vm => vm

/-! ## The stack effect of an instruction -/

/-- Modelled from the spec: the compiler (`compiler.c`) is not among the
sources; spec §6 (a) has its chunks push and pop consistently with §4. The
effect of §4.8 of one instruction `op` at `ip`, met at the stack height `h`,
on the frame that executes it: the addresses at which the frame can go on and
the stack height there (for `OP_CALL`, once the callee has returned its one
value in place of itself and its arguments). `OP_RETURN` leaves the frame. -/
def opEffect (heap : List Obj) (chunk : Chunk) (ip h : Nat) : Option OpCode → List (Nat × Nat)
  | none => [(ip + 1, h)]
  | some OpCode.OP_CONSTANT => [(ip + 2, h + 1)]
  | some OpCode.OP_NIL => [(ip + 1, h + 1)]
  | some OpCode.OP_TRUE => [(ip + 1, h + 1)]
  | some OpCode.OP_FALSE => [(ip + 1, h + 1)]
  | some OpCode.OP_POP => [(ip + 1, h - 1)]
  | some OpCode.OP_GET_LOCAL => [(ip + 2, h + 1)]
  | some OpCode.OP_SET_LOCAL => [(ip + 2, h)]
  | some OpCode.OP_GET_GLOBAL => [(ip + 2, h + 1)]
  | some OpCode.OP_DEFINE_GLOBAL => [(ip + 2, h - 1)]
  | some OpCode.OP_SET_GLOBAL => [(ip + 2, h)]
  | some OpCode.OP_GET_UPVALUE => [(ip + 2, h + 1)]
  | some OpCode.OP_SET_UPVALUE => [(ip + 2, h)]
  | some OpCode.OP_EQUAL => [(ip + 1, h - 1)]
  | some OpCode.OP_GREATER => [(ip + 1, h - 1)]
  | some OpCode.OP_LESS => [(ip + 1, h - 1)]
  | some OpCode.OP_ADD => [(ip + 1, h - 1)]
  | some OpCode.OP_SUBTRACT => [(ip + 1, h - 1)]
  | some OpCode.OP_MULTIPLY => [(ip + 1, h - 1)]
  | some OpCode.OP_DIVIDE => [(ip + 1, h - 1)]
  | some OpCode.OP_NOT => [(ip + 1, h)]
  | some OpCode.OP_NEGATE => [(ip + 1, h)]
  | some OpCode.OP_PRINT => [(ip + 1, h - 1)]
  | some OpCode.OP_JUMP =>
    match chunk.code[ip + 1]?, chunk.code[ip + 2]? with
    | some hi, some lo => [(ip + 3 + ((hi <<< 8) ||| lo) % 65536, h)]
    | _, _ => []
  | some OpCode.OP_JUMP_IF_FALSE =>
    match chunk.code[ip + 1]?, chunk.code[ip + 2]? with
    | some hi, some lo => [(ip + 3 + ((hi <<< 8) ||| lo) % 65536, h), (ip + 3, h)]
    | _, _ => []
  | some OpCode.OP_LOOP =>
    match chunk.code[ip + 1]?, chunk.code[ip + 2]? with
    | some hi, some lo => [(ip + 3 - ((hi <<< 8) ||| lo) % 65536, h)]
    | _, _ => []
  | some OpCode.OP_CALL =>
    match chunk.code[ip + 1]? with
    | some argCount => [(ip + 2, h - argCount)]
    | none => []
  | some OpCode.OP_CLOSURE =>
    match chunk.code[ip + 1]? with
    | none => []
    | some index =>
      match chunk.constants[index]? with
      | some (Value.obj function) =>
        match functionAt heap function with
        | some fn => [(ip + 2 + 2 * fn.upvalueCount, h + 1)]
        | none => []
      | _ => []
  | some OpCode.OP_CLOSE_UPVALUE => [(ip + 1, h - 1)]
  | some OpCode.OP_RETURN => []

/-- Modelled from the spec: `opEffect` of the instruction at `ip` of the
chunk. -/
def stackEffect (heap : List Obj) (chunk : Chunk) (ip h : Nat) : List (Nat × Nat) :=
  match chunk.code[ip]? with
  | none => []
  | some byte => opEffect heap chunk ip h (OpCode.ofByte byte)

/-- The frame `vm.frameCount - 1` keeps its closure and its slots. -/
def KeepsFrame (vm vm' : VM) : Prop :=
  ∀ f, vm.frames[vm.frameCount - 1]? = some f →
    ∃ f', vm'.frames[vm.frameCount - 1]? = some f' ∧ f'.closure = f.closure ∧
      f'.slots = f.slots

/-- What a step of the dispatcher that goes on does to the state, `chunk`
being the chunk of the current frame: the arrays keep their sizes, the heap its
functions, the frames below the current one are untouched and a stack pointer
inside the array stays inside; and either the current frame goes on at an
address and height that `stackEffect` allows, or a frame is added on top whose
return leads to such an address and height, or the current frame is left, with
the stack cut to its slots and the result. -/
def StepEffect (vm vm' : VM) (chunk : Chunk) : Prop :=
  (vm'.stack.length = vm.stack.length ∧ vm'.frames.length = vm.frames.length ∧
    HeapKept vm.heap vm'.heap ∧
    (∀ i, i + 1 < vm.frameCount → vm'.frames[i]? = vm.frames[i]?) ∧
    (vm.stackTop ≤ vm.stack.length → vm'.stackTop ≤ vm'.stack.length)) ∧
  ((vm'.frameCount = vm.frameCount ∧ KeepsFrame vm vm' ∧
      (ipAt vm' (vm.frameCount - 1), vm'.stackTop)
        ∈ stackEffect vm.heap chunk (ipAt vm (vm.frameCount - 1)) vm.stackTop) ∨
    (vm'.frameCount = vm.frameCount + 1 ∧ KeepsFrame vm vm' ∧
      ∃ new, vm'.frames[vm.frameCount]? = some new ∧
        (ipAt vm' (vm.frameCount - 1), new.slots + 1)
          ∈ stackEffect vm.heap chunk (ipAt vm (vm.frameCount - 1)) vm.stackTop) ∨
    (vm'.frameCount + 1 = vm.frameCount ∧ vm'.frameCount ≠ 0 ∧
      ∃ f, vm.frames[vm.frameCount - 1]? = some f ∧ vm'.stackTop = f.slots + 1))

/-- What a step of the dispatcher leads to: it goes on as `StepEffect` says,
or it halts with no frame left, either on a runtime error, the stack reset, or
with `INTERPRET_OK` from the `OP_RETURN` of the only frame, two values
popped. -/
def Outcome (vm : VM) (s : Step) : Prop :=
  vm.frameCount ≠ 0 ∧ ∃ chunk, chunkAt vm (vm.frameCount - 1) = some chunk ∧
    match s with
    | Step.next vm' => StepEffect vm vm' chunk
    | Step.halt r vm' =>
      vm'.frameCount = 0 ∧ vm'.stack.length = vm.stack.length ∧
      ((r = InterpretResult.INTERPRET_RUNTIME_ERROR ∧ vm'.stackTop = 0) ∨
        (r = InterpretResult.INTERPRET_OK ∧ vm.frameCount = 1 ∧
          vm'.stackTop + 2 = vm.stackTop ∧
          chunk.code[ipAt vm (vm.frameCount - 1)]? = some OpCode.OP_RETURN.toByte))

/-! ## The bounds of the value stack -/

/-- Invariant I1: the stack pointer, an offset from `vm.stack`, does not
exceed the capacity of the stack array (as a natural number it cannot precede
`vm.stack`). -/
def I1 (vm : VM) : Prop :=
  vm.stackTop ≤ vm.stack.length

instance (vm : VM) : Decidable (I1 vm) := by
  unfold I1; infer_instance

/-- The offset of `vm.stackTop` after the `vm.stackTop++` of `push`, which
`push` makes without a test. -/
def pushedTop (vm : VM) : Nat :=
  vm.stackTop + 1

/-- The offset of `vm.stackTop` after the `vm.stackTop--` of `pop`, which
`pop` makes without a test: it is negative when the pointer was at
`vm.stack`. -/
def poppedTop (vm : VM) : Int :=
  (vm.stackTop : Int) - 1

/-- The state in which `run` starts on a function whose code is `OP_POP`,
`OP_POP`: the closure is the only value on the stack. -/
def popVM : VM :=
  { jumpVM with
    frames := [{ closure := 1, ip := 0, slots := 0 }, { closure := 0, ip := 0, slots := 0 }],
    stack := [Value.obj 1, Value.nil, Value.nil, Value.nil],
    stackTop := 1,
    heap :=
      [Obj.function
        { arity := 0, upvalueCount := 0,
          chunk := { code := [4, 4], lines := [1, 1], constants := [] },
          name := none },
       Obj.closure { function := 0, upvalues := [], upvalueCount := 0 }] }

/-- A state about to execute `OP_NIL` with the stack array full. -/
def fullVM : VM :=
  { jumpVM with
    frames := [{ closure := 1, ip := 0, slots := 0 }, { closure := 0, ip := 0, slots := 0 }],
    stack := [Value.obj 1, Value.number 7],
    stackTop := 2,
    heap :=
      [Obj.function
        { arity := 0, upvalueCount := 0,
          chunk := { code := [1, 28], lines := [1, 1], constants := [] },
          name := none },
       Obj.closure { function := 0, upvalues := [], upvalueCount := 0 }] }

/-! ## The compiler contract on the stack height -/

/-- The stack height recorded for the address `ip`, if one is. -/
def heightAt (heights : List (Option Nat)) (ip : Nat) : Option Nat :=
  (heights[ip]?).join

/-- Modelled from the spec: the compiler (`compiler.c`) is not among the
sources; this is its contract of spec §6 for the top-level function, read as
a property of the chunk: (a) it pushes and pops consistently with §4, (b) it
ends in `OP_RETURN` along every path, (c) it declares the constants it
references. `heights` records a stack height for each address at which an
instruction can start: the height 1 at the address 0 (the script closure in
slot 0); at `OP_RETURN` the height 2 (slot 0 and the returned value); at every
other instruction the instruction is complete (`stackEffect` is not empty) and
every address that `stackEffect` lets it go on to is recorded with the height
it has there. -/
def StackBalanced (heap : List Obj) (chunk : Chunk) (heights : List (Option Nat)) : Prop :=
  heightAt heights 0 = some 1 ∧
  ∀ ip, ip < heights.length → ∀ h ∈ heightAt heights ip,
    if chunk.code[ip]? = some OpCode.OP_RETURN.toByte then h = 2
    else stackEffect heap chunk ip h ≠ [] ∧
      ∀ succ ∈ stackEffect heap chunk ip h, heightAt heights succ.1 = some succ.2

instance (heap : List Obj) (chunk : Chunk) (heights : List (Option Nat)) :
    Decidable (StackBalanced heap chunk heights) := by
  unfold StackBalanced; infer_instance

/-- The invariant of `run` on a script whose chunk `chunk` is stack-balanced
with `heights` on the heap `heap0`: the frame 0 executes `chunk`, the heap
keeps the functions of `heap0`, and the height recorded for the `ip` of the
frame 0 is the stack height when the frame 0 is the current one, and else the
height at which the frame 1 will return to it: its slots and the returned
value. -/
def RunInv (heap0 : List Obj) (chunk : Chunk) (heights : List (Option Nat)) (vm : VM) : Prop :=
  vm.frameCount ≠ 0 ∧ chunkAt vm 0 = some chunk ∧ HeapKept heap0 vm.heap ∧
  ((vm.frameCount = 1 ∧ heightAt heights (ipAt vm 0) = some vm.stackTop) ∨
    (2 ≤ vm.frameCount ∧
      ∃ f1, vm.frames[1]? = some f1 ∧ heightAt heights (ipAt vm 0) = some (f1.slots + 1)))

/-- A VM with no frame and an empty stack whose heap holds one function, the
script `OP_NIL`, `OP_POP`, `OP_NIL`, `OP_RETURN`. -/
def scriptVM : VM :=
  { jumpVM with
    frames := [{ closure := 0, ip := 0, slots := 0 }, { closure := 0, ip := 0, slots := 0 }],
    frameCount := 0,
    stack := [Value.nil, Value.nil, Value.nil, Value.nil],
    stackTop := 0,
    objects := [0],
    heap :=
      [Obj.function
        { arity := 0, upvalueCount := 0,
          chunk := { code := [1, 4, 1, 28], lines := [1, 1, 1, 1], constants := [] },
          name := none }] }

/-! ## Probing -/

/-- The call `findEntry (entries, capacity, key)` takes `key->hash % capacity`
with a capacity that is not 0, and its loop returns within `capacity`
iterations. -/
def ProbeReturns (strs : ObjPtr → ObjString) (entries : List Entry) (capacity : Nat)
    (key : ObjPtr) : Prop :=
  capacity ≠ 0 ∧
  (findEntryLoop entries capacity key capacity ((strs key).hash % capacity) none).isSome = true

/-- The calls of `findEntry` in the second loop of `adjustCapacity`, for the
slots of the old array still to be visited and the new array as it is filled:
each of them is a call as `ProbeReturns` describes. -/
def AdjustProbes (strs : ObjPtr → ObjString) (capacity : Nat) :
    List Entry → List Entry → Prop
  | [], _ => True
  | entry :: rest, entries =>
    match entry.key with
    | none => AdjustProbes strs capacity rest entries
    | some k =>
      ProbeReturns strs entries capacity k ∧
      match findEntry strs entries capacity k with
      | none => False
      | some dest =>
        AdjustProbes strs capacity rest (entries.set dest { key := some k, value := entry.value })

/-! # Theorems -/

/-! ## The probe sequence -/

theorem probe_lt {capacity : Nat} (h j : Nat) (hc : 0 < capacity) :
    probe capacity h j < capacity :=
  Nat.mod_lt _ hc

theorem probe_inj {capacity h a b : Nat} (ha : a < capacity) (hb : b < capacity)
    (hab : probe capacity h a = probe capacity h b) : a = b := by
  unfold probe at hab
  have h1 : a ≡ b [MOD capacity] := Nat.ModEq.add_left_cancel' h hab
  have h2 : a % capacity = b % capacity := h1
  rwa [Nat.mod_eq_of_lt ha, Nat.mod_eq_of_lt hb] at h2

theorem probe_surj {capacity : Nat} (h i : Nat) (hi : i < capacity) :
    ∃ d, d < capacity ∧ probe capacity h d = i := by
  have hc : 0 < capacity := by omega
  have hm : h % capacity < capacity := Nat.mod_lt _ hc
  by_cases hle : h % capacity ≤ i
  · refine ⟨i - h % capacity, by omega, ?_⟩
    unfold probe
    rw [← Nat.mod_add_mod, show h % capacity + (i - h % capacity) = i by omega]
    exact Nat.mod_eq_of_lt hi
  · refine ⟨i + capacity - h % capacity, by omega, ?_⟩
    unfold probe
    rw [← Nat.mod_add_mod,
      show h % capacity + (i + capacity - h % capacity) = i + capacity by omega,
      Nat.add_mod_right]
    exact Nat.mod_eq_of_lt hi

theorem probe_step (capacity index j : Nat) :
    ((index + 1) % capacity + j) % capacity = (index + (j + 1)) % capacity := by
  rw [Nat.mod_add_mod]; congr 1; omega

theorem keyAt_eq_some {entries : List Entry} {i : Nat} {k : ObjPtr}
    (h : keyAt entries i = some k) : ∃ e, entries[i]? = some e ∧ e.key = some k := by
  unfold keyAt at h
  cases he : entries[i]? with
  | none => simp [he] at h
  | some e => exact ⟨e, rfl, by simpa [he] using h⟩

theorem keyAt_of_get {entries : List Entry} {i : Nat} {e : Entry}
    (h : entries[i]? = some e) : keyAt entries i = e.key := by
  simp [keyAt, h]

theorem emptyAt_of_get {entries : List Entry} {i : Nat} {e : Entry}
    (h : entries[i]? = some e) : emptyAt entries i = e.isEmpty := by
  simp [emptyAt, h]

theorem isEmpty_eq_true_iff (e : Entry) :
    e.isEmpty = true ↔ e = ({ key := none, value := Value.nil } : Entry) := by
  cases e with
  | mk key value =>
    cases key <;> cases value <;> simp [Entry.isEmpty, IS_NIL]

/-! ## What the probe loop of `findEntry` returns -/

theorem findEntryLoop_succ (entries : List Entry) (capacity : Nat) (key : ObjPtr)
    (fuel index : Nat) (tombstone : Option Nat) :
    findEntryLoop entries capacity key (fuel + 1) index tombstone =
      match entries[index]? with
      | none => none
      | some entry =>
        match entry.key with
        | none =>
          if IS_NIL entry.value then
            some (match tombstone with
              | some t => t
              | none => index)
          else
            findEntryLoop entries capacity key fuel ((index + 1) % capacity)
              (match tombstone with
                | some t => some t
                | none => some index)
        | some k =>
          if key = k then some index
          else findEntryLoop entries capacity key fuel ((index + 1) % capacity) tombstone :=
  rfl

/-- The loop returns the slot of `key` when it lies `n` steps ahead and no
truly empty slot and no other copy of `key` comes before it. -/
theorem findEntryLoop_found (entries : List Entry) (capacity : Nat) (key : ObjPtr)
    (hlen : entries.length = capacity) :
    ∀ (n fuel index : Nat) (tomb : Option Nat), n < fuel → index < capacity →
      (∀ j, j < n → keyAt entries ((index + j) % capacity) ≠ some key ∧
        emptyAt entries ((index + j) % capacity) = false) →
      keyAt entries ((index + n) % capacity) = some key →
      findEntryLoop entries capacity key fuel index tomb = some ((index + n) % capacity) := by
  intro n
  induction n with
  | zero =>
    intro fuel index tomb hf hi _ hk
    obtain ⟨f, rfl⟩ : ∃ f, fuel = f + 1 := ⟨fuel - 1, by omega⟩
    simp only [Nat.add_zero, Nat.mod_eq_of_lt hi] at hk ⊢
    obtain ⟨e, he, hek⟩ := keyAt_eq_some hk
    simp [findEntryLoop_succ, he, hek]
  | succ n ih =>
    intro fuel index tomb hf hi hpath hk
    obtain ⟨f, rfl⟩ : ∃ f, fuel = f + 1 := ⟨fuel - 1, by omega⟩
    have h0 := hpath 0 (by omega)
    simp only [Nat.add_zero, Nat.mod_eq_of_lt hi] at h0
    have hi2 : (index + 1) % capacity < capacity := Nat.mod_lt _ (by omega)
    have hrec : ∀ t, findEntryLoop entries capacity key f ((index + 1) % capacity) t
        = some ((index + (n + 1)) % capacity) := by
      intro t
      have h := ih f ((index + 1) % capacity) t (by omega) hi2
        (fun j hj => by rw [probe_step]; exact hpath (j + 1) (by omega))
        (by rw [probe_step]; exact hk)
      rwa [probe_step] at h
    obtain ⟨e, he⟩ : ∃ e, entries[index]? = some e := by
      rw [List.getElem?_eq_getElem (by omega)]; exact ⟨_, rfl⟩
    rw [keyAt_of_get he, emptyAt_of_get he] at h0
    rw [findEntryLoop_succ]
    simp only [he]
    cases hek : e.key with
    | none =>
      have hnil : IS_NIL e.value = false := by
        simpa [Entry.isEmpty, hek] using h0.2
      simp only [hnil, Bool.false_eq_true, if_false]
      exact hrec _
    | some k =>
      have hne : key ≠ k := by
        intro hkk; apply h0.1; rw [hek, hkk]
      simp only [hne, if_false]
      exact hrec _

/-- The loop returns a slot without key when `key` is not met before the first
truly empty slot, `n` steps ahead: the remembered tombstone if there is one,
else the first tombstone on the way, else the empty slot. -/
theorem findEntryLoop_absent (entries : List Entry) (capacity : Nat) (key : ObjPtr)
    (hlen : entries.length = capacity) :
    ∀ (n fuel index : Nat) (tomb : Option Nat), n < fuel → index < capacity →
      (∀ j, j < n → keyAt entries ((index + j) % capacity) ≠ some key ∧
        emptyAt entries ((index + j) % capacity) = false) →
      emptyAt entries ((index + n) % capacity) = true →
      ∃ r, findEntryLoop entries capacity key fuel index tomb = some r ∧
        (∀ t, tomb = some t → r = t) ∧
        (tomb = none → ∃ j, j ≤ n ∧ r = (index + j) % capacity ∧ keyAt entries r = none) := by
  intro n
  induction n with
  | zero =>
    intro fuel index tomb hf hi _ hk
    obtain ⟨f, rfl⟩ : ∃ f, fuel = f + 1 := ⟨fuel - 1, by omega⟩
    simp only [Nat.add_zero, Nat.mod_eq_of_lt hi] at hk
    obtain ⟨e, he⟩ : ∃ e, entries[index]? = some e := by
      rw [List.getElem?_eq_getElem (by omega)]; exact ⟨_, rfl⟩
    rw [emptyAt_of_get he] at hk
    have hee := (isEmpty_eq_true_iff e).1 hk
    subst hee
    cases tomb with
    | none =>
      refine ⟨index, by simp [findEntryLoop_succ, he, IS_NIL], by simp, fun _ => ⟨0, le_refl _, ?_, ?_⟩⟩
      · rw [Nat.add_zero, Nat.mod_eq_of_lt hi]
      · rw [keyAt_of_get he]
    | some t =>
      exact ⟨t, by simp [findEntryLoop_succ, he, IS_NIL], by simp, by simp⟩
  | succ n ih =>
    intro fuel index tomb hf hi hpath hk
    obtain ⟨f, rfl⟩ : ∃ f, fuel = f + 1 := ⟨fuel - 1, by omega⟩
    have h0 := hpath 0 (by omega)
    simp only [Nat.add_zero, Nat.mod_eq_of_lt hi] at h0
    have hi2 : (index + 1) % capacity < capacity := Nat.mod_lt _ (by omega)
    have hrec := fun t => ih f ((index + 1) % capacity) t (by omega) hi2
      (fun j hj => by rw [probe_step]; exact hpath (j + 1) (by omega))
      (by rw [probe_step]; exact hk)
    obtain ⟨e, he⟩ : ∃ e, entries[index]? = some e := by
      rw [List.getElem?_eq_getElem (by omega)]; exact ⟨_, rfl⟩
    have hkey0 := h0
    rw [keyAt_of_get he, emptyAt_of_get he] at h0
    rw [findEntryLoop_succ]
    simp only [he]
    cases hek : e.key with
    | none =>
      have hnil : IS_NIL e.value = false := by
        simpa [Entry.isEmpty, hek] using h0.2
      simp only [hnil, Bool.false_eq_true, if_false]
      cases tomb with
      | none =>
        obtain ⟨r, hr, hr1, _⟩ := hrec (some index)
        refine ⟨r, hr, by simp, fun _ => ⟨0, by omega, ?_, ?_⟩⟩
        · rw [hr1 index rfl, Nat.add_zero, Nat.mod_eq_of_lt hi]
        · rw [hr1 index rfl, keyAt_of_get he, hek]
      | some t =>
        obtain ⟨r, hr, hr1, _⟩ := hrec (some t)
        exact ⟨r, hr, fun t' ht' => by rw [hr1 t rfl]; simpa using ht', by simp⟩
    | some k =>
      have hne : key ≠ k := by
        intro hkk; apply h0.1; rw [hek, hkk]
      simp only [hne, if_false]
      obtain ⟨r, hr, hr1, hr2⟩ := hrec tomb
      refine ⟨r, hr, hr1, fun ht => ?_⟩
      obtain ⟨j, hj, hrj, hrk⟩ := hr2 ht
      exact ⟨j + 1, by omega, by rw [hrj, probe_step], hrk⟩

/-- The probe loop never returns when no slot ends it. -/
theorem findEntryLoop_none_of_passing (entries : List Entry) (capacity : Nat) (key : ObjPtr)
    (hpass : ∀ i, i < capacity → keyAt entries i ≠ some key ∧ emptyAt entries i = false) :
    ∀ (fuel index : Nat) (tomb : Option Nat), index < capacity →
      findEntryLoop entries capacity key fuel index tomb = none := by
  intro fuel
  induction fuel with
  | zero => intro index tomb _; rfl
  | succ f ih =>
    intro index tomb hi
    have hi2 : (index + 1) % capacity < capacity := Nat.mod_lt _ (by omega)
    obtain ⟨hk, he⟩ := hpass index hi
    rw [findEntryLoop_succ]
    cases hget : entries[index]? with
    | none => rfl
    | some e =>
      rw [keyAt_of_get hget] at hk
      rw [emptyAt_of_get hget] at he
      simp only
      cases hek : e.key with
      | none =>
        have hnil : IS_NIL e.value = false := by simpa [Entry.isEmpty, hek] using he
        simp only [hnil, Bool.false_eq_true, if_false]
        exact ih _ _ hi2
      | some k =>
        have hne : key ≠ k := by
          intro hkk; apply hk; rw [hek, hkk]
        simp only [hne, if_false]
        exact ih _ _ hi2

/-- A probe loop of `findEntry` that has not returned after `capacity`
iterations never returns: running it for `capacity` iterations loses no
result. -/
theorem findEntryLoop_stuck (entries : List Entry) (capacity : Nat) (key : ObjPtr)
    (hlen : entries.length = capacity) (index : Nat) (hi : index < capacity)
    (tomb : Option Nat)
    (h : findEntryLoop entries capacity key capacity index tomb = none) :
    ∀ fuel, findEntryLoop entries capacity key fuel index tomb = none := by
  intro fuel
  apply findEntryLoop_none_of_passing entries capacity key _ fuel index tomb hi
  by_contra hcon
  have hex : ∃ n, n < capacity ∧
      (keyAt entries (probe capacity index n) = some key ∨
        emptyAt entries (probe capacity index n) = true) := by
    by_contra hno
    apply hcon
    intro i hic
    obtain ⟨d, hd, hpd⟩ := probe_surj index i hic
    constructor
    · intro hk
      exact hno ⟨d, hd, Or.inl (by rw [hpd]; exact hk)⟩
    · cases he : emptyAt entries i with
      | false => rfl
      | true => exact (hno ⟨d, hd, Or.inr (by rw [hpd]; exact he)⟩).elim
  classical
  have hn := Nat.find_spec hex
  have hmin := fun j (hj : j < Nat.find hex) => Nat.find_min hex hj
  generalize Nat.find hex = n at hn hmin
  have hpath : ∀ j, j < n → keyAt entries ((index + j) % capacity) ≠ some key ∧
      emptyAt entries ((index + j) % capacity) = false := by
    intro j hj
    have := hmin j hj
    simp only [probe, not_and, not_or] at this
    have h2 := this (by omega)
    exact ⟨h2.1, by simpa using h2.2⟩
  rcases hn.2 with hk | he
  · rw [findEntryLoop_found entries capacity key hlen n capacity index tomb hn.1 hi hpath hk] at h
    cases h
  · obtain ⟨r, hr, _⟩ :=
      findEntryLoop_absent entries capacity key hlen n capacity index tomb hn.1 hi hpath he
    rw [hr] at h
    cases h

/-! ## What `findEntry` returns on a well-formed slot array -/

theorem keyAt_lt {entries : List Entry} {i : Nat} {k : ObjPtr}
    (h : keyAt entries i = some k) : i < entries.length := by
  obtain ⟨e, he, _⟩ := keyAt_eq_some h
  by_contra hlt
  rw [List.getElem?_eq_none (by omega)] at he
  cases he

theorem emptyAt_lt {entries : List Entry} {i : Nat}
    (h : emptyAt entries i = true) : i < entries.length := by
  by_contra hlt
  unfold emptyAt at h
  rw [List.getElem?_eq_none (by omega)] at h
  cases h

theorem findEntry_live {strs : ObjPtr → ObjString} {capacity : Nat} {entries : List Entry}
    (hwf : RawWF strs capacity entries) {k : ObjPtr} {i : Nat}
    (hk : keyAt entries i = some k) :
    findEntry strs entries capacity k = some i := by
  obtain ⟨hlen, hnodup, hchain⟩ := hwf
  have hi : i < capacity := hlen ▸ keyAt_lt hk
  have hc : capacity ≠ 0 := by omega
  obtain ⟨d, hd, hpd⟩ := probe_surj (strs k).hash i hi
  unfold findEntry
  rw [if_neg hc]
  have h := findEntryLoop_found entries capacity k hlen d capacity ((strs k).hash % capacity)
    none hd (Nat.mod_lt _ (by omega))
  simp only [Nat.mod_add_mod] at h
  have h2 := h (fun j hj => ⟨?_, ?_⟩) (by rw [show ((strs k).hash + d) % capacity = i from hpd]; exact hk)
  · rw [h2]; exact congrArg some hpd
  · intro hkj
    have hji : probe capacity (strs k).hash j = i :=
      hnodup _ (probe_lt _ _ (by omega)) i hi (by rw [show keyAt entries (probe capacity (strs k).hash j) = some k from hkj]; simp)
        (by rw [hk]; exact hkj)
    have := probe_inj (by omega) hd (hji.trans hpd.symm)
    omega
  · exact hchain i hi k hk d hd hpd j hj

theorem findEntry_absent {strs : ObjPtr → ObjString} {capacity : Nat} {entries : List Entry}
    (hwf : RawWF strs capacity entries) (hempty : ∃ i, emptyAt entries i = true)
    {k : ObjPtr} (hk : ∀ i, keyAt entries i ≠ some k) :
    ∃ r, findEntry strs entries capacity k = some r ∧ Admissible strs capacity entries k r ∧
      keyAt entries r = none := by
  obtain ⟨hlen, _, _⟩ := hwf
  obtain ⟨e, he⟩ := hempty
  have hecap : e < capacity := hlen ▸ emptyAt_lt he
  have hc : capacity ≠ 0 := by omega
  obtain ⟨de, hde, hpde⟩ := probe_surj (strs k).hash e hecap
  have hex : ∃ n, emptyAt entries (probe capacity (strs k).hash n) = true := ⟨de, by rw [hpde]; exact he⟩
  classical
  have hn := Nat.find_spec hex
  have hmin := fun j (hj : j < Nat.find hex) => Nat.find_min hex hj
  have hnle : Nat.find hex ≤ de := Nat.find_min' hex (by rw [hpde]; exact he)
  generalize Nat.find hex = n at hn hmin hnle
  have h := findEntryLoop_absent entries capacity k hlen n capacity ((strs k).hash % capacity)
    none (by omega) (Nat.mod_lt _ (by omega))
  simp only [Nat.mod_add_mod] at h
  obtain ⟨r, hr, _, hr2⟩ := h (fun j hj => ⟨hk _, by simpa using hmin j hj⟩) hn
  obtain ⟨j, hjn, hrj, hrk⟩ := hr2 trivial
  refine ⟨r, ?_, ⟨?_, Or.inl hrk, ?_, ?_⟩, hrk⟩
  · unfold findEntry; rw [if_neg hc]; exact hr
  · rw [hrj]; exact Nat.mod_lt _ (by omega)
  · intro i hi; exact absurd hi (hk i)
  · intro d hd hpd j' hj'
    have hdj : d = j := probe_inj hd (by omega) (hpd.trans hrj)
    simpa using hmin j' (by omega)

/-- `findEntry` on a well-formed slot array with a truly empty slot returns
the slot where the key belongs. -/
theorem findEntry_spec {strs : ObjPtr → ObjString} {capacity : Nat} {entries : List Entry}
    (hwf : RawWF strs capacity entries) (hempty : ∃ i, emptyAt entries i = true)
    (k : ObjPtr) :
    ∃ r, findEntry strs entries capacity k = some r ∧ Admissible strs capacity entries k r := by
  by_cases hk : ∃ i, keyAt entries i = some k
  · obtain ⟨i, hi⟩ := hk
    refine ⟨i, findEntry_live hwf hi, ?_, Or.inr hi, ?_, ?_⟩
    · exact hwf.1 ▸ keyAt_lt hi
    · intro j hj
      have hjc : j < capacity := hwf.1 ▸ keyAt_lt hj
      exact hwf.2.1 j hjc i (hwf.1 ▸ keyAt_lt hi) (by simp [hj]) (by rw [hj, hi])
    · intro d hd hpd j hj
      exact hwf.2.2 i (hwf.1 ▸ keyAt_lt hi) k hi d hd hpd j hj
  · obtain ⟨r, hr, hadm, _⟩ := findEntry_absent hwf hempty (fun i hi => hk ⟨i, hi⟩)
    exact ⟨r, hr, hadm⟩

/-! ## Writing a slot -/

theorem keyAt_set {entries : List Entry} {r : Nat} (hr : r < entries.length) (e : Entry)
    (i : Nat) : keyAt (entries.set r e) i = if i = r then e.key else keyAt entries i := by
  unfold keyAt
  by_cases hir : i = r
  · subst hir; simp [List.getElem?_set, hr]
  · simp [List.getElem?_set, hir, Ne.symm hir]

theorem emptyAt_set {entries : List Entry} {r : Nat} (hr : r < entries.length) (e : Entry)
    (i : Nat) : emptyAt (entries.set r e) i = if i = r then e.isEmpty else emptyAt entries i := by
  unfold emptyAt
  by_cases hir : i = r
  · subst hir; simp [List.getElem?_set, hr]
  · simp [List.getElem?_set, hir, Ne.symm hir]

/-- Writing `(k, v)` into the slot where `k` belongs keeps the slot array
well-formed. -/
theorem RawWF_set_live {strs : ObjPtr → ObjString} {capacity : Nat} {entries : List Entry}
    (hwf : RawWF strs capacity entries) {k : ObjPtr} {r : Nat}
    (hadm : Admissible strs capacity entries k r) (v : Value) :
    RawWF strs capacity (entries.set r { key := some k, value := v }) := by
  obtain ⟨hlen, hnodup, hchain⟩ := hwf
  obtain ⟨hr, hkr, huniq, hpath⟩ := hadm
  have hrl : r < entries.length := by omega
  refine ⟨by simp [hlen], ?_, ?_⟩
  · intro i hi j hj hne heq
    rw [keyAt_set hrl] at hne heq
    rw [keyAt_set hrl] at heq
    by_cases hir : i = r <;> by_cases hjr : j = r
    · omega
    · simp only [hir, hjr, if_true, if_false] at heq
      exact (hjr (huniq j heq.symm)).elim
    · simp only [hir, hjr, if_true, if_false] at heq
      exact (hir (huniq i heq)).elim
    · simp only [hir, hjr, if_false] at heq hne
      exact hnodup i hi j hj hne heq
  · intro i hi k' hk' d hd hpd j hj
    rw [keyAt_set hrl] at hk'
    rw [emptyAt_set hrl]
    by_cases hir : i = r
    · simp only [hir, if_true] at hk'
      have hkk : k = k' := by simpa using hk'
      subst hkk
      by_cases hjr : probe capacity (strs k).hash j = r
      · simp [hjr, Entry.isEmpty]
      · simp only [hjr, if_false]
        exact hpath d hd (hpd.trans hir) j hj
    · simp only [hir, if_false] at hk'
      by_cases hjr : probe capacity (strs k').hash j = r
      · simp [hjr, Entry.isEmpty]
      · simp only [hjr, if_false]
        exact hchain i hi k' hk' d hd hpd j hj

/-- Turning a slot into a tombstone keeps the slot array well-formed. -/
theorem RawWF_set_tombstone {strs : ObjPtr → ObjString} {capacity : Nat}
    {entries : List Entry} (hwf : RawWF strs capacity entries) {r : Nat} (hr : r < capacity) :
    RawWF strs capacity (entries.set r { key := none, value := Value.bool true }) := by
  obtain ⟨hlen, hnodup, hchain⟩ := hwf
  have hrl : r < entries.length := by omega
  refine ⟨by simp [hlen], ?_, ?_⟩
  · intro i hi j hj hne heq
    rw [keyAt_set hrl] at hne heq
    rw [keyAt_set hrl] at heq
    by_cases hir : i = r
    · simp [hir] at hne
    · simp only [hir, if_false] at hne heq
      by_cases hjr : j = r
      · simp only [hjr, if_true] at heq
        exact (hne heq).elim
      · simp only [hjr, if_false] at heq
        exact hnodup i hi j hj hne heq
  · intro i hi k' hk' d hd hpd j hj
    rw [keyAt_set hrl] at hk'
    rw [emptyAt_set hrl]
    by_cases hir : i = r
    · simp [hir] at hk'
    · simp only [hir, if_false] at hk'
      by_cases hjr : probe capacity (strs k').hash j = r
      · simp [hjr, Entry.isEmpty, IS_NIL]
      · simp only [hjr, if_false]
        exact hchain i hi k' hk' d hd hpd j hj

/-! ## Counting non-empty slots -/

theorem occupied_le_length (entries : List Entry) : occupied entries ≤ entries.length :=
  List.countP_le_length _

/-- Fewer non-empty slots than slots: some slot is truly empty. -/
theorem exists_emptyAt {entries : List Entry} (h : occupied entries < entries.length) :
    ∃ i, emptyAt entries i = true := by
  by_contra hno
  have hall : ∀ e ∈ entries, (!e.isEmpty) = true := by
    intro e he
    obtain ⟨i, hi, hie⟩ := List.getElem_of_mem he
    cases hem : e.isEmpty with
    | false => rfl
    | true =>
      exfalso; apply hno
      refine ⟨i, ?_⟩
      rw [emptyAt_of_get (show entries[i]? = some e by rw [List.getElem?_eq_getElem hi, hie])]
      exact hem
  have := (List.countP_eq_length (p := fun e : Entry => !e.isEmpty)).2 hall
  unfold occupied at h
  omega

theorem occupied_set : ∀ (entries : List Entry) (r : Nat) (e e' : Entry),
    entries[r]? = some e →
    occupied (entries.set r e') + (if e.isEmpty then 0 else 1)
      = occupied entries + (if e'.isEmpty then 0 else 1) := by
  intro entries
  induction entries with
  | nil => intro r e e' h; simp at h
  | cons a l ih =>
    intro r e e' h
    cases r with
    | zero =>
      simp only [List.getElem?_cons_zero, Option.some.injEq] at h
      subst h
      simp only [occupied, List.set_cons_zero, List.countP_cons]
      cases a.isEmpty <;> cases e'.isEmpty <;> simp
    | succ r =>
      simp only [List.getElem?_cons_succ] at h
      have := ih r e e' h
      simp only [occupied, List.set_cons_succ, List.countP_cons] at this ⊢
      omega

theorem occupied_eq_zero {entries : List Entry} (h : occupied entries = 0) (i : Nat) :
    keyAt entries i = none := by
  cases hk : keyAt entries i with
  | none => rfl
  | some k =>
    exfalso
    obtain ⟨e, he, hek⟩ := keyAt_eq_some hk
    have hmem : e ∈ entries := List.mem_iff_getElem?.2 ⟨i, he⟩
    have : 0 < occupied entries :=
      List.countP_pos_iff.2 ⟨e, hmem, by simp [Entry.isEmpty, hek]⟩
    omega

/-! ## Live entries -/

theorem Live.keyAt {entries : List Entry} {k : ObjPtr} {v : Value} (h : Live entries k v) :
    ∃ i, keyAt entries i = some k ∧ entries[i]? = some (Entry.mk (some k) v) := by
  obtain ⟨i, hi⟩ := h
  exact ⟨i, by rw [keyAt_of_get hi], hi⟩

theorem live_of_keyAt {entries : List Entry} {k : ObjPtr} {i : Nat}
    (h : keyAt entries i = some k) : ∃ v, Live entries k v := by
  obtain ⟨e, he, hek⟩ := keyAt_eq_some h
  refine ⟨e.value, i, ?_⟩
  rw [he, ← hek]

/-- Live entries after writing `(k, v)` into the slot where `k` belongs. -/
theorem live_set_live {strs : ObjPtr → ObjString} {capacity : Nat} {entries : List Entry}
    (hlen : entries.length = capacity) {k : ObjPtr} {r : Nat}
    (hadm : Admissible strs capacity entries k r) (v : Value) (k' : ObjPtr) (v' : Value) :
    Live (entries.set r { key := some k, value := v }) k' v' ↔
      (k' = k ∧ v' = v) ∨ (k' ≠ k ∧ Live entries k' v') := by
  obtain ⟨hr, hkr, huniq, _⟩ := hadm
  have hrl : r < entries.length := by omega
  constructor
  · rintro ⟨i, hi⟩
    by_cases hir : i = r
    · subst hir
      simp only [List.getElem?_set, hrl, if_true, Option.some.injEq, Entry.mk.injEq] at hi
      exact Or.inl ⟨by simpa using hi.1.symm, hi.2.symm⟩
    · rw [List.getElem?_set_ne (Ne.symm hir)] at hi
      refine Or.inr ⟨?_, i, hi⟩
      intro hkk
      subst hkk
      exact hir (huniq i (by rw [keyAt_of_get hi]))
  · rintro (⟨rfl, rfl⟩ | ⟨hne, i, hi⟩)
    · exact ⟨r, by simp [List.getElem?_set, hrl]⟩
    · refine ⟨i, ?_⟩
      have hir : i ≠ r := by
        intro hir
        subst hir
        rw [keyAt_of_get hi] at hkr
        rcases hkr with h | h
        · cases h
        · exact hne (by simpa using h)
      rw [List.getElem?_set_ne (Ne.symm hir)]
      exact hi

/-- Live entries after turning the slot of `k` into a tombstone. -/
theorem live_set_tombstone {strs : ObjPtr → ObjString} {capacity : Nat} {entries : List Entry}
    (hlen : entries.length = capacity) {k : ObjPtr} {r : Nat}
    (hadm : Admissible strs capacity entries k r) (k' : ObjPtr) (v' : Value) :
    Live (entries.set r { key := none, value := Value.bool true }) k' v' ↔
      (k' ≠ k ∧ Live entries k' v') := by
  obtain ⟨hr, hkr, huniq, _⟩ := hadm
  have hrl : r < entries.length := by omega
  constructor
  · rintro ⟨i, hi⟩
    by_cases hir : i = r
    · subst hir
      simp [List.getElem?_set, hrl] at hi
    · rw [List.getElem?_set_ne (Ne.symm hir)] at hi
      refine ⟨?_, i, hi⟩
      intro hkk
      subst hkk
      exact hir (huniq i (by rw [keyAt_of_get hi]))
  · rintro ⟨hne, i, hi⟩
    refine ⟨i, ?_⟩
    have hir : i ≠ r := by
      intro hir
      subst hir
      rw [keyAt_of_get hi] at hkr
      rcases hkr with h | h
      · cases h
      · exact hne (by simpa using h)
    rw [List.getElem?_set_ne (Ne.symm hir)]
    exact hi

/-! ## `tableGet` on a well-formed table -/

theorem Table.WF.exists_empty {strs : ObjPtr → ObjString} {t : Table} (hwf : t.WF strs)
    (hc : t.count ≠ 0) : ∃ i, emptyAt t.entries i = true := by
  obtain ⟨hraw, hcount, hroom⟩ := hwf
  apply exists_emptyAt
  have := occupied_le_length t.entries
  have hlen := hraw.1
  rcases hroom with h | h <;> omega

/-- `tableGet` returns the value of the live entry of the key, and `false`
when the key has no live entry. -/
theorem tableGet_spec {strs : ObjPtr → ObjString} {t : Table} (hwf : t.WF strs) (k : ObjPtr) :
    (∀ v, Live t.entries k v → tableGet strs t k = some (some v)) ∧
    ((∀ v, ¬ Live t.entries k v) → tableGet strs t k = some none) := by
  by_cases hc : t.count = 0
  · have hocc : occupied t.entries = 0 := by rw [← hwf.2.1]; exact hc
    refine ⟨fun v hv => ?_, fun _ => by simp [tableGet, hc]⟩
    obtain ⟨i, hi, _⟩ := hv.keyAt
    rw [occupied_eq_zero hocc i] at hi
    cases hi
  · obtain ⟨r, hr, hadm⟩ := findEntry_spec hwf.1 (hwf.exists_empty hc) k
    have hrl : r < t.entries.length := by rw [hwf.1.1]; exact hadm.1
    obtain ⟨e, he⟩ : ∃ e, t.entries[r]? = some e := by
      rw [List.getElem?_eq_getElem hrl]; exact ⟨_, rfl⟩
    have hker := keyAt_of_get he
    constructor
    · intro v hv
      obtain ⟨i, hi, hie⟩ := hv.keyAt
      have hir := hadm.2.2.1 i hi
      subst hir
      rw [he] at hie
      simp only [Option.some.injEq] at hie
      subst hie
      simp [tableGet, hc, hr, he]
    · intro hno
      have hnone : e.key = none := by
        rcases hadm.2.1 with h | h
        · rw [← hker]; exact h
        · obtain ⟨v, hv⟩ := live_of_keyAt h
          exact (hno v hv).elim
      simp [tableGet, hc, hr, he, hnone]

/-- Tables with the same live entries for a key answer `tableGet` alike. -/
theorem tableGet_congr {strs : ObjPtr → ObjString} {t t' : Table} (hwf : t.WF strs)
    (hwf' : t'.WF strs) {k : ObjPtr} (h : ∀ v, Live t'.entries k v ↔ Live t.entries k v) :
    tableGet strs t' k = tableGet strs t k := by
  by_cases hl : ∃ v, Live t.entries k v
  · obtain ⟨v, hv⟩ := hl
    rw [(tableGet_spec hwf k).1 v hv, (tableGet_spec hwf' k).1 v ((h v).2 hv)]
  · have hno : ∀ v, ¬ Live t.entries k v := fun v hv => hl ⟨v, hv⟩
    rw [(tableGet_spec hwf k).2 hno, (tableGet_spec hwf' k).2 (fun v hv => hno v ((h v).1 hv))]

/-! ## `adjustCapacity` -/

theorem adjustLoop_nil (strs : ObjPtr → ObjString) (capacity : Nat) (entries : List Entry)
    (count : Nat) : adjustLoop strs capacity [] entries count = some (entries, count) :=
  rfl

theorem adjustLoop_cons (strs : ObjPtr → ObjString) (capacity : Nat) (entry : Entry)
    (rest entries : List Entry) (count : Nat) :
    adjustLoop strs capacity (entry :: rest) entries count =
      match entry.key with
      | none => adjustLoop strs capacity rest entries count
      | some k =>
        match findEntry strs entries capacity k with
        | none => none
        | some dest =>
          adjustLoop strs capacity rest
            (entries.set dest { key := some k, value := entry.value }) (count + 1) :=
  rfl

theorem liveCount_le_occupied (entries : List Entry) : liveCount entries ≤ occupied entries := by
  apply List.countP_mono_left
  intro e _ he
  cases hk : e.key with
  | none => simp [hk] at he
  | some k => simp [Entry.isEmpty, hk]

theorem DistinctKeys_of_RawWF {strs : ObjPtr → ObjString} {capacity : Nat}
    {entries : List Entry} (hwf : RawWF strs capacity entries) : DistinctKeys entries := by
  unfold DistinctKeys
  rw [List.pairwise_iff_getElem]
  intro i j hi hj hij k hki hkj
  have h1 : keyAt entries i = some k := by
    rw [keyAt_of_get (List.getElem?_eq_getElem hi)]; exact hki
  have h2 : keyAt entries j = some k := by
    rw [keyAt_of_get (List.getElem?_eq_getElem hj)]; exact hkj
  have := hwf.2.1 i (hwf.1 ▸ hi) j (hwf.1 ▸ hj) (by simp [h1]) (by rw [h1, h2])
  omega

theorem RawWF_replicate (strs : ObjPtr → ObjString) (capacity : Nat) :
    RawWF strs capacity (List.replicate capacity { key := none, value := Value.nil }) := by
  have hk : ∀ i, keyAt (List.replicate capacity (Entry.mk none Value.nil)) i = none := by
    intro i
    unfold keyAt
    cases h : (List.replicate capacity (Entry.mk none Value.nil))[i]? with
    | none => rfl
    | some e =>
      have := List.eq_of_mem_replicate (List.getElem?_mem h)
      subst this; rfl
  refine ⟨by simp, ?_, ?_⟩
  · intro i _ j _ hne _
    exact (hne (hk i)).elim
  · intro i _ k hki
    rw [hk i] at hki
    cases hki

/-- The re-insertion loop of `adjustCapacity` returns, and the new array is
well-formed and holds the entries it held plus the keyed entries visited. -/
theorem adjustLoop_spec (strs : ObjPtr → ObjString) (capacity : Nat) :
    ∀ (rest entries : List Entry) (count : Nat),
      RawWF strs capacity entries → NoTomb entries → occupied entries = count →
      count + liveCount rest < capacity → DistinctKeys rest →
      (∀ e ∈ rest, ∀ k, e.key = some k → ∀ i, keyAt entries i ≠ some k) →
      ∃ entries', adjustLoop strs capacity rest entries count
          = some (entries', count + liveCount rest) ∧
        RawWF strs capacity entries' ∧ occupied entries' = count + liveCount rest ∧
        ∀ k v, Live entries' k v ↔ (Live entries k v ∨ Entry.mk (some k) v ∈ rest) := by
  intro rest
  induction rest with
  | nil =>
    intro entries count hwf _ hocc _ _ _
    exact ⟨entries, by simp [adjustLoop_nil, liveCount], hwf, by simpa [liveCount] using hocc,
      by simp⟩
  | cons e rest ih =>
    intro entries count hwf hnt hocc hroom hdist hfresh
    rw [adjustLoop_cons]
    have hdist' : DistinctKeys rest := (List.pairwise_cons.1 hdist).2
    cases hek : e.key with
    | none =>
      have hlc : liveCount (e :: rest) = liveCount rest := by
        simp [liveCount, List.countP_cons, hek]
      rw [hlc] at hroom ⊢
      obtain ⟨entries', h1, h2, h3, h4⟩ := ih entries count hwf hnt hocc hroom hdist'
        (fun e' he' => hfresh e' (List.mem_cons_of_mem _ he'))
      refine ⟨entries', h1, h2, h3, fun k v => ?_⟩
      rw [h4 k v, List.mem_cons]
      constructor
      · rintro (h | h)
        · exact Or.inl h
        · exact Or.inr (Or.inr h)
      · rintro (h | h | h)
        · exact Or.inl h
        · rw [← h] at hek; cases hek
        · exact Or.inr h
    | some k =>
      have hlc : liveCount (e :: rest) = liveCount rest + 1 := by
        simp [liveCount, List.countP_cons, hek]
      rw [hlc] at hroom ⊢
      have hlen := hwf.1
      have hempty : ∃ i, emptyAt entries i = true := exists_emptyAt (by omega)
      have hknew : ∀ i, keyAt entries i ≠ some k := hfresh e (List.mem_cons_self _ _) k hek
      obtain ⟨r, hr, hadm, hrk⟩ := findEntry_absent hwf hempty hknew
      have hrl : r < entries.length := by rw [hlen]; exact hadm.1
      obtain ⟨er, her⟩ : ∃ er, entries[r]? = some er := by
        rw [List.getElem?_eq_getElem hrl]; exact ⟨_, rfl⟩
      have herE : er.isEmpty = true :=
        hnt er (List.getElem?_mem her) (by rw [← keyAt_of_get her]; exact hrk)
      simp only [hr]
      have hocc1 : occupied (entries.set r { key := some k, value := e.value }) = count + 1 := by
        have := occupied_set entries r er { key := some k, value := e.value } her
        simp only [herE, if_true] at this
        simp only [Entry.isEmpty, Option.isNone_some, Bool.false_and, Bool.false_eq_true,
          if_false] at this
        omega
      have hnt1 : NoTomb (entries.set r { key := some k, value := e.value }) := by
        intro x hx hxk
        rcases List.mem_or_eq_of_mem_set hx with h | h
        · exact hnt x h hxk
        · subst h; cases hxk
      have hfresh1 : ∀ e' ∈ rest, ∀ k', e'.key = some k' →
          ∀ i, keyAt (entries.set r { key := some k, value := e.value }) i ≠ some k' := by
        intro e' he' k' hk' i
        rw [keyAt_set hrl]
        by_cases hir : i = r
        · simp only [hir, if_true]
          intro hkk
          have hkk' : k = k' := by simpa using hkk
          subst hkk'
          exact (List.pairwise_cons.1 hdist).1 e' he' k hek hk'
        · simp only [hir, if_false]
          exact hfresh e' (List.mem_cons_of_mem _ he') k' hk' i
      obtain ⟨entries', h1, h2, h3, h4⟩ := ih _ (count + 1) (RawWF_set_live hwf hadm e.value)
        hnt1 hocc1 (by omega) hdist' hfresh1
      refine ⟨entries', ?_, h2, by omega, fun k' v' => ?_⟩
      · rw [h1]; congr 2; omega
      · rw [h4 k' v', live_set_live hlen hadm, List.mem_cons]
        constructor
        · rintro ((⟨rfl, rfl⟩ | ⟨_, h⟩) | h)
          · refine Or.inr (Or.inl ?_)
            rw [← hek]
          · exact Or.inl h
          · exact Or.inr (Or.inr h)
        · rintro (h | h | h)
          · refine Or.inl (Or.inr ⟨?_, h⟩)
            intro hkk
            subst hkk
            obtain ⟨i, hi, _⟩ := h.keyAt
            exact hknew i hi
          · refine Or.inl (Or.inl ?_)
            rw [← h] at hek
            simp only [Option.some.injEq] at hek
            rw [← h]
            exact ⟨hek, rfl⟩
          · exact Or.inr h

/-- `adjustCapacity` to a capacity above `count` returns a well-formed table
with the same live entries, no more counted slots, and the new capacity. -/
theorem adjustCapacity_spec {strs : ObjPtr → ObjString} {t : Table} (hwf : t.WF strs)
    {capacity : Nat} (hcap : t.count < capacity) :
    ∃ t', adjustCapacity strs t capacity = some t' ∧ t'.capacity = capacity ∧
      RawWF strs capacity t'.entries ∧ t'.count = occupied t'.entries ∧
      t'.count ≤ t.count ∧ ∀ k v, Live t'.entries k v ↔ Live t.entries k v := by
  obtain ⟨hraw, hcount, _⟩ := hwf
  have hle := liveCount_le_occupied t.entries
  have hfreshE : ∀ e ∈ List.replicate capacity (Entry.mk none Value.nil),
      e = Entry.mk none Value.nil := fun e he => List.eq_of_mem_replicate he
  obtain ⟨entries', h1, h2, h3, h4⟩ := adjustLoop_spec strs capacity t.entries
    (List.replicate capacity { key := none, value := Value.nil }) 0
    (RawWF_replicate strs capacity)
    (fun e he _ => by rw [hfreshE e he]; rfl)
    (by
      unfold occupied
      rw [List.countP_eq_zero]
      intro e he
      rw [hfreshE e he]; simp [Entry.isEmpty, IS_NIL])
    (by omega) (DistinctKeys_of_RawWF hraw)
    (fun e _ k _ i hi => by
      obtain ⟨x, hx, hxk⟩ := keyAt_eq_some hi
      rw [hfreshE x (List.getElem?_mem hx)] at hxk
      cases hxk)
  refine ⟨{ count := 0 + liveCount t.entries, capacity := capacity, entries := entries' },
    by simp [adjustCapacity, h1], rfl, h2, by simpa using h3.symm, by simp; omega, fun k v => ?_⟩
  simp only
  rw [h4 k v]
  constructor
  · rintro (⟨i, hi⟩ | h)
    · have := hfreshE _ (List.getElem?_mem hi)
      cases this
    · exact List.mem_iff_getElem?.1 h
  · intro h
    exact Or.inr (List.mem_iff_getElem?.2 h)

/-! ## `tableSet` and `tableDelete` on a well-formed table -/

/-- The table on which `tableSet` probes, after the growth step if any: it is
well-formed with room for one more entry, and has the live entries of `t`. -/
theorem tableSet_grow_spec {strs : ObjPtr → ObjString} {t : Table} (hwf : t.WF strs) :
    ∃ t1, (if overLoad t then adjustCapacity strs t (GROW_CAPACITY t.capacity) else some t)
        = some t1 ∧
      RawWF strs t1.capacity t1.entries ∧ t1.count = occupied t1.entries ∧
      t1.count + 1 < t1.capacity ∧ ∀ k v, Live t1.entries k v ↔ Live t.entries k v := by
  have hwf' := hwf
  obtain ⟨hraw, hcount, hroom⟩ := hwf
  have hlen := hraw.1
  have hocc := occupied_le_length t.entries
  by_cases hov : overLoad t = true
  · rw [if_pos hov]
    have hgrow : t.count + 1 < GROW_CAPACITY t.capacity := by
      unfold GROW_CAPACITY
      split <;> omega
    obtain ⟨t1, h1, h2, h3, h4, h5, h6⟩ :=
      adjustCapacity_spec hwf' (show t.count < GROW_CAPACITY t.capacity by omega)
    refine ⟨t1, h1, by rw [h2]; exact h3, h4, by rw [h2]; omega, h6⟩
  · rw [if_neg hov]
    have : ¬ (3 * t.capacity < 4 * (t.count + 1)) := by
      simpa [overLoad] using hov
    exact ⟨t, rfl, hraw, hcount, by omega, fun _ _ => Iff.rfl⟩

/-- `tableSet` on a well-formed table returns; the table stays well-formed,
the result is `true` exactly when the key had no live entry, and the live
entries afterwards are `(k, v)` and those of the other keys. -/
theorem tableSet_spec {strs : ObjPtr → ObjString} {t : Table} (hwf : t.WF strs)
    (k : ObjPtr) (v : Value) :
    ∃ b t', tableSet strs t k v = some (b, t') ∧ t'.WF strs ∧
      (b = true ↔ ∀ v0, ¬ Live t.entries k v0) ∧
      ∀ k' v', Live t'.entries k' v' ↔ (k' = k ∧ v' = v) ∨ (k' ≠ k ∧ Live t.entries k' v') := by
  obtain ⟨t1, h1, hraw, hcount, hroom, hlive⟩ := tableSet_grow_spec hwf
  have hlen := hraw.1
  have hempty : ∃ i, emptyAt t1.entries i = true := exists_emptyAt (by omega)
  obtain ⟨r, hr, hadm⟩ := findEntry_spec hraw hempty k
  have hrl : r < t1.entries.length := by rw [hlen]; exact hadm.1
  obtain ⟨e, he⟩ : ∃ e, t1.entries[r]? = some e := by
    rw [List.getElem?_eq_getElem hrl]; exact ⟨_, rfl⟩
  have hocc := occupied_set t1.entries r e { key := some k, value := v } he
  simp only [Entry.isEmpty, Option.isNone_some, Bool.false_and, Bool.false_eq_true,
    if_false] at hocc
  refine ⟨e.key.isNone,
    { count := if e.key.isNone && IS_NIL e.value then t1.count + 1 else t1.count,
      capacity := t1.capacity,
      entries := t1.entries.set r { key := some k, value := v } },
    by simp only [tableSet, h1, hr, he], ⟨RawWF_set_live hraw hadm v, ?_, ?_⟩,
    ?_, fun k' v' => ?_⟩
  · simp only
    by_cases hc : (e.key.isNone && IS_NIL e.value) = true
    · rw [if_pos hc] at hocc ⊢; omega
    · rw [if_neg hc] at hocc ⊢; omega
  · simp only
    right
    split <;> omega
  · rw [Option.isNone_iff_eq_none, ← keyAt_of_get he]
    constructor
    · intro hnone v0 hv0
      obtain ⟨i, hi, _⟩ := ((hlive k v0).2 hv0).keyAt
      rw [hadm.2.2.1 i hi] at hi
      rw [hi] at hnone
      cases hnone
    · intro hno
      rcases hadm.2.1 with h | h
      · exact h
      · obtain ⟨v0, hv0⟩ := live_of_keyAt h
        exact (hno v0 ((hlive k v0).1 hv0)).elim
  · simp only
    rw [live_set_live hlen hadm, hlive]

/-- `tableDelete` on a well-formed table returns; the table stays well-formed,
the result is `true` exactly when the key had a live entry, and the live
entries afterwards are those of the other keys. -/
theorem tableDelete_spec {strs : ObjPtr → ObjString} {t : Table} (hwf : t.WF strs)
    (k : ObjPtr) :
    ∃ b t', tableDelete strs t k = some (b, t') ∧ t'.WF strs ∧
      (b = true ↔ ∃ v0, Live t.entries k v0) ∧
      (∀ k' v', Live t'.entries k' v' ↔ (k' ≠ k ∧ Live t.entries k' v')) ∧
      (b = true → ∃ i, keyAt t.entries i = some k ∧
        t' = { t with entries := t.entries.set i { key := none, value := Value.bool true } }) := by
  have hnolive : (∀ i, keyAt t.entries i ≠ some k) →
      ∀ k' v', Live t.entries k' v' ↔ (k' ≠ k ∧ Live t.entries k' v') := by
    intro hno k' v'
    constructor
    · intro h
      refine ⟨?_, h⟩
      intro hkk
      subst hkk
      obtain ⟨i, hi, _⟩ := h.keyAt
      exact hno i hi
    · exact fun h => h.2
  by_cases hc : t.count = 0
  · have hocc : occupied t.entries = 0 := by rw [← hwf.2.1]; exact hc
    have hno : ∀ i, keyAt t.entries i ≠ some k := by
      intro i hi
      rw [occupied_eq_zero hocc i] at hi
      cases hi
    refine ⟨false, t, by simp [tableDelete, hc], hwf, ?_, hnolive hno, by simp⟩
    simp only [Bool.false_eq_true, false_iff, not_exists]
    intro v0 hv0
    obtain ⟨i, hi, _⟩ := hv0.keyAt
    exact hno i hi
  · obtain ⟨r, hr, hadm⟩ := findEntry_spec hwf.1 (hwf.exists_empty hc) k
    have hlen := hwf.1.1
    have hrl : r < t.entries.length := by rw [hlen]; exact hadm.1
    obtain ⟨e, he⟩ : ∃ e, t.entries[r]? = some e := by
      rw [List.getElem?_eq_getElem hrl]; exact ⟨_, rfl⟩
    have hker := keyAt_of_get he
    cases hek : e.key with
    | none =>
      have hno : ∀ i, keyAt t.entries i ≠ some k := by
        intro i hi
        rw [hadm.2.2.1 i hi, hker, hek] at hi
        cases hi
      refine ⟨false, t, by simp [tableDelete, hc, hr, he, hek], hwf, ?_, hnolive hno, by simp⟩
      simp only [Bool.false_eq_true, false_iff, not_exists]
      intro v0 hv0
      obtain ⟨i, hi, _⟩ := hv0.keyAt
      exact hno i hi
    | some k0 =>
      have hk0 : keyAt t.entries r = some k := by
        rcases hadm.2.1 with h | h
        · rw [hker, hek] at h; cases h
        · exact h
      have hocc := occupied_set t.entries r e { key := none, value := Value.bool true } he
      simp only [Entry.isEmpty, hek, Option.isNone_some, Option.isNone_none, IS_NIL,
        Bool.false_and, Bool.true_and, Bool.false_eq_true, if_false] at hocc
      refine ⟨true, { t with entries := t.entries.set r { key := none, value := Value.bool true } },
        by simp [tableDelete, hc, hr, he, hek],
        ⟨RawWF_set_tombstone hwf.1 hadm.1, ?_, hwf.2.2⟩, ?_, fun k' v' => ?_,
        fun _ => ⟨r, hk0, rfl⟩⟩
      · simp only
        rw [hwf.2.1]; omega
      · simp only [true_iff]
        exact live_of_keyAt hk0
      · simp only
        exact live_set_tombstone hlen hadm k' v'

/-! ## Well-formedness is an invariant of the table operations -/

/-- The table made by `initTable` is well-formed. -/
theorem initTable_WF (strs : ObjPtr → ObjString) : initTable.WF strs := by
  refine ⟨⟨rfl, ?_, ?_⟩, rfl, Or.inl rfl⟩
  · intro i hi
    exact absurd hi (Nat.not_lt_zero i)
  · intro i hi
    exact absurd hi (Nat.not_lt_zero i)

theorem tableAddAllLoop_cons (strs : ObjPtr → ObjString) (entry : Entry) (rest : List Entry)
    (dst : Table) :
    tableAddAllLoop strs (entry :: rest) dst =
      match entry.key with
      | none => tableAddAllLoop strs rest dst
      | some k =>
        match tableSet strs dst k entry.value with
        | none => none
        | some (_, dst) => tableAddAllLoop strs rest dst :=
  rfl

/-- `tableAddAll` into a well-formed table returns a well-formed table. -/
theorem tableAddAll_WF (strs : ObjPtr → ObjString) (src : Table) :
    ∀ dst : Table, dst.WF strs →
      ∃ dst', tableAddAll strs src dst = some dst' ∧ dst'.WF strs := by
  unfold tableAddAll
  generalize src.entries = l
  induction l with
  | nil => intro dst hwf; exact ⟨dst, rfl, hwf⟩
  | cons e rest ih =>
    intro dst hwf
    rw [tableAddAllLoop_cons]
    cases hek : e.key with
    | none => exact ih dst hwf
    | some k =>
      obtain ⟨b, dst1, hset, hwf1, _, _⟩ := tableSet_spec hwf k e.value
      simp only [hset]
      exact ih dst1 hwf1

/-! ## `tableFindString` -/

theorem tableFindStringLoop_succ (strs : ObjPtr → ObjString) (table : Table)
    (chars : List Nat) (length hash fuel index : Nat) :
    tableFindStringLoop strs table chars length hash (fuel + 1) index =
      match table.entries[index]? with
      | none => none
      | some entry =>
        match entry.key with
        | none =>
          if IS_NIL entry.value then some none
          else tableFindStringLoop strs table chars length hash fuel
            ((index + 1) % table.capacity)
        | some k =>
          if keyMatches strs chars length hash k then some (some k)
          else tableFindStringLoop strs table chars length hash fuel
            ((index + 1) % table.capacity) :=
  rfl

/-- The loop returns a matching key when one lies `n` steps ahead with no
truly empty slot before it. -/
theorem tableFindStringLoop_found (strs : ObjPtr → ObjString) (table : Table)
    (chars : List Nat) (length hash : Nat) (hlen : table.entries.length = table.capacity) :
    ∀ (n fuel index : Nat), n < fuel → index < table.capacity →
      (∀ j, j < n → emptyAt table.entries ((index + j) % table.capacity) = false) →
      (∃ k, keyAt table.entries ((index + n) % table.capacity) = some k ∧
        keyMatches strs chars length hash k = true) →
      ∃ k' i, tableFindStringLoop strs table chars length hash fuel index = some (some k') ∧
        keyAt table.entries i = some k' ∧ keyMatches strs chars length hash k' = true := by
  intro n
  induction n with
  | zero =>
    intro fuel index hf hi _ hk
    obtain ⟨f, rfl⟩ : ∃ f, fuel = f + 1 := ⟨fuel - 1, by omega⟩
    simp only [Nat.add_zero, Nat.mod_eq_of_lt hi] at hk
    obtain ⟨k, hk, hm⟩ := hk
    obtain ⟨e, he, hek⟩ := keyAt_eq_some hk
    exact ⟨k, index, by simp [tableFindStringLoop_succ, he, hek, hm], hk, hm⟩
  | succ n ih =>
    intro fuel index hf hi hpath hk
    obtain ⟨f, rfl⟩ : ∃ f, fuel = f + 1 := ⟨fuel - 1, by omega⟩
    have h0 := hpath 0 (by omega)
    simp only [Nat.add_zero, Nat.mod_eq_of_lt hi] at h0
    have hi2 : (index + 1) % table.capacity < table.capacity := Nat.mod_lt _ (by omega)
    have hrec := ih f ((index + 1) % table.capacity) (by omega) hi2
      (fun j hj => by rw [probe_step]; exact hpath (j + 1) (by omega))
      (by rw [probe_step]; exact hk)
    obtain ⟨e, he⟩ : ∃ e, table.entries[index]? = some e := by
      rw [List.getElem?_eq_getElem (by omega)]; exact ⟨_, rfl⟩
    rw [emptyAt_of_get he] at h0
    rw [tableFindStringLoop_succ]
    simp only [he]
    cases hek : e.key with
    | none =>
      have hnil : IS_NIL e.value = false := by
        simpa [Entry.isEmpty, hek] using h0
      simp only [hnil, Bool.false_eq_true, if_false]
      exact hrec
    | some k0 =>
      by_cases hm : keyMatches strs chars length hash k0 = true
      · simp only [hm, if_true]
        exact ⟨k0, index, rfl, by rw [keyAt_of_get he, hek], hm⟩
      · simp only [hm, if_false]
        exact hrec

/-- The loop returns `NULL` when a truly empty slot lies `n` steps ahead and
no key before it matches. -/
theorem tableFindStringLoop_absent (strs : ObjPtr → ObjString) (table : Table)
    (chars : List Nat) (length hash : Nat) (hlen : table.entries.length = table.capacity) :
    ∀ (n fuel index : Nat), n < fuel → index < table.capacity →
      (∀ j, j < n → emptyAt table.entries ((index + j) % table.capacity) = false ∧
        ∀ k, keyAt table.entries ((index + j) % table.capacity) = some k →
          keyMatches strs chars length hash k = false) →
      emptyAt table.entries ((index + n) % table.capacity) = true →
      tableFindStringLoop strs table chars length hash fuel index = some none := by
  intro n
  induction n with
  | zero =>
    intro fuel index hf hi _ hk
    obtain ⟨f, rfl⟩ : ∃ f, fuel = f + 1 := ⟨fuel - 1, by omega⟩
    simp only [Nat.add_zero, Nat.mod_eq_of_lt hi] at hk
    obtain ⟨e, he⟩ : ∃ e, table.entries[index]? = some e := by
      rw [List.getElem?_eq_getElem (by omega)]; exact ⟨_, rfl⟩
    rw [emptyAt_of_get he] at hk
    have hee := (isEmpty_eq_true_iff e).1 hk
    subst hee
    simp [tableFindStringLoop_succ, he, IS_NIL]
  | succ n ih =>
    intro fuel index hf hi hpath hk
    obtain ⟨f, rfl⟩ : ∃ f, fuel = f + 1 := ⟨fuel - 1, by omega⟩
    have h0 := hpath 0 (by omega)
    simp only [Nat.add_zero, Nat.mod_eq_of_lt hi] at h0
    have hi2 : (index + 1) % table.capacity < table.capacity := Nat.mod_lt _ (by omega)
    have hrec := ih f ((index + 1) % table.capacity) (by omega) hi2
      (fun j hj => by rw [probe_step]; exact hpath (j + 1) (by omega))
      (by rw [probe_step]; exact hk)
    obtain ⟨e, he⟩ : ∃ e, table.entries[index]? = some e := by
      rw [List.getElem?_eq_getElem (by omega)]; exact ⟨_, rfl⟩
    rw [emptyAt_of_get he, keyAt_of_get he] at h0
    rw [tableFindStringLoop_succ]
    simp only [he]
    cases hek : e.key with
    | none =>
      have hnil : IS_NIL e.value = false := by
        simpa [Entry.isEmpty, hek] using h0.1
      simp only [hnil, Bool.false_eq_true, if_false]
      exact hrec
    | some k0 =>
      have hm := h0.2 k0 hek
      simp only [hm, Bool.false_eq_true, if_false]
      exact hrec

/-- The probe loop of `tableFindString` never returns when no slot ends
it. -/
theorem tableFindStringLoop_none_of_passing (strs : ObjPtr → ObjString) (table : Table)
    (chars : List Nat) (length hash : Nat)
    (hpass : ∀ i, i < table.capacity → emptyAt table.entries i = false ∧
      ∀ k, keyAt table.entries i = some k → keyMatches strs chars length hash k = false) :
    ∀ (fuel index : Nat), index < table.capacity →
      tableFindStringLoop strs table chars length hash fuel index = none := by
  intro fuel
  induction fuel with
  | zero => intro index _; rfl
  | succ f ih =>
    intro index hi
    have hi2 : (index + 1) % table.capacity < table.capacity := Nat.mod_lt _ (by omega)
    obtain ⟨he, hk⟩ := hpass index hi
    rw [tableFindStringLoop_succ]
    cases hget : table.entries[index]? with
    | none => rfl
    | some e =>
      rw [keyAt_of_get hget] at hk
      rw [emptyAt_of_get hget] at he
      simp only
      cases hek : e.key with
      | none =>
        have hnil : IS_NIL e.value = false := by simpa [Entry.isEmpty, hek] using he
        simp only [hnil, Bool.false_eq_true, if_false]
        exact ih _ hi2
      | some k =>
        simp only [hk k hek, Bool.false_eq_true, if_false]
        exact ih _ hi2

/-- A probe loop of `tableFindString` that has not returned after `capacity`
iterations never returns. -/
theorem tableFindStringLoop_stuck (strs : ObjPtr → ObjString) (table : Table)
    (chars : List Nat) (length hash : Nat) (hlen : table.entries.length = table.capacity)
    (index : Nat) (hi : index < table.capacity)
    (h : tableFindStringLoop strs table chars length hash table.capacity index = none) :
    ∀ fuel, tableFindStringLoop strs table chars length hash fuel index = none := by
  intro fuel
  apply tableFindStringLoop_none_of_passing strs table chars length hash _ fuel index hi
  by_contra hcon
  have hex : ∃ n, n < table.capacity ∧
      (emptyAt table.entries (probe table.capacity index n) = true ∨
        ∃ k, keyAt table.entries (probe table.capacity index n) = some k ∧
          keyMatches strs chars length hash k = true) := by
    by_contra hno
    apply hcon
    intro i hic
    obtain ⟨d, hd, hpd⟩ := probe_surj index i hic
    constructor
    · cases he : emptyAt table.entries i with
      | false => rfl
      | true => exact (hno ⟨d, hd, Or.inl (by rw [hpd]; exact he)⟩).elim
    · intro k hk
      cases hm : keyMatches strs chars length hash k with
      | false => rfl
      | true => exact (hno ⟨d, hd, Or.inr ⟨k, by rw [hpd]; exact hk, hm⟩⟩).elim
  classical
  have hn := Nat.find_spec hex
  have hmin := fun j (hj : j < Nat.find hex) => Nat.find_min hex hj
  generalize Nat.find hex = n at hn hmin
  have hpath : ∀ j, j < n →
      emptyAt table.entries ((index + j) % table.capacity) = false ∧
      ∀ k, keyAt table.entries ((index + j) % table.capacity) = some k →
        keyMatches strs chars length hash k = false := by
    intro j hj
    have := hmin j hj
    simp only [probe, not_and, not_or, not_exists] at this
    have h2 := this (by omega)
    exact ⟨by simpa using h2.1, fun k hk => by simpa using h2.2 k hk⟩
  rcases hn.2 with he | hk
  · rw [tableFindStringLoop_absent strs table chars length hash hlen n table.capacity index
      hn.1 hi hpath he] at h
    cases h
  · obtain ⟨k', i', hr, _⟩ := tableFindStringLoop_found strs table chars length hash hlen n
      table.capacity index hn.1 hi (fun j hj => (hpath j hj).1) hk
    rw [hr] at h
    cases h

/-! ## `captureUpvalue` -/

theorem upvalueAt_lt {heap : List Obj} {u : ObjPtr} {uv : ObjUpvalue}
    (h : upvalueAt heap u = some uv) : u < heap.length := by
  by_contra hlt
  unfold upvalueAt at h
  rw [List.getElem?_eq_none (Nat.le_of_not_lt hlt)] at h
  cases h

theorem upvalueAt_append {heap : List Obj} {u : ObjPtr} {uv : ObjUpvalue}
    (h : upvalueAt heap u = some uv) (o : Obj) : upvalueAt (heap ++ [o]) u = some uv := by
  have hlt := upvalueAt_lt h
  unfold upvalueAt at h ⊢
  rw [List.getElem?_append_left hlt]
  exact h

theorem upvalueAt_append_new (heap : List Obj) (uv : ObjUpvalue) :
    upvalueAt (heap ++ [Obj.upvalue uv]) heap.length = some uv := by
  unfold upvalueAt
  simp

theorem openLocation_eq_some {heap : List Obj} {u : ObjPtr} {i : Nat}
    (h : openLocation heap u = some i) :
    ∃ uv, upvalueAt heap u = some uv ∧ uv.location = ValuePtr.stack i := by
  unfold openLocation at h
  cases huv : upvalueAt heap u with
  | none => simp [huv] at h
  | some uv =>
    cases hl : uv.location with
    | stack j =>
      simp only [huv, hl, Option.some.injEq] at h
      exact ⟨uv, rfl, by rw [hl, h]⟩
    | closed c => simp [huv, hl] at h

theorem openLocation_of {heap : List Obj} {u : ObjPtr} {uv : ObjUpvalue} {i : Nat}
    (h : upvalueAt heap u = some uv) (hl : uv.location = ValuePtr.stack i) :
    openLocation heap u = some i := by
  simp [openLocation, h, hl]

theorem captureWalk_cons (heap : List Obj) (slot : Nat) (u : ObjPtr) (rest : List ObjPtr) :
    captureWalk heap slot (u :: rest) =
      match upvalueAt heap u with
      | none => none
      | some uv =>
        match uv.location with
        | ValuePtr.closed _ => none
        | ValuePtr.stack i =>
          if slot < i then
            match captureWalk heap slot rest with
            | none => none
            | some (passed, remaining) => some (u :: passed, remaining)
          else some ([], u :: rest) :=
  rfl

/-- The walk returns on a list of open upvalues; it splits the list, every
upvalue passed points above `slot`, and the head of the rest does not. -/
theorem captureWalk_spec (heap : List Obj) (slot : Nat) :
    ∀ l : List ObjPtr, (∀ u ∈ l, ∃ i, openLocation heap u = some i) →
      ∃ passed remaining, captureWalk heap slot l = some (passed, remaining) ∧
        l = passed ++ remaining ∧
        (∀ u ∈ passed, ∃ i, openLocation heap u = some i ∧ slot < i) ∧
        (∀ u rest, remaining = u :: rest → ∃ i, openLocation heap u = some i ∧ ¬ slot < i) := by
  intro l
  induction l with
  | nil =>
    intro _
    exact ⟨[], [], rfl, rfl, by simp, by simp⟩
  | cons u rest ih =>
    intro hopen
    obtain ⟨i, hi⟩ := hopen u (List.mem_cons_self _ _)
    obtain ⟨uv, huv, hl⟩ := openLocation_eq_some hi
    rw [captureWalk_cons]
    simp only [huv, hl]
    by_cases hlt : slot < i
    · obtain ⟨passed, remaining, h1, h2, h3, h4⟩ :=
        ih (fun w hw => hopen w (List.mem_cons_of_mem _ hw))
      refine ⟨u :: passed, remaining, by simp [hlt, h1], by simp [h2], ?_, h4⟩
      intro w hw
      rcases List.mem_cons.1 hw with rfl | hw
      · exact ⟨i, hi, hlt⟩
      · exact h3 w hw
    · refine ⟨[], u :: rest, by simp [hlt], rfl, by simp, ?_⟩
      intro w rest' hw
      simp only [List.cons.injEq] at hw
      rw [← hw.1]
      exact ⟨i, hi, hlt⟩

/-- The walk stops at the first upvalue that does not point above `slot`. -/
theorem captureWalk_stop (heap : List Obj) (slot : Nat) (x : ObjPtr) (rest : List ObjPtr)
    {ix : Nat} (hx : openLocation heap x = some ix) (hix : ¬ slot < ix) :
    ∀ passed : List ObjPtr, (∀ u ∈ passed, ∃ i, openLocation heap u = some i ∧ slot < i) →
      captureWalk heap slot (passed ++ x :: rest) = some (passed, x :: rest) := by
  intro passed
  induction passed with
  | nil =>
    intro _
    obtain ⟨uv, huv, hl⟩ := openLocation_eq_some hx
    rw [List.nil_append, captureWalk_cons]
    simp [huv, hl, hix]
  | cons u passed ih =>
    intro hp
    obtain ⟨i, hi, hlt⟩ := hp u (List.mem_cons_self _ _)
    obtain ⟨uv, huv, hl⟩ := openLocation_eq_some hi
    rw [List.cons_append, captureWalk_cons]
    simp [huv, hl, hlt, ih (fun w hw => hp w (List.mem_cons_of_mem _ hw))]

theorem OpenSorted.open {vm : VM} (h : OpenSorted vm) :
    ∀ u ∈ vm.openUpvalues, ∃ i, openLocation vm.heap u = some i ∧ i < vm.stack.length := by
  intro u hu
  have := h.2 (openLocation vm.heap u) (List.mem_map_of_mem _ hu)
  cases hl : openLocation vm.heap u with
  | none => simp [hl, locInStack] at this
  | some i => exact ⟨i, rfl, by simpa [hl, locInStack] using this⟩

/-- Capturing the same slot again: both calls return, with the same upvalue,
which points to the slot, and the second call leaves the whole state as it
is. -/
theorem captureUpvalue_again (vm : VM) (slot : Nat)
    (hopen : ∀ u ∈ vm.openUpvalues, ∃ i, openLocation vm.heap u = some i) :
    ∃ u vm1, captureUpvalue vm slot = some (u, vm1) ∧
      captureUpvalue vm1 slot = some (u, vm1) ∧
      u ∈ vm1.openUpvalues ∧ openLocation vm1.heap u = some slot := by
  obtain ⟨passed, remaining, hw, hsplit, hpassed, hrem⟩ :=
    captureWalk_spec vm.heap slot vm.openUpvalues hopen
  by_cases hfound : ∃ u rest uv, remaining = u :: rest ∧ upvalueAt vm.heap u = some uv ∧
      uv.location = ValuePtr.stack slot
  · obtain ⟨u, rest, uv, hr, huv, hl⟩ := hfound
    have h1 : captureUpvalue vm slot = some (u, vm) := by
      simp [captureUpvalue, hw, hr, huv, hl]
    exact ⟨u, vm, h1, h1, by rw [hsplit, hr]; simp, openLocation_of huv hl⟩
  · have hnone : (match remaining with
        | [] => (none : Option ObjPtr)
        | u :: _ =>
          match upvalueAt vm.heap u with
          | some uv => if uv.location = ValuePtr.stack slot then some u else none
          | none => none) = none := by
      cases hr : remaining with
      | nil => rfl
      | cons u rest =>
        cases huv : upvalueAt vm.heap u with
        | none => simp [huv]
        | some uv =>
          by_cases hl : uv.location = ValuePtr.stack slot
          · exact (hfound ⟨u, rest, uv, hr, huv, hl⟩).elim
          · simp [huv, hl]
    let newObj : Obj := Obj.upvalue { location := ValuePtr.stack slot, closed := Value.nil }
    let vm1 : VM := { vm with
      heap := vm.heap ++ [newObj],
      objects := vm.heap.length :: vm.objects,
      openUpvalues := passed ++ vm.heap.length :: remaining }
    have h1 : captureUpvalue vm slot = some (vm.heap.length, vm1) := by
      simp only [captureUpvalue, hw, hnone, newUpvalue, allocateObject]
    refine ⟨vm.heap.length, vm1, h1, ?_, by simp [vm1], ?_⟩
    swap
    · exact openLocation_of (upvalueAt_append_new vm.heap _) rfl
    have hnew : upvalueAt vm1.heap vm.heap.length
        = some { location := ValuePtr.stack slot, closed := Value.nil } :=
      upvalueAt_append_new vm.heap _
    have hw1 : captureWalk vm1.heap slot vm1.openUpvalues
        = some (passed, vm.heap.length :: remaining) := by
      apply captureWalk_stop vm1.heap slot vm.heap.length remaining
        (openLocation_of hnew rfl) (lt_irrefl slot)
      intro u hu
      obtain ⟨i, hi, hlt⟩ := hpassed u hu
      obtain ⟨uv, huv, hl⟩ := openLocation_eq_some hi
      exact ⟨i, openLocation_of (upvalueAt_append huv newObj) hl, hlt⟩
    simp [captureUpvalue, hw1, hnew]

/-! ## `closeUpvalues` -/

theorem closeLoop_cons (stack : List Value) (last : Nat) (u : ObjPtr) (rest : List ObjPtr)
    (heap : List Obj) :
    closeLoop stack last (u :: rest) heap =
      match upvalueAt heap u with
      | none => none
      | some uv =>
        match uv.location with
        | ValuePtr.closed _ => none
        | ValuePtr.stack i =>
          if last ≤ i then
            match stack[i]? with
            | none => none
            | some v =>
              closeLoop stack last rest
                (heap.set u (Obj.upvalue { location := ValuePtr.closed u, closed := v }))
          else some (u :: rest, heap) :=
  rfl

theorem upvalueAt_congr {heap heap' : List Obj} {w : ObjPtr} (h : heap'[w]? = heap[w]?) :
    upvalueAt heap' w = upvalueAt heap w := by
  unfold upvalueAt; rw [h]

theorem openLocation_congr {heap heap' : List Obj} {w : ObjPtr} (h : heap'[w]? = heap[w]?) :
    openLocation heap' w = openLocation heap w := by
  unfold openLocation; rw [upvalueAt_congr h]

theorem locBelow_eq_true {a b : Option Nat} (h : locBelow a b = true) :
    ∃ i j, a = some i ∧ b = some j ∧ j < i := by
  cases a <;> cases b <;> simp [locBelow] at h
  exact ⟨_, _, rfl, rfl, h⟩

/-- The loop of `closeUpvalues` on a sorted list of open upvalues returns: it
leaves exactly the upvalues below `last`, untouched, and each upvalue at or
above `last` is closed over the value of its slot. -/
theorem closeLoop_spec (stack : List Value) (last : Nat) :
    ∀ (l : List ObjPtr) (heap : List Obj),
      (openLocs heap l).Pairwise (fun a b => locBelow a b = true) →
      (∀ a ∈ openLocs heap l, locInStack stack.length a = true) →
      ∃ l' heap', closeLoop stack last l heap = some (l', heap') ∧
        (∀ u ∈ l', u ∈ l) ∧
        (∀ u ∈ l', ∃ i, openLocation heap' u = some i ∧ i < last) ∧
        (∀ u ∈ l, ∀ i, openLocation heap u = some i → i < last →
          u ∈ l' ∧ heap'[u]? = heap[u]?) ∧
        (∀ u ∈ l, ∀ i, openLocation heap u = some i → last ≤ i →
          u ∉ l' ∧ ∃ v, stack[i]? = some v ∧
            upvalueAt heap' u = some { location := ValuePtr.closed u, closed := v }) ∧
        (∀ w, w ∉ l → heap'[w]? = heap[w]?) := by
  intro l
  induction l with
  | nil =>
    intro heap _ _
    exact ⟨[], heap, rfl, by simp, by simp, by simp, by simp, by simp⟩
  | cons u rest ih =>
    intro heap hpw hin
    simp only [openLocs, List.map_cons, List.pairwise_cons] at hpw
    obtain ⟨hhead, hpw'⟩ := hpw
    have hu := hin (openLocation heap u) (by simp [openLocs])
    obtain ⟨i, hi⟩ : ∃ i, openLocation heap u = some i := by
      cases hl : openLocation heap u with
      | none => simp [hl, locInStack] at hu
      | some i => exact ⟨i, rfl⟩
    have hilt : i < stack.length := by simpa [hi, locInStack] using hu
    obtain ⟨uv, huv, hl⟩ := openLocation_eq_some hi
    have hrest : ∀ w ∈ rest, ∃ j, openLocation heap w = some j ∧ j < i := by
      intro w hw
      obtain ⟨a, b, ha, hb, hab⟩ :=
        locBelow_eq_true (hhead (openLocation heap w) (List.mem_map_of_mem _ hw))
      rw [hi] at ha
      simp only [Option.some.injEq] at ha
      subst ha
      exact ⟨b, hb, hab⟩
    have hnotin : u ∉ rest := by
      intro hmem
      obtain ⟨j, hj, hji⟩ := hrest u hmem
      rw [hi] at hj
      simp only [Option.some.injEq] at hj
      omega
    rw [closeLoop_cons]
    simp only [huv, hl]
    by_cases hle : last ≤ i
    · obtain ⟨v, hv⟩ : ∃ v, stack[i]? = some v := by
        rw [List.getElem?_eq_getElem hilt]; exact ⟨_, rfl⟩
      simp only [hle, if_true, hv]
      have hne : ∀ w, w ≠ u →
          (heap.set u (Obj.upvalue { location := ValuePtr.closed u, closed := v }))[w]?
            = heap[w]? :=
        fun w hw => List.getElem?_set_ne (Ne.symm hw)
      have hlocs : openLocs
          (heap.set u (Obj.upvalue { location := ValuePtr.closed u, closed := v })) rest
            = openLocs heap rest := by
        unfold openLocs
        apply List.map_congr_left
        intro w hw
        exact openLocation_congr (hne w (fun h => hnotin (h ▸ hw)))
      obtain ⟨l', heap', h1, h2, h3, h4, h5, h6⟩ := ih
        (heap.set u (Obj.upvalue { location := ValuePtr.closed u, closed := v }))
        (by rw [hlocs]; exact hpw')
        (by
          rw [hlocs]
          intro a ha
          exact hin a (by simp only [openLocs, List.map_cons, List.mem_cons]; exact Or.inr ha))
      refine ⟨l', heap', h1, fun w hw => List.mem_cons_of_mem _ (h2 w hw), h3, ?_, ?_, ?_⟩
      · intro w hw j hj hjl
        rcases List.mem_cons.1 hw with rfl | hw
        · rw [hi] at hj
          simp only [Option.some.injEq] at hj
          omega
        · have hwu : w ≠ u := fun h => hnotin (h ▸ hw)
          obtain ⟨hmem, heq⟩ := h4 w hw j (by rw [openLocation_congr (hne w hwu)]; exact hj) hjl
          exact ⟨hmem, heq.trans (hne w hwu)⟩
      · intro w hw j hj hjl
        rcases List.mem_cons.1 hw with rfl | hw
        · rw [hi] at hj
          simp only [Option.some.injEq] at hj
          subst hj
          refine ⟨fun hmem => hnotin (h2 w hmem), v, hv, ?_⟩
          have hset := h6 w hnotin
          unfold upvalueAt
          rw [hset]
          simp [List.getElem?_set, upvalueAt_lt huv]
        · have hwu : w ≠ u := fun h => hnotin (h ▸ hw)
          exact h5 w hw j (by rw [openLocation_congr (hne w hwu)]; exact hj) hjl
      · intro w hw
        have hwu : w ≠ u := fun h => hw (h ▸ List.mem_cons_self _ _)
        have hwr : w ∉ rest := fun h => hw (List.mem_cons_of_mem _ h)
        exact (h6 w hwr).trans (hne w hwu)
    · simp only [hle, if_false]
      have hall : ∀ w ∈ u :: rest, ∃ j, openLocation heap w = some j ∧ j < last := by
        intro w hw
        rcases List.mem_cons.1 hw with rfl | hw
        · exact ⟨i, hi, by omega⟩
        · obtain ⟨j, hj, hji⟩ := hrest w hw
          exact ⟨j, hj, by omega⟩
      refine ⟨u :: rest, heap, rfl, fun _ h => h, hall, fun w hw _ _ _ => ⟨hw, rfl⟩, ?_,
        fun _ _ => rfl⟩
      intro w hw j hj hjl
      obtain ⟨j', hj', hlt⟩ := hall w hw
      rw [hj] at hj'
      simp only [Option.some.injEq] at hj'
      omega

/-! ## The table operations, as seen through `tableGet` -/

theorem tableGet_eq_none_iff {strs : ObjPtr → ObjString} {t : Table} (hwf : t.WF strs)
    (k : ObjPtr) : tableGet strs t k = some none ↔ ∀ v, ¬ Live t.entries k v := by
  constructor
  · intro h v hv
    rw [(tableGet_spec hwf k).1 v hv] at h
    cases h
  · exact (tableGet_spec hwf k).2

theorem tableGet_eq_some_iff {strs : ObjPtr → ObjString} {t : Table} (hwf : t.WF strs)
    (k : ObjPtr) (v : Value) : tableGet strs t k = some (some v) ↔ Live t.entries k v := by
  constructor
  · intro h
    by_cases hl : ∃ v0, Live t.entries k v0
    · obtain ⟨v0, hv0⟩ := hl
      rw [(tableGet_spec hwf k).1 v0 hv0] at h
      simp only [Option.some.injEq] at h
      rw [← h]; exact hv0
    · rw [(tableGet_spec hwf k).2 (fun v0 hv0 => hl ⟨v0, hv0⟩)] at h
      cases h
  · exact (tableGet_spec hwf k).1 v

/-- C4. Set/get round trip: on a well-formed table `tableSet (t, k, v)`
returns, afterwards `tableGet` of `k` succeeds with `v`, and `tableGet` of
every other key gives what it gave before (found or not, and the same value),
whether or not the insertion grows the table or reuses a tombstone. -/
theorem tableSet_get_roundtrip (strs : ObjPtr → ObjString) (t : Table) (hwf : t.WF strs)
    (k : ObjPtr) (v : Value) :
    ∃ isNew t', tableSet strs t k v = some (isNew, t') ∧
      tableGet strs t' k = some (some v) ∧
      ∀ k', k' ≠ k → tableGet strs t' k' = tableGet strs t k' := by
  obtain ⟨b, t', hset, hwf', _, hlive⟩ := tableSet_spec hwf k v
  refine ⟨b, t', hset, ?_, fun k' hk' => ?_⟩
  · exact (tableGet_spec hwf' k).1 v ((hlive k v).2 (Or.inl ⟨rfl, rfl⟩))
  · apply tableGet_congr hwf hwf'
    intro v'
    rw [hlive k' v']
    constructor
    · rintro (⟨h, _⟩ | ⟨_, h⟩)
      · exact (hk' h).elim
      · exact h
    · exact fun h => Or.inr ⟨hk', h⟩

/-- C4, at a table with a tombstone on the probe path of the new key 9. -/
theorem tableSet_get_roundtrip_witness :
    sampleTable.WF sampleStrs ∧
    ∃ isNew t', tableSet sampleStrs sampleTable 9 (Value.number 90) = some (isNew, t') ∧
      tableGet sampleStrs t' 9 = some (some (Value.number 90)) ∧
      ∀ k', k' ≠ 9 → tableGet sampleStrs t' k' = tableGet sampleStrs sampleTable k' :=
  ⟨by decide, tableSet_get_roundtrip sampleStrs sampleTable (by decide) 9 (Value.number 90)⟩

/-- C5. On a well-formed table `tableSet (t, k, v)` returns `true` exactly
when `tableGet (t, k)` failed before the call. -/
theorem tableSet_isNew_iff (strs : ObjPtr → ObjString) (t : Table) (hwf : t.WF strs)
    (k : ObjPtr) (v : Value) :
    ∃ isNew t', tableSet strs t k v = some (isNew, t') ∧
      (isNew = true ↔ tableGet strs t k = some none) := by
  obtain ⟨b, t', hset, _, hnew, _⟩ := tableSet_spec hwf k v
  exact ⟨b, t', hset, hnew.trans (tableGet_eq_none_iff hwf k).symm⟩

/-- C5, at a table where the new key 9 takes over a tombstone slot. -/
theorem tableSet_isNew_iff_witness :
    sampleTable.WF sampleStrs ∧
    ∃ isNew t', tableSet sampleStrs sampleTable 9 Value.nil = some (isNew, t') ∧
      (isNew = true ↔ tableGet sampleStrs sampleTable 9 = some none) :=
  ⟨by decide, tableSet_isNew_iff sampleStrs sampleTable (by decide) 9 Value.nil⟩

/-- C6. On a well-formed table `tableDelete (t, k)` returns `true` exactly when
`k` had a live entry; afterwards `tableGet` of `k` fails and `tableGet` of
every other key gives what it gave before; the slot of a deleted key becomes
the tombstone `(key = NULL, value = true)`. -/
theorem tableDelete_get (strs : ObjPtr → ObjString) (t : Table) (hwf : t.WF strs)
    (k : ObjPtr) :
    ∃ existed t', tableDelete strs t k = some (existed, t') ∧
      (existed = true ↔ ∃ v, tableGet strs t k = some (some v)) ∧
      tableGet strs t' k = some none ∧
      (∀ k', k' ≠ k → tableGet strs t' k' = tableGet strs t k') ∧
      (existed = true → ∃ i, keyAt t.entries i = some k ∧
        t' = { t with entries := t.entries.set i { key := none, value := Value.bool true } }) := by
  obtain ⟨b, t', hdel, hwf', hex, hlive, hshape⟩ := tableDelete_spec hwf k
  refine ⟨b, t', hdel, ?_, ?_, fun k' hk' => ?_, hshape⟩
  · rw [hex]
    exact exists_congr (fun v => (tableGet_eq_some_iff hwf k v).symm)
  · apply (tableGet_spec hwf' k).2
    intro v hv
    exact ((hlive k v).1 hv).1 rfl
  · apply tableGet_congr hwf hwf'
    intro v'
    rw [hlive k' v']
    exact ⟨fun h => h.2, fun h => ⟨hk', h⟩⟩

/-- C6, at a table where the deleted key 1 lies on the probe path of key 17. -/
theorem tableDelete_get_witness :
    sampleTable.WF sampleStrs ∧
    ∃ existed t', tableDelete sampleStrs sampleTable 1 = some (existed, t') ∧
      (existed = true ↔ ∃ v, tableGet sampleStrs sampleTable 1 = some (some v)) ∧
      tableGet sampleStrs t' 1 = some none ∧
      (∀ k', k' ≠ 1 → tableGet sampleStrs t' k' = tableGet sampleStrs sampleTable k') ∧
      (existed = true → ∃ i, keyAt sampleTable.entries i = some 1 ∧
        t' = { sampleTable with
          entries := sampleTable.entries.set i { key := none, value := Value.bool true } }) :=
  ⟨by decide, tableDelete_get sampleStrs sampleTable (by decide) 1⟩

/-! ## `tableFindString` on a well-formed intern table -/

theorem keyMatches_iff (strs : ObjPtr → ObjString) (chars : List Nat) (length hash : Nat)
    (k : ObjPtr) :
    keyMatches strs chars length hash k = true ↔
      length = (strs k).length ∧ hash = (strs k).hash ∧
        (strs k).chars.take length = chars.take length := by
  simp [keyMatches, memcmpEq, and_assoc]

/-- C7. On a well-formed intern table whose keys each store the hash of their
own bytes, searched with the hash of `(chars, length)`: `tableFindString`
returns a live key whose length and bytes are `(chars, length)` if the table
has such a key, and `NULL` otherwise. -/
theorem tableFindString_spec (strs : ObjPtr → ObjString) (hashFn : List Nat → Nat)
    (t : Table) (chars : List Nat) (length hash : Nat) (hwf : t.WF strs)
    (hkeys : ∀ i k, keyAt t.entries i = some k → (strs k).hash = hashFn (strs k).bytes)
    (hhash : hash = hashFn (chars.take length)) :
    ((∃ i k, keyAt t.entries i = some k ∧ (strs k).length = length ∧
        (strs k).bytes = chars.take length) →
      ∃ i k, tableFindString strs t chars length hash = some (some k) ∧
        keyAt t.entries i = some k ∧ (strs k).length = length ∧
        (strs k).bytes = chars.take length) ∧
    ((¬ ∃ i k, keyAt t.entries i = some k ∧ (strs k).length = length ∧
        (strs k).bytes = chars.take length) →
      tableFindString strs t chars length hash = some none) := by
  have hlen := hwf.1.1
  have hmatch : ∀ k, keyMatches strs chars length hash k = true →
      (strs k).length = length ∧ (strs k).bytes = chars.take length := by
    intro k hk
    obtain ⟨h1, _, h3⟩ := (keyMatches_iff strs chars length hash k).1 hk
    exact ⟨h1.symm, by unfold ObjString.bytes; rw [← h1]; exact h3⟩
  constructor
  · rintro ⟨i, k, hik, hkl, hkb⟩
    have hkm : keyMatches strs chars length hash k = true := by
      rw [keyMatches_iff]
      refine ⟨hkl.symm, ?_, ?_⟩
      · rw [hhash, ← hkb]; exact (hkeys i k hik).symm
      · unfold ObjString.bytes at hkb; rw [hkl] at hkb; exact hkb
    have hkh : (strs k).hash = hash := ((keyMatches_iff strs chars length hash k).1 hkm).2.1.symm
    have hi : i < t.capacity := hlen ▸ keyAt_lt hik
    have hc : t.count ≠ 0 := by
      intro h0
      have := occupied_eq_zero (by rw [← hwf.2.1]; exact h0) i
      rw [hik] at this
      cases this
    have hcap : t.capacity ≠ 0 := by omega
    obtain ⟨d, hd, hpd⟩ := probe_surj hash i hi
    have h := tableFindStringLoop_found strs t chars length hash hlen d t.capacity
      (hash % t.capacity) hd (Nat.mod_lt _ (by omega))
    simp only [Nat.mod_add_mod] at h
    obtain ⟨k', i', h1, h2, h3⟩ := h
      (fun j hj => by
        have := hwf.1.2.2 i hi k hik d hd (by rw [hkh]; exact hpd) j hj
        rw [hkh] at this
        exact this)
      ⟨k, by rw [show (hash + d) % t.capacity = i from hpd]; exact hik, hkm⟩
    refine ⟨i', k', ?_, h2, hmatch k' h3⟩
    simp only [tableFindString, hc, hcap, if_false]
    exact h1
  · intro hno
    by_cases hc : t.count = 0
    · simp [tableFindString, hc]
    · have hlen' := occupied_le_length t.entries
      have hcount := hwf.2.1
      have hcap : t.capacity ≠ 0 := by omega
      obtain ⟨e, he⟩ := hwf.exists_empty hc
      have hecap : e < t.capacity := hlen ▸ emptyAt_lt he
      obtain ⟨de, hde, hpde⟩ := probe_surj hash e hecap
      have hex : ∃ n, emptyAt t.entries (probe t.capacity hash n) = true :=
        ⟨de, by rw [hpde]; exact he⟩
      classical
      have hn := Nat.find_spec hex
      have hmin := fun j (hj : j < Nat.find hex) => Nat.find_min hex hj
      have hnle : Nat.find hex ≤ de := Nat.find_min' hex (by rw [hpde]; exact he)
      generalize Nat.find hex = n at hn hmin hnle
      have h := tableFindStringLoop_absent strs t chars length hash hlen
        n t.capacity (hash % t.capacity) (by omega) (Nat.mod_lt _ (by omega))
      simp only [Nat.mod_add_mod] at h
      simp only [tableFindString, hc, hcap, if_false]
      refine h (fun j hj => ⟨by simpa using hmin j hj, fun k hik => ?_⟩) hn
      cases hkm : keyMatches strs chars length hash k with
      | false => rfl
      | true => exact (hno ⟨_, k, hik, hmatch k hkm⟩).elim

/-- C7, at an intern table where the string sought lies behind a tombstone on
a probe path that wraps around. -/
theorem tableFindString_spec_witness :
    internTable.WF internStrs ∧
    (∀ i k, keyAt internTable.entries i = some k →
      (internStrs k).hash = hashString (internStrs k).bytes) ∧
    ((∃ i k, keyAt internTable.entries i = some k ∧ (internStrs k).length = 2 ∧
        (internStrs k).bytes = [1, 6].take 2) →
      ∃ i k, tableFindString internStrs internTable [1, 6] 2 (hashString [1, 6])
          = some (some k) ∧
        keyAt internTable.entries i = some k ∧ (internStrs k).length = 2 ∧
        (internStrs k).bytes = [1, 6].take 2) ∧
    ((¬ ∃ i k, keyAt internTable.entries i = some k ∧ (internStrs k).length = 2 ∧
        (internStrs k).bytes = [1, 6].take 2) →
      tableFindString internStrs internTable [1, 6] 2 (hashString [1, 6]) = some none) :=
  ⟨by decide, fun _ _ _ => rfl,
    tableFindString_spec internStrs hashString internTable [1, 6] 2 (hashString [1, 6])
      (by decide) (fun _ _ _ => rfl) rfl⟩

/-! ## The upvalue operations on a sorted open-upvalue list -/

/-- C8. Upvalue sharing: in a state whose open-upvalue list is sorted by
strictly decreasing location, `captureUpvalue (p)` returns an open upvalue
that points to `p`, and a second `captureUpvalue (p)` right after it returns
the same upvalue and leaves the state, and so the heap and the open-upvalue
list, exactly as it is. -/
theorem captureUpvalue_shared (vm : VM) (slot : Nat) (hsorted : OpenSorted vm) :
    ∃ u vm1, captureUpvalue vm slot = some (u, vm1) ∧
      captureUpvalue vm1 slot = some (u, vm1) ∧
      u ∈ vm1.openUpvalues ∧ openLocation vm1.heap u = some slot := by
  apply captureUpvalue_again
  intro u hu
  obtain ⟨i, hi, _⟩ := hsorted.open u hu
  exact ⟨i, hi⟩

/-- C8, at a slot between two open upvalues, where the first call creates the
upvalue. -/
theorem captureUpvalue_shared_witness :
    OpenSorted upvalueVM ∧
    ∃ u vm1, captureUpvalue upvalueVM 2 = some (u, vm1) ∧
      captureUpvalue vm1 2 = some (u, vm1) ∧
      u ∈ vm1.openUpvalues ∧ openLocation vm1.heap u = some 2 :=
  ⟨by decide, captureUpvalue_shared upvalueVM 2 (by decide)⟩

/-- C9. In a state whose open-upvalue list is sorted by strictly decreasing
location, `closeUpvalues (b)` returns; afterwards every upvalue in the open
list points strictly below `b`, and every upvalue that pointed below `b` is
still in the open list, its object and the stack unchanged. -/
theorem closeUpvalues_boundary (vm : VM) (last : Nat) (hsorted : OpenSorted vm) :
    ∃ vm', closeUpvalues vm last = some vm' ∧
      (∀ u ∈ vm'.openUpvalues, ∃ i, openLocation vm'.heap u = some i ∧ i < last) ∧
      (∀ u ∈ vm.openUpvalues, ∀ i, openLocation vm.heap u = some i → i < last →
        u ∈ vm'.openUpvalues ∧ vm'.heap[u]? = vm.heap[u]?) ∧
      vm'.stack = vm.stack := by
  obtain ⟨l', heap', h1, _, h3, h4, _, _⟩ :=
    closeLoop_spec vm.stack last vm.openUpvalues vm.heap hsorted.1 hsorted.2
  exact ⟨{ vm with openUpvalues := l', heap := heap' }, by simp [closeUpvalues, h1], h3, h4, rfl⟩

/-- C9, at a boundary that closes two of three open upvalues. -/
theorem closeUpvalues_boundary_witness :
    OpenSorted upvalueVM ∧
    ∃ vm', closeUpvalues upvalueVM 3 = some vm' ∧
      (∀ u ∈ vm'.openUpvalues, ∃ i, openLocation vm'.heap u = some i ∧ i < 3) ∧
      (∀ u ∈ upvalueVM.openUpvalues, ∀ i, openLocation upvalueVM.heap u = some i → i < 3 →
        u ∈ vm'.openUpvalues ∧ vm'.heap[u]? = upvalueVM.heap[u]?) ∧
      vm'.stack = upvalueVM.stack :=
  ⟨by decide, closeUpvalues_boundary upvalueVM 3 (by decide)⟩

/-- C10. Closing preserves the captured value: in a state whose open-upvalue
list is sorted by strictly decreasing location, every upvalue that
`closeUpvalues (b)` removes from the open list is closed afterwards (its
`location` is the address of its own `closed` field), and reading through it
yields the value its stack slot held at the call, whatever the stack and
`stackTop` are changed to later. -/
theorem closeUpvalues_keeps_value (vm : VM) (last : Nat) (hsorted : OpenSorted vm) :
    ∃ vm', closeUpvalues vm last = some vm' ∧
      ∀ u ∈ vm.openUpvalues, u ∉ vm'.openUpvalues →
        ∃ i v, openLocation vm.heap u = some i ∧ vm.stack[i]? = some v ∧
          upvalueAt vm'.heap u = some { location := ValuePtr.closed u, closed := v } ∧
          ∀ (stack : List Value) (stackTop : Nat),
            readUpvalue { vm' with stack := stack, stackTop := stackTop } u = some v := by
  obtain ⟨l', heap', h1, _, _, h4, h5, _⟩ :=
    closeLoop_spec vm.stack last vm.openUpvalues vm.heap hsorted.1 hsorted.2
  refine ⟨{ vm with openUpvalues := l', heap := heap' }, by simp [closeUpvalues, h1], ?_⟩
  intro u hu hgone
  obtain ⟨i, hi, _⟩ := hsorted.open u hu
  by_cases hlt : i < last
  · exact (hgone (h4 u hu i hi hlt).1).elim
  · obtain ⟨_, v, hv, hclosed⟩ := h5 u hu i hi (by omega)
    refine ⟨i, v, hi, hv, hclosed, fun stack stackTop => ?_⟩
    simp only [readUpvalue, hclosed, deref]

/-- C10, at a boundary that closes two of three open upvalues. -/
theorem closeUpvalues_keeps_value_witness :
    OpenSorted upvalueVM ∧
    ∃ vm', closeUpvalues upvalueVM 3 = some vm' ∧
      ∀ u ∈ upvalueVM.openUpvalues, u ∉ vm'.openUpvalues →
        ∃ i v, openLocation upvalueVM.heap u = some i ∧ upvalueVM.stack[i]? = some v ∧
          upvalueAt vm'.heap u = some { location := ValuePtr.closed u, closed := v } ∧
          ∀ (stack : List Value) (stackTop : Nat),
            readUpvalue { vm' with stack := stack, stackTop := stackTop } u = some v :=
  ⟨by decide, closeUpvalues_keeps_value upvalueVM 3 (by decide)⟩

/-! ## The dispatcher -/

theorem READ_BYTE_frames {vm vm1 : VM} {fi byte : Nat}
    (h : READ_BYTE vm fi = some (byte, vm1)) : ∃ frames, vm1 = { vm with frames := frames } := by
  unfold READ_BYTE at h
  split at h
  · cases h
  · split at h
    · cases h
    · split at h
      · cases h
      · split at h
        · cases h
        · simp only [Option.some.injEq, Prod.mk.injEq] at h
          exact ⟨_, h.2.symm⟩

theorem READ_CONSTANT_frames {vm vm1 : VM} {fi : Nat} {value : Value}
    (h : READ_CONSTANT vm fi = some (value, vm1)) :
    ∃ frames, vm1 = { vm with frames := frames } := by
  unfold READ_CONSTANT at h
  split at h
  · cases h
  · rename_i index vm0 hb
    obtain ⟨frames, hf⟩ := READ_BYTE_frames hb
    split at h
    · cases h
    · split at h
      · cases h
      · split at h
        · cases h
        · split at h
          · cases h
          · simp only [Option.some.injEq, Prod.mk.injEq] at h
            exact ⟨frames, by rw [← h.2, hf]⟩

theorem READ_STRING_frames {vm vm1 : VM} {fi : Nat} {name : ObjPtr}
    (h : READ_STRING vm fi = some (name, vm1)) :
    ∃ frames, vm1 = { vm with frames := frames } := by
  unfold READ_STRING at h
  split at h
  · rename_i p vm0 hc
    obtain ⟨frames, hf⟩ := READ_CONSTANT_frames hc
    split at h
    · simp only [Option.some.injEq, Prod.mk.injEq] at h
      exact ⟨frames, by rw [← h.2, hf]⟩
    · cases h
  · cases h

theorem traceLoop_defined (heap : List Obj) (frames : List CallFrame) :
    ∀ (n : Nat) (err : String),
      (∀ i, i < n →
        (match frames[i]? with
          | some frame => (traceLine heap frame).isSome
          | none => false) = true) →
      ∃ err', traceLoop heap frames n err = some err' := by
  intro n
  induction n with
  | zero => intro err _; exact ⟨err, rfl⟩
  | succ n ih =>
    intro err h
    have hn := h n (by omega)
    cases hf : frames[n]? with
    | none => simp [hf] at hn
    | some frame =>
      cases hl : traceLine heap frame with
      | none => simp [hf, hl] at hn
      | some line =>
        obtain ⟨err', he⟩ := ih (err ++ line) (fun i hi => h i (by omega))
        exact ⟨err', by simp [traceLoop, hf, hl, he]⟩

/-- `runtimeError` returns when the trace is defined; it changes the stack
top, the frame count, the open-upvalue list, the object list and stderr
only. -/
theorem runtimeError_defined (vm : VM) (message : String) (h : TraceDefined vm) :
    ∃ err, runtimeError vm message = some (resetStack { vm with err := err }) := by
  obtain ⟨err, he⟩ := traceLoop_defined vm.heap vm.frames vm.frameCount
    (vm.err ++ message ++ "\n") h
  exact ⟨err, by simp [runtimeError, he]⟩

/-- C1. `OP_SET_GLOBAL` on a name without live entry in a well-formed globals
table (the stack is not empty and the stack trace is defined): the dispatcher
step ends in `INTERPRET_RUNTIME_ERROR`, afterwards `tableGet` of the name
still fails, and `tableGet` of every other key returns what it returned before
the instruction. -/
theorem OP_SET_GLOBAL_undefined (host : Host) (vm vm1 vm2 : VM) (name : ObjPtr) (v : Value)
    (hframe : vm.frameCount ≠ 0)
    (hop : READ_BYTE vm (vm.frameCount - 1) = some (OpCode.OP_SET_GLOBAL.toByte, vm1))
    (hname : READ_STRING vm1 (vm.frameCount - 1) = some (name, vm2))
    (hpeek : peek vm2 0 = some v)
    (htrace : TraceDefined vm2)
    (hwf : vm.globals.WF (strsOf vm.heap))
    (habsent : tableGet (strsOf vm.heap) vm.globals name = some none) :
    ∃ vm', step host vm = some (Step.halt InterpretResult.INTERPRET_RUNTIME_ERROR vm') ∧
      tableGet (strsOf vm'.heap) vm'.globals name = some none ∧
      ∀ k, k ≠ name →
        tableGet (strsOf vm'.heap) vm'.globals k = tableGet (strsOf vm.heap) vm.globals k := by
  obtain ⟨frames1, hf1⟩ := READ_BYTE_frames hop
  obtain ⟨frames2, hf2⟩ := READ_STRING_frames hname
  have hheap : vm2.heap = vm.heap := by rw [hf2, hf1]
  have hglob : vm2.globals = vm.globals := by rw [hf2, hf1]
  have hcount1 : vm1.frameCount = vm.frameCount := by rw [hf1]
  obtain ⟨b, t', hset, hwf', hnew, hlive⟩ := tableSet_spec hwf name v
  have hb : b = true := hnew.2 ((tableGet_eq_none_iff hwf name).1 habsent)
  subst hb
  obtain ⟨b2, t'', hdel, hwf'', _, hlive2, _⟩ := tableDelete_spec hwf' name
  have htrace' : TraceDefined { vm2 with globals := t'' } := htrace
  obtain ⟨err, herr⟩ := runtimeError_defined { vm2 with globals := t'' }
    ("Undefined variable '" ++ cString (strsOf vm2.heap name).chars ++ "'.") htrace'
  have hbyte : OpCode.ofByte OpCode.OP_SET_GLOBAL.toByte = some OpCode.OP_SET_GLOBAL := by
    decide
  refine ⟨resetStack { vm2 with globals := t'', err := err }, ?_, ?_, ?_⟩
  · unfold step
    simp only [hframe, if_false, hop, hbyte, hname, hpeek, hheap, hglob, hset, hdel, failWith]
    rw [hheap] at herr
    simp only [herr, Option.map_some']
  · show tableGet (strsOf vm2.heap) t'' name = some none
    rw [hheap]
    apply (tableGet_spec hwf'' name).2
    intro v0 hv0
    exact ((hlive2 name v0).1 hv0).1 rfl
  · intro k hk
    show tableGet (strsOf vm2.heap) t'' k = _
    rw [hheap]
    apply tableGet_congr hwf hwf''
    intro v'
    rw [hlive2 k v', hlive k v']
    constructor
    · rintro ⟨_, (⟨h, _⟩ | ⟨_, h⟩)⟩
      · exact (hk h).elim
      · exact h
    · exact fun h => ⟨hk, Or.inr ⟨hk, h⟩⟩

/-- C1, at the assignment `x = 5;` to the undefined global `x` while the
global `y` is defined. -/
theorem OP_SET_GLOBAL_undefined_witness :
    setGlobalVM.frameCount ≠ 0 ∧
    READ_BYTE setGlobalVM (setGlobalVM.frameCount - 1)
      = some (OpCode.OP_SET_GLOBAL.toByte,
          { setGlobalVM with frames :=
            [{ closure := 1, ip := 1, slots := 0 }, { closure := 0, ip := 0, slots := 0 }] }) ∧
    TraceDefined { setGlobalVM with frames :=
      [{ closure := 1, ip := 2, slots := 0 }, { closure := 0, ip := 0, slots := 0 }] } ∧
    setGlobalVM.globals.WF (strsOf setGlobalVM.heap) ∧
    tableGet (strsOf setGlobalVM.heap) setGlobalVM.globals 2 = some none ∧
    ∃ vm', step plainHost setGlobalVM
        = some (Step.halt InterpretResult.INTERPRET_RUNTIME_ERROR vm') ∧
      tableGet (strsOf vm'.heap) vm'.globals 2 = some none ∧
      ∀ k, k ≠ 2 →
        tableGet (strsOf vm'.heap) vm'.globals k
          = tableGet (strsOf setGlobalVM.heap) setGlobalVM.globals k :=
  ⟨by decide, by decide, by decide, by decide, by decide,
    OP_SET_GLOBAL_undefined plainHost setGlobalVM
      { setGlobalVM with frames :=
        [{ closure := 1, ip := 1, slots := 0 }, { closure := 0, ip := 0, slots := 0 }] }
      { setGlobalVM with frames :=
        [{ closure := 1, ip := 2, slots := 0 }, { closure := 0, ip := 0, slots := 0 }] }
      2 (Value.number 5) (by decide) (by decide) (by decide) (by decide) (by decide)
      (by decide) (by decide)⟩

/-- C2. One dispatcher step on `OP_CONSTANT 0` pushes the constant and appends
a newline to standard output, although the instruction is not `OP_PRINT`. -/
theorem step_OP_CONSTANT_output :
    OpCode.ofByte 0 = some OpCode.OP_CONSTANT ∧
    ∃ vm', step plainHost constantVM = some (Step.next vm') ∧
      peek vm' 0 = some (Value.number 1) ∧
      constantVM.out = "" ∧ vm'.out = "\n" :=
  ⟨rfl, _, rfl, rfl, rfl, rfl⟩

/-- C3. `runtimeError` in a state with four heap objects linked in
`vm.objects`: the stack is emptied and the frame count set to 0, and the
object list is emptied as well. -/
theorem runtimeError_clears_objects :
    errorVM.objects = [3, 2, 1, 0] ∧
    ∃ vm', runtimeError errorVM "Undefined variable 'x'." = some vm' ∧
      vm'.stackTop = 0 ∧ vm'.frameCount = 0 ∧ vm'.objects = [] :=
  ⟨rfl, _, rfl, rfl, rfl, rfl⟩

/-! ## The occupancy invariant of reachable tables -/

/-- The shape of what `tableSet` returns: the capacity is that of the table
after the growth step, and `count` is at most one more than there. -/
theorem tableSet_shape {strs : ObjPtr → ObjString} {t t' : Table} {k : ObjPtr} {v : Value}
    {b : Bool} (h : tableSet strs t k v = some (b, t')) :
    ∃ t1, (if overLoad t then adjustCapacity strs t (GROW_CAPACITY t.capacity) else some t)
        = some t1 ∧ t'.capacity = t1.capacity ∧ t'.count ≤ t1.count + 1 := by
  unfold tableSet at h
  split at h
  · cases h
  · rename_i t1 h1
    split at h
    · cases h
    · split at h
      · cases h
      · simp only [Option.some.injEq, Prod.mk.injEq] at h
        refine ⟨t1, h1, ?_, ?_⟩
        · rw [← h.2]
        · rw [← h.2]
          simp only
          split <;> omega

theorem tableSet_Occupancy {strs : ObjPtr → ObjString} {t t' : Table} {k : ObjPtr}
    {v : Value} {b : Bool} (hinv : Occupancy strs t)
    (h : tableSet strs t k v = some (b, t')) : Occupancy strs t' := by
  obtain ⟨hwf, hcap, hload⟩ := hinv
  obtain ⟨b0, t0, h0, hwf0, _, _⟩ := tableSet_spec hwf k v
  rw [h] at h0
  simp only [Option.some.injEq, Prod.mk.injEq] at h0
  obtain ⟨t1, h1, hc1, hn1⟩ := tableSet_shape h
  refine ⟨by rw [h0.2]; exact hwf0, ?_, ?_⟩
  · by_cases hov : overLoad t = true
    · rw [if_pos hov] at h1
      have hlt : t.count < GROW_CAPACITY t.capacity := by
        unfold GROW_CAPACITY; split <;> omega
      obtain ⟨t2, h2, hc2, _⟩ := adjustCapacity_spec hwf hlt
      rw [h1] at h2
      simp only [Option.some.injEq] at h2
      rw [hc1, h2, hc2]
      right
      rcases hcap with h | ⟨j, hj⟩
      · exact ⟨0, by simp [GROW_CAPACITY, h]⟩
      · refine ⟨j + 1, ?_⟩
        have hpos : 0 < 2 ^ j := Nat.pow_pos (by omega)
        unfold GROW_CAPACITY
        rw [if_neg (by omega), hj, Nat.pow_succ]
        omega
    · rw [if_neg hov] at h1
      simp only [Option.some.injEq] at h1
      rw [hc1, ← h1]
      exact hcap
  · by_cases hov : overLoad t = true
    · rw [if_pos hov] at h1
      have hlt : t.count < GROW_CAPACITY t.capacity := by
        unfold GROW_CAPACITY; split <;> omega
      obtain ⟨t2, h2, hc2, _, _, hle, _⟩ := adjustCapacity_spec hwf hlt
      rw [h1] at h2
      simp only [Option.some.injEq] at h2
      subst h2
      rw [hc1, hc2]
      have hg : 4 * (t.count + 1) ≤ 3 * GROW_CAPACITY t.capacity := by
        unfold GROW_CAPACITY
        rcases hcap with h | ⟨j, hj⟩
        · rw [h] at hload ⊢; simp; omega
        · have hpos : 0 < 2 ^ j := Nat.pow_pos (by omega)
          rw [if_neg (by omega)]
          omega
      omega
    · rw [if_neg hov] at h1
      simp only [Option.some.injEq] at h1
      subst h1
      have : ¬ (3 * t.capacity < 4 * (t.count + 1)) := by
        simpa [overLoad] using hov
      rw [hc1]
      omega

theorem tableDelete_Occupancy {strs : ObjPtr → ObjString} {t t' : Table} {k : ObjPtr}
    {b : Bool} (hinv : Occupancy strs t)
    (h : tableDelete strs t k = some (b, t')) : Occupancy strs t' := by
  obtain ⟨hwf, hcap, hload⟩ := hinv
  obtain ⟨b0, t0, h0, hwf0, _, _, hshape⟩ := tableDelete_spec hwf k
  rw [h] at h0
  simp only [Option.some.injEq, Prod.mk.injEq] at h0
  obtain ⟨hb, ht⟩ := h0
  subst hb ht
  refine ⟨hwf0, ?_, ?_⟩
  · cases b with
    | true =>
      obtain ⟨i, _, hi⟩ := hshape rfl
      rw [hi]; exact hcap
    | false =>
      have : t' = t := by
        unfold tableDelete at h
        split at h
        · simp only [Option.some.injEq, Prod.mk.injEq] at h; exact h.2.symm
        · split at h
          · cases h
          · split at h
            · cases h
            · split at h
              · simp only [Option.some.injEq, Prod.mk.injEq] at h; exact h.2.symm
              · simp at h
      rw [this]; exact hcap
  · cases b with
    | true =>
      obtain ⟨i, _, hi⟩ := hshape rfl
      rw [hi]; exact hload
    | false =>
      have : t' = t := by
        unfold tableDelete at h
        split at h
        · simp only [Option.some.injEq, Prod.mk.injEq] at h; exact h.2.symm
        · split at h
          · cases h
          · split at h
            · cases h
            · split at h
              · simp only [Option.some.injEq, Prod.mk.injEq] at h; exact h.2.symm
              · simp at h
      rw [this]; exact hload

theorem tableAddAll_Occupancy (strs : ObjPtr → ObjString) (src : Table) :
    ∀ dst dst' : Table, Occupancy strs dst → tableAddAll strs src dst = some dst' →
      Occupancy strs dst' := by
  unfold tableAddAll
  generalize src.entries = l
  induction l with
  | nil =>
    intro dst dst' hinv h
    simp only [tableAddAllLoop, Option.some.injEq] at h
    rw [← h]; exact hinv
  | cons e rest ih =>
    intro dst dst' hinv h
    rw [tableAddAllLoop_cons] at h
    split at h
    · exact ih dst dst' hinv h
    · split at h
      · cases h
      · rename_i hset
        exact ih _ dst' (tableSet_Occupancy hinv hset) h

theorem Reachable.occupancy {strs : ObjPtr → ObjString} {t : Table} (h : Reachable strs t) :
    Occupancy strs t := by
  induction h with
  | init => exact ⟨initTable_WF strs, Or.inl rfl, by simp [initTable]⟩
  | set _ hset ih => exact tableSet_Occupancy ih hset
  | delete _ hdel ih => exact tableDelete_Occupancy ih hdel
  | addAll _ hadd ih => exact tableAddAll_Occupancy strs _ _ _ ih hadd

/-- C20. Table occupancy invariant: in every table reached from `initTable`
by `tableSet`, `tableDelete` and `tableAddAll`, `count` is the number of
non-empty slots (live entries plus tombstones), the capacity is 0 or
`8 * 2 ^ k`, and `count` is at most 0.75 times the capacity; hence a table
with slots has a truly empty slot `(key = NULL, value = nil)`. -/
theorem reachable_occupancy (strs : ObjPtr → ObjString) (t : Table)
    (h : Reachable strs t) :
    t.count = occupied t.entries ∧
    (t.capacity = 0 ∨ ∃ k, t.capacity = 8 * 2 ^ k) ∧
    4 * t.count ≤ 3 * t.capacity ∧
    (0 < t.capacity →
      ∃ i, i < t.capacity ∧ t.entries[i]? = some { key := none, value := Value.nil }) := by
  obtain ⟨hwf, hcap, hload⟩ := h.occupancy
  refine ⟨hwf.2.1, hcap, hload, fun hpos => ?_⟩
  have hlen := hwf.1.1
  have hcount := hwf.2.1
  obtain ⟨i, hi⟩ := @exists_emptyAt t.entries (by omega)
  refine ⟨i, hlen ▸ emptyAt_lt hi, ?_⟩
  unfold emptyAt at hi
  cases he : t.entries[i]? with
  | none => simp [he] at hi
  | some e =>
    simp only [he] at hi
    rw [(isEmpty_eq_true_iff e).1 hi]

/-- C20, at a table reached by an insertion followed by the deletion of the
key: its only counted slot is a tombstone. -/
theorem reachable_occupancy_witness :
    Reachable sampleStrs tombstoneTable ∧
    tombstoneTable.count = occupied tombstoneTable.entries ∧
    (tombstoneTable.capacity = 0 ∨ ∃ k, tombstoneTable.capacity = 8 * 2 ^ k) ∧
    4 * tombstoneTable.count ≤ 3 * tombstoneTable.capacity ∧
    (0 < tombstoneTable.capacity →
      ∃ i, i < tombstoneTable.capacity ∧
        tombstoneTable.entries[i]? = some { key := none, value := Value.nil }) :=
  have hreach : Reachable sampleStrs tombstoneTable :=
    @Reachable.delete sampleStrs oneKeyTable tombstoneTable 1 true
      (@Reachable.set sampleStrs initTable oneKeyTable 1 (Value.number 10) true
        Reachable.init (by decide))
      (by decide)
  ⟨hreach, reachable_occupancy sampleStrs tombstoneTable hreach⟩

/-! ## The upvalue operations keep the open-upvalue list sorted -/

/-- What `captureUpvalue` does on a list of open upvalues: it splits the list
at the first upvalue that does not point above `slot`, and either returns that
upvalue, which points to `slot`, with the state unchanged, or links a new
upvalue at `slot` in front of it. -/
theorem captureUpvalue_cases (vm : VM) (slot : Nat)
    (hopen : ∀ u ∈ vm.openUpvalues, ∃ i, openLocation vm.heap u = some i) :
    ∃ passed remaining, vm.openUpvalues = passed ++ remaining ∧
      (∀ u ∈ passed, ∃ i, openLocation vm.heap u = some i ∧ slot < i) ∧
      (∀ u rest, remaining = u :: rest → ∃ i, openLocation vm.heap u = some i ∧ ¬ slot < i) ∧
      ((∃ u rest, remaining = u :: rest ∧ openLocation vm.heap u = some slot ∧
          captureUpvalue vm slot = some (u, vm)) ∨
        ((∀ u rest, remaining = u :: rest → openLocation vm.heap u ≠ some slot) ∧
          captureUpvalue vm slot = some (vm.heap.length,
            { vm with
              heap := vm.heap ++
                [Obj.upvalue { location := ValuePtr.stack slot, closed := Value.nil }],
              objects := vm.heap.length :: vm.objects,
              openUpvalues := passed ++ vm.heap.length :: remaining }))) := by
  obtain ⟨passed, remaining, hw, hsplit, hpassed, hrem⟩ :=
    captureWalk_spec vm.heap slot vm.openUpvalues hopen
  refine ⟨passed, remaining, hsplit, hpassed, hrem, ?_⟩
  by_cases hfound : ∃ u rest uv, remaining = u :: rest ∧ upvalueAt vm.heap u = some uv ∧
      uv.location = ValuePtr.stack slot
  · obtain ⟨u, rest, uv, hr, huv, hl⟩ := hfound
    exact Or.inl ⟨u, rest, hr, openLocation_of huv hl,
      by simp [captureUpvalue, hw, hr, huv, hl]⟩
  · have hnone : (match remaining with
        | [] => (none : Option ObjPtr)
        | u :: _ =>
          match upvalueAt vm.heap u with
          | some uv => if uv.location = ValuePtr.stack slot then some u else none
          | none => none) = none := by
      cases hr : remaining with
      | nil => rfl
      | cons u rest =>
        cases huv : upvalueAt vm.heap u with
        | none => simp [huv]
        | some uv =>
          by_cases hl : uv.location = ValuePtr.stack slot
          · exact (hfound ⟨u, rest, uv, hr, huv, hl⟩).elim
          · simp [huv, hl]
    refine Or.inr ⟨?_, by simp only [captureUpvalue, hw, hnone, newUpvalue, allocateObject]⟩
    intro u rest hr hloc
    obtain ⟨uv, huv, hl⟩ := openLocation_eq_some hloc
    exact hfound ⟨u, rest, uv, hr, huv, hl⟩

/-- In a sorted list no two upvalues point to the same slot. -/
theorem sorted_unique (heap : List Obj) :
    ∀ l : List ObjPtr, (openLocs heap l).Pairwise (fun a b => locBelow a b = true) →
      ∀ w1 ∈ l, ∀ w2 ∈ l, ∀ i, openLocation heap w1 = some i →
        openLocation heap w2 = some i → w1 = w2 := by
  intro l
  induction l with
  | nil => intro _ w1 h1; cases h1
  | cons a l ih =>
    intro hpw w1 h1 w2 h2 i hi1 hi2
    simp only [openLocs, List.map_cons, List.pairwise_cons] at hpw
    have hhead : ∀ w ∈ l, openLocation heap a = some i → openLocation heap w = some i →
        False := by
      intro w hw ha hwi
      have := hpw.1 (openLocation heap w) (List.mem_map_of_mem _ hw)
      rw [ha, hwi] at this
      simp [locBelow] at this
    rcases List.mem_cons.1 h1 with rfl | h1' <;> rcases List.mem_cons.1 h2 with rfl | h2'
    · rfl
    · exact (hhead w2 h2' hi1 hi2).elim
    · exact (hhead w1 h1' hi2 hi1).elim
    · exact ih hpw.2 w1 h1' w2 h2' i hi1 hi2

/-- The loop of `closeUpvalues` returns a suffix of the list. -/
theorem closeLoop_suffix (stack : List Value) (last : Nat) :
    ∀ (l : List ObjPtr) (heap : List Obj) (l' : List ObjPtr) (heap' : List Obj),
      closeLoop stack last l heap = some (l', heap') → ∃ pre, l = pre ++ l' := by
  intro l
  induction l with
  | nil =>
    intro heap l' heap' h
    simp only [closeLoop, Option.some.injEq, Prod.mk.injEq] at h
    exact ⟨[], by rw [← h.1]; rfl⟩
  | cons u rest ih =>
    intro heap l' heap' h
    rw [closeLoop_cons] at h
    split at h
    · cases h
    · split at h
      · cases h
      · split at h
        · split at h
          · cases h
          · obtain ⟨pre, hpre⟩ := ih _ _ _ h
            exact ⟨u :: pre, by rw [hpre]; rfl⟩
        · simp only [Option.some.injEq, Prod.mk.injEq] at h
          exact ⟨[], by rw [← h.1]; rfl⟩

/-- C19. Invariant I4 is preserved by the upvalue operations: when the
open-upvalue list is sorted by strictly decreasing location, `captureUpvalue`
of a stack slot returns and leaves the list sorted, with the returned upvalue
as its only entry at that slot, and `closeUpvalues` of any boundary returns
and leaves the list sorted. -/
theorem upvalue_ops_keep_sorted (vm : VM) (hsorted : OpenSorted vm) :
    (∀ slot, slot < vm.stack.length →
      ∃ u vm1, captureUpvalue vm slot = some (u, vm1) ∧ OpenSorted vm1 ∧
        u ∈ vm1.openUpvalues ∧ openLocation vm1.heap u = some slot ∧
        ∀ w ∈ vm1.openUpvalues, openLocation vm1.heap w = some slot → w = u) ∧
    (∀ last, ∃ vm', closeUpvalues vm last = some vm' ∧ OpenSorted vm') := by
  have hopen : ∀ u ∈ vm.openUpvalues, ∃ i, openLocation vm.heap u = some i := by
    intro u hu
    obtain ⟨i, hi, _⟩ := hsorted.open u hu
    exact ⟨i, hi⟩
  constructor
  · intro slot hslot
    obtain ⟨passed, remaining, hsplit, hpassed, hrem, hcase⟩ :=
      captureUpvalue_cases vm slot hopen
    rcases hcase with ⟨u, rest, hr, hloc, hcap⟩ | ⟨hnot, hcap⟩
    · have hmem : u ∈ vm.openUpvalues := by rw [hsplit, hr]; simp
      exact ⟨u, vm, hcap, hsorted, hmem, hloc,
        fun w hw hwl => sorted_unique vm.heap _ hsorted.1 w hw u hmem slot hwl hloc⟩
    · have hold : ∀ w ∈ vm.openUpvalues,
          openLocation (vm.heap ++
            [Obj.upvalue { location := ValuePtr.stack slot, closed := Value.nil }]) w
            = openLocation vm.heap w := by
        intro w hw
        obtain ⟨i, hi⟩ := hopen w hw
        obtain ⟨uv, huv, hl⟩ := openLocation_eq_some hi
        rw [hi]
        exact openLocation_of (upvalueAt_append huv _) hl
      have hnew : openLocation (vm.heap ++
            [Obj.upvalue { location := ValuePtr.stack slot, closed := Value.nil }])
            vm.heap.length = some slot :=
        openLocation_of (upvalueAt_append_new vm.heap _) rfl
      have hlocs : openLocs (vm.heap ++
            [Obj.upvalue { location := ValuePtr.stack slot, closed := Value.nil }])
            (passed ++ vm.heap.length :: remaining)
          = openLocs vm.heap passed ++ some slot :: openLocs vm.heap remaining := by
        simp only [openLocs, List.map_append, List.map_cons, hnew]
        congr 1
        · apply List.map_congr_left
          intro w hw
          exact hold w (by rw [hsplit]; exact List.mem_append_left _ hw)
        · congr 1
          apply List.map_congr_left
          intro w hw
          exact hold w (by rw [hsplit]; exact List.mem_append_right _ hw)
      have hpw := hsorted.1
      rw [hsplit] at hpw
      simp only [openLocs, List.map_append, List.pairwise_append] at hpw
      obtain ⟨hpw1, hpw2, hpw3⟩ := hpw
      have hbelow : ∀ b ∈ List.map (openLocation vm.heap) remaining,
          locBelow (some slot) b = true := by
        intro b hb
        obtain ⟨w, hw, hwb⟩ := List.mem_map.1 hb
        cases hr : remaining with
        | nil => rw [hr] at hw; cases hw
        | cons x rest =>
          obtain ⟨i, hi, hnlt⟩ := hrem x rest hr
          have hne : i ≠ slot := fun h => hnot x rest hr (by rw [hi, h])
          rw [hr] at hw hpw2
          simp only [List.map_cons, List.pairwise_cons] at hpw2
          rcases List.mem_cons.1 hw with rfl | hw'
          · rw [← hwb, hi]
            simp only [locBelow, decide_eq_true_eq]
            omega
          · have := hpw2.1 (openLocation vm.heap w) (List.mem_map_of_mem _ hw')
            rw [hi] at this
            obtain ⟨a, j, ha, hj, hja⟩ := locBelow_eq_true this
            simp only [Option.some.injEq] at ha
            rw [← hwb, hj]
            simp only [locBelow, decide_eq_true_eq]
            omega
      have hsorted1 : OpenSorted { vm with
          heap := vm.heap ++
            [Obj.upvalue { location := ValuePtr.stack slot, closed := Value.nil }],
          objects := vm.heap.length :: vm.objects,
          openUpvalues := passed ++ vm.heap.length :: remaining } := by
        constructor
        · show List.Pairwise _ (openLocs _ (passed ++ vm.heap.length :: remaining))
          rw [hlocs, List.pairwise_append]
          refine ⟨hpw1, List.pairwise_cons.2 ⟨hbelow, hpw2⟩, ?_⟩
          intro a ha b hb
          rcases List.mem_cons.1 hb with rfl | hb'
          · obtain ⟨w, hw, hwa⟩ := List.mem_map.1 ha
            obtain ⟨i, hi, hlt⟩ := hpassed w hw
            rw [← hwa, hi]
            simpa [locBelow] using hlt
          · exact hpw3 a ha b hb'
        · show ∀ a ∈ openLocs _ (passed ++ vm.heap.length :: remaining), _
          rw [hlocs]
          intro a ha
          rcases List.mem_append.1 ha with h | h
          · exact hsorted.2 a (by
              rw [hsplit]
              simp only [openLocs, List.map_append, List.mem_append]
              exact Or.inl h)
          · rcases List.mem_cons.1 h with rfl | h'
            · simpa [locInStack] using hslot
            · exact hsorted.2 a (by
                rw [hsplit]
                simp only [openLocs, List.map_append, List.mem_append]
                exact Or.inr h')
      refine ⟨vm.heap.length, _, hcap, hsorted1, by simp, hnew, ?_⟩
      intro w hw hwl
      exact sorted_unique _ _ hsorted1.1 w hw vm.heap.length (by simp) slot hwl hnew
  · intro last
    obtain ⟨l', heap', h1, _, _, h4, h5, _⟩ :=
      closeLoop_spec vm.stack last vm.openUpvalues vm.heap hsorted.1 hsorted.2
    obtain ⟨pre, hpre⟩ := closeLoop_suffix vm.stack last _ _ _ _ h1
    refine ⟨{ vm with openUpvalues := l', heap := heap' }, by simp [closeUpvalues, h1], ?_⟩
    have hmem : ∀ w ∈ l', w ∈ vm.openUpvalues := by
      intro w hw; rw [hpre]; exact List.mem_append_right _ hw
    have hlocs : openLocs heap' l' = openLocs vm.heap l' := by
      unfold openLocs
      apply List.map_congr_left
      intro w hw
      obtain ⟨i, hi, _⟩ := hsorted.open w (hmem w hw)
      by_cases hlt : i < last
      · exact openLocation_congr (h4 w (hmem w hw) i hi hlt).2
      · exact ((h5 w (hmem w hw) i hi (by omega)).1 hw).elim
    have hpw := hsorted.1
    rw [hpre] at hpw
    simp only [openLocs, List.map_append, List.pairwise_append] at hpw
    constructor
    · show List.Pairwise _ (openLocs heap' l')
      rw [hlocs]
      exact hpw.2.1
    · show ∀ a ∈ openLocs heap' l', _
      rw [hlocs]
      intro a ha
      exact hsorted.2 a (by
        rw [hpre]
        simp only [openLocs, List.map_append, List.mem_append]
        exact Or.inr ha)

/-- C19, at a state with three open upvalues: a capture between two of them,
and a close of two of them. -/
theorem upvalue_ops_keep_sorted_witness :
    OpenSorted upvalueVM ∧
    (∀ slot, slot < upvalueVM.stack.length →
      ∃ u vm1, captureUpvalue upvalueVM slot = some (u, vm1) ∧ OpenSorted vm1 ∧
        u ∈ vm1.openUpvalues ∧ openLocation vm1.heap u = some slot ∧
        ∀ w ∈ vm1.openUpvalues, openLocation vm1.heap w = some slot → w = u) ∧
    (∀ last, ∃ vm', closeUpvalues upvalueVM last = some vm' ∧ OpenSorted vm') :=
  ⟨by decide, upvalue_ops_keep_sorted upvalueVM (by decide)⟩

/-! ## `runtimeError`, `call` and `callValue` -/

theorem traceLoop_eq (heap : List Obj) (frames : List CallFrame) :
    ∀ (n : Nat) (err : String),
      traceLoop heap frames n err = (traceLoop heap frames n "").map (fun t => err ++ t) := by
  intro n
  induction n with
  | zero => intro err; simp [traceLoop]
  | succ n ih =>
    intro err
    simp only [traceLoop]
    cases hfr : frames[n]? with
    | none => simp
    | some frame =>
      simp only
      cases hl : traceLine heap frame with
      | none => simp
      | some line =>
        simp only
        rw [ih (err ++ line), ih ("" ++ line), Option.map_map]
        congr 1
        funext t
        simp [String.append_assoc]

/-- With a defined stack trace `runtimeError (message)` returns, in the state
`afterError` of the message and the trace. -/
theorem runtimeError_message (vm : VM) (message : String) (h : TraceDefined vm) :
    ∃ trace, stackTrace vm = some trace ∧
      runtimeError vm message = some (afterError vm message trace) := by
  obtain ⟨trace, ht⟩ := traceLoop_defined vm.heap vm.frames vm.frameCount "" h
  refine ⟨trace, ht, ?_⟩
  unfold runtimeError
  rw [traceLoop_eq, ht]
  rfl

/-- C11. `call (closure, argc)` with a defined stack trace: a call whose
`argc` differs from the arity fails with "Expected N arguments but got M.",
whatever the frame count; else a call at `frameCount = FRAMES_MAX` fails with
"Stack overflow."; else (the callee and its arguments being on the stack) it
returns `true`, the frame count is one more and at most `FRAMES_MAX`, the
value stack is unchanged, and the new top frame has `ip` at the first byte of
the chunk and `slots = stackTop - argc - 1`, which is the slot of the callee,
with the arguments in the slots 1 to `argc` above it. -/
theorem call_spec (vm : VM) (closure : ObjPtr) (argCount : Nat) (c : ObjClosure)
    (function : ObjFunction) (hc : closureAt vm.heap closure = some c)
    (hf : functionAt vm.heap c.function = some function) (htrace : TraceDefined vm)
    (hframes : vm.frameCount ≤ vm.FRAMES_MAX) (hargs : argCount + 1 ≤ vm.stackTop) :
    (function.arity ≠ argCount →
      ∃ trace, call vm closure argCount = some (false, afterError vm
        ("Expected " ++ toString function.arity ++ " arguments but got "
          ++ toString argCount ++ ".") trace)) ∧
    (function.arity = argCount → vm.frameCount = vm.FRAMES_MAX →
      ∃ trace, call vm closure argCount
        = some (false, afterError vm "Stack overflow." trace)) ∧
    (function.arity = argCount → vm.frameCount ≠ vm.FRAMES_MAX →
      ∃ vm', call vm closure argCount = some (true, vm') ∧
        vm'.frameCount = vm.frameCount + 1 ∧ vm'.frameCount ≤ vm'.FRAMES_MAX ∧
        vm'.stack = vm.stack ∧ vm'.stackTop = vm.stackTop ∧
        vm'.frames[vm'.frameCount - 1]?
          = some { closure := closure, ip := 0, slots := vm.stackTop - argCount - 1 } ∧
        vm.stack[vm.stackTop - argCount - 1]? = peek vm argCount ∧
        ∀ i, 1 ≤ i → i ≤ argCount →
          vm.stack[vm.stackTop - argCount - 1 + i]? = peek vm (argCount - i)) := by
  refine ⟨fun hne => ?_, fun heq hfull => ?_, fun heq hroom => ?_⟩
  · obtain ⟨trace, _, ht⟩ := runtimeError_message vm
      ("Expected " ++ toString function.arity ++ " arguments but got "
        ++ toString argCount ++ ".") htrace
    exact ⟨trace, by simp only [call, hc, hf, hne, ne_eq, not_false_eq_true, if_true, ht,
      Option.map_some']⟩
  · obtain ⟨trace, _, ht⟩ := runtimeError_message vm "Stack overflow." htrace
    exact ⟨trace, by simp only [call, hc, hf, heq, ne_eq, not_true_eq_false, if_false,
      hfull, if_true, ht, Option.map_some']⟩
  · have hlt : vm.frameCount < vm.frames.length := by
      unfold VM.FRAMES_MAX at hframes hroom
      omega
    have hnot : ¬ (vm.FRAMES_MAX < vm.frameCount ∨ vm.stackTop < argCount + 1) := by
      unfold VM.FRAMES_MAX
      omega
    refine ⟨{ vm with
        frames := vm.frames.set vm.frameCount
          { closure := closure, ip := 0, slots := vm.stackTop - argCount - 1 },
        frameCount := vm.frameCount + 1 },
      by simp only [call, hc, hf, heq, ne_eq, not_true_eq_false, if_false,
        Ne.symm hroom, hnot], rfl, ?_, rfl, rfl, ?_, ?_, ?_⟩
    · simp only [VM.FRAMES_MAX, List.length_set]
      omega
    · simp only [Nat.add_sub_cancel]
      rw [List.getElem?_set_self hlt]
    · unfold peek
      rw [if_neg (by omega)]
      congr 1
      omega
    · intro i h1 h2
      unfold peek
      rw [if_neg (by omega)]
      congr 1
      omega

/-- C11, at a call of a function of two parameters with two arguments. -/
theorem call_spec_witness :
    closureAt callVM.heap 3 = some { function := 2, upvalues := [], upvalueCount := 0 } ∧
    TraceDefined callVM ∧ callVM.frameCount ≤ callVM.FRAMES_MAX ∧ 2 + 1 ≤ callVM.stackTop ∧
    ∃ vm', call callVM 3 2 = some (true, vm') ∧
      vm'.frameCount = callVM.frameCount + 1 ∧ vm'.frameCount ≤ vm'.FRAMES_MAX ∧
      vm'.stack = callVM.stack ∧ vm'.stackTop = callVM.stackTop ∧
      vm'.frames[vm'.frameCount - 1]?
        = some { closure := 3, ip := 0, slots := callVM.stackTop - 2 - 1 } ∧
      callVM.stack[callVM.stackTop - 2 - 1]? = peek callVM 2 ∧
      ∀ i, 1 ≤ i → i ≤ 2 →
        callVM.stack[callVM.stackTop - 2 - 1 + i]? = peek callVM (2 - i) :=
  ⟨by decide, by decide, by decide, by decide,
    (call_spec callVM 3 2 { function := 2, upvalues := [], upvalueCount := 0 }
      { arity := 2, upvalueCount := 0,
        chunk := { code := [1, 28], lines := [2, 2], constants := [] },
        name := some 4 }
      (by decide) (by decide) (by decide) (by decide) (by decide)).2.2 (by decide) (by decide)⟩

/-- C12. `callValue (callee, argc)` with a defined stack trace. For a native
(the callee and the arguments being on the stack) the host function is applied
to `argc` and the top `argc` stack values in push order, the result is
`true`, the arguments and the slot below them are removed and the returned
value is pushed: the stack height decreases by `argc`, the frames are
unchanged. For a closure the result is that of `call (closure, argc)`. For
every other value it fails with "Can only call functions and classes.". -/
theorem callValue_spec (host : Host) (vm : VM) (callee : Value) (argCount : Nat)
    (htrace : TraceDefined vm) :
    (∀ p fn, callee = Value.obj p → vm.heap[p]? = some (Obj.native fn) →
      argCount + 1 ≤ vm.stackTop → vm.stackTop ≤ vm.stack.length →
      ∃ vm', callValue host vm callee argCount = some (true, vm') ∧
        vm'.stackTop = vm.stackTop - argCount ∧
        vm'.frameCount = vm.frameCount ∧ vm'.frames = vm.frames ∧
        vm'.stack = vm.stack.set (vm.stackTop - argCount - 1)
          (host.native fn argCount (callArgs vm argCount)) ∧
        peek vm' 0 = some (host.native fn argCount (callArgs vm argCount)) ∧
        (callArgs vm argCount).length = argCount ∧
        ∀ i, i < argCount → (callArgs vm argCount)[i]? = peek vm (argCount - 1 - i)) ∧
    (∀ p c, callee = Value.obj p → vm.heap[p]? = some (Obj.closure c) →
      callValue host vm callee argCount = call vm p argCount) ∧
    (notCallable vm.heap callee = true →
      ∃ trace, callValue host vm callee argCount
        = some (false, afterError vm "Can only call functions and classes." trace)) := by
  refine ⟨fun p fn hp hn hargs htop => ?_, fun p c hp hcl => ?_, fun hnc => ?_⟩
  · subst hp
    have hlt : vm.stackTop - (argCount + 1) < vm.stack.length := by omega
    refine ⟨{ vm with
        stack := vm.stack.set (vm.stackTop - (argCount + 1))
          (host.native fn argCount (callArgs vm argCount)),
        stackTop := vm.stackTop - (argCount + 1) + 1 }, ?_, ?_, rfl, rfl, ?_, ?_, ?_, ?_⟩
    · simp only [callValue, hn, push, callArgs]
      rw [if_neg (by omega), if_pos hlt]
      rfl
    · show vm.stackTop - (argCount + 1) + 1 = vm.stackTop - argCount
      omega
    · show vm.stack.set (vm.stackTop - (argCount + 1)) _ = _
      rw [show vm.stackTop - (argCount + 1) = vm.stackTop - argCount - 1 by omega]
    · unfold peek
      simp only
      rw [if_neg (by omega)]
      simp [List.getElem?_set, hlt]
    · unfold callArgs
      simp only [List.length_take, List.length_drop]
      omega
    · intro i hi
      unfold callArgs peek
      rw [if_neg (by omega), List.getElem?_take_of_lt hi, List.getElem?_drop]
      congr 1
      omega
  · subst hp
    simp only [callValue, hcl]
  · obtain ⟨trace, _, ht⟩ :=
      runtimeError_message vm "Can only call functions and classes." htrace
    refine ⟨trace, ?_⟩
    unfold callValue
    rw [ht]
    unfold notCallable at hnc
    cases callee with
    | nil => rfl
    | bool b => rfl
    | number n => rfl
    | obj p =>
      simp only at hnc ⊢
      cases hh : vm.heap[p]? with
      | none => simp [hh] at hnc
      | some o =>
        cases o with
        | native fn => simp [hh] at hnc
        | closure c => simp [hh] at hnc
        | function f => rfl
        | string s => rfl
        | upvalue u => rfl

/-- C12, at a call of a native with the two arguments 7 and 8. -/
theorem callValue_spec_witness :
    TraceDefined nativeCallVM ∧ nativeCallVM.heap[5]? = some (Obj.native 0) ∧
    2 + 1 ≤ nativeCallVM.stackTop ∧ nativeCallVM.stackTop ≤ nativeCallVM.stack.length ∧
    callArgs nativeCallVM 2 = [Value.number 7, Value.number 8] ∧
    ∃ vm', callValue secondArgHost nativeCallVM (Value.obj 5) 2 = some (true, vm') ∧
      vm'.stackTop = nativeCallVM.stackTop - 2 ∧
      vm'.frameCount = nativeCallVM.frameCount ∧ vm'.frames = nativeCallVM.frames ∧
      vm'.stack = nativeCallVM.stack.set (nativeCallVM.stackTop - 2 - 1)
        (secondArgHost.native 0 2 (callArgs nativeCallVM 2)) ∧
      peek vm' 0 = some (secondArgHost.native 0 2 (callArgs nativeCallVM 2)) ∧
      (callArgs nativeCallVM 2).length = 2 ∧
      ∀ i, i < 2 → (callArgs nativeCallVM 2)[i]? = peek nativeCallVM (2 - 1 - i) :=
  ⟨by decide, by decide, by decide, by decide, by decide,
    (callValue_spec secondArgHost nativeCallVM (Value.obj 5) 2 (by decide)).1 5 0 rfl
      (by decide) (by decide) (by decide)⟩

/-! ## Reading the instruction stream -/

theorem currentFrame_eq_some {vm : VM} {frame : CallFrame} (h : currentFrame vm = some frame) :
    vm.frameCount ≠ 0 ∧ vm.frames[vm.frameCount - 1]? = some frame ∧
      vm.frameCount - 1 < vm.frames.length := by
  unfold currentFrame at h
  by_cases hz : vm.frameCount = 0
  · simp [hz] at h
  · rw [if_neg hz] at h
    refine ⟨hz, h, ?_⟩
    by_contra hlt
    rw [List.getElem?_eq_none (Nat.le_of_not_lt hlt)] at h
    cases h

theorem frameCode_eq_some {heap : List Obj} {frame : CallFrame} {code : List Nat}
    (h : frameCode heap frame = some code) :
    ∃ closure function, closureAt heap frame.closure = some closure ∧
      functionAt heap closure.function = some function ∧ function.chunk.code = code := by
  unfold frameCode at h
  split at h
  · cases h
  · split at h
    · cases h
    · rename_i closure hc _ function hf
      simp only [Option.some.injEq] at h
      exact ⟨closure, function, hc, hf, h⟩

theorem atIp_frames {vm : VM} {frame : CallFrame} (h : currentFrame vm = some frame)
    (ip : Nat) :
    (atIp vm frame ip).frames[vm.frameCount - 1]? = some { frame with ip := ip } := by
  obtain ⟨_, _, hlt⟩ := currentFrame_eq_some h
  simp only [atIp]
  rw [List.getElem?_set_self hlt]

theorem atIp_atIp (vm : VM) (frame : CallFrame) (ip ip' : Nat) :
    { atIp vm frame ip with
      frames := (atIp vm frame ip).frames.set (vm.frameCount - 1) { frame with ip := ip' } }
      = atIp vm frame ip' := by
  simp only [atIp, List.set_set]

/-- `READ_BYTE` on a state whose current frame is at `ip`. -/
theorem READ_BYTE_atIp {vm : VM} {frame : CallFrame} {code : List Nat} {byte : Nat}
    (hcur : currentFrame vm = some frame) (hcode : frameCode vm.heap frame = some code)
    (ip : Nat) (hbyte : code[ip]? = some byte) :
    READ_BYTE (atIp vm frame ip) (vm.frameCount - 1) = some (byte, atIp vm frame (ip + 1)) := by
  obtain ⟨closure, function, hc, hf, hco⟩ := frameCode_eq_some hcode
  have hfr := atIp_frames hcur ip
  unfold READ_BYTE
  simp only [hfr]
  have hc' : closureAt (atIp vm frame ip).heap frame.closure = some closure := hc
  have hf' : functionAt (atIp vm frame ip).heap closure.function = some function := hf
  simp only [hc', hf', hco, hbyte]
  rw [atIp_atIp]

/-- `READ_BYTE` at the `ip` of the current frame. -/
theorem READ_BYTE_first {vm : VM} {frame : CallFrame} {code : List Nat} {byte : Nat}
    (hcur : currentFrame vm = some frame) (hcode : frameCode vm.heap frame = some code)
    (hbyte : code[frame.ip]? = some byte) :
    READ_BYTE vm (vm.frameCount - 1) = some (byte, atIp vm frame (frame.ip + 1)) := by
  obtain ⟨closure, function, hc, hf, hco⟩ := frameCode_eq_some hcode
  obtain ⟨_, hfr, _⟩ := currentFrame_eq_some hcur
  unfold READ_BYTE
  simp only [hfr, hc, hf, hco, hbyte]
  rfl

theorem setIp_atIp {vm : VM} {frame : CallFrame} (hcur : currentFrame vm = some frame)
    (ip : Nat) (f : Nat → Option Nat) :
    setIp (atIp vm frame ip) (vm.frameCount - 1) f = (f ip).map (atIp vm frame) := by
  have hfr := atIp_frames hcur ip
  unfold setIp
  simp only [hfr]
  cases f ip with
  | none => rfl
  | some ip' =>
    simp only [Option.map_some', Option.some.injEq]
    exact atIp_atIp vm frame ip ip'

theorem short_eq (hi lo : Nat) (hhi : hi < 256) (hlo : lo < 256) :
    ((hi <<< 8) ||| lo) % 65536 = 256 * hi + lo := by
  have h1 : hi <<< 8 = 2 ^ 8 * hi := by rw [Nat.shiftLeft_eq, Nat.mul_comm]
  rw [h1, ← Nat.mul_add_lt_is_or (by omega) hi]
  omega

/-- With a defined stack trace `failWith` returns `INTERPRET_RUNTIME_ERROR` in
the state `afterError` of the message. -/
theorem failWith_message (vm : VM) (message : String) (h : TraceDefined vm) :
    ∃ trace, stackTrace vm = some trace ∧
      failWith vm message = some (Step.halt InterpretResult.INTERPRET_RUNTIME_ERROR
        (afterError vm message trace)) := by
  obtain ⟨trace, h1, h2⟩ := runtimeError_message vm message h
  exact ⟨trace, h1, by simp only [failWith, h2, Option.map_some']⟩

/-! ## Single instructions -/

theorem peek_atIp (vm : VM) (frame : CallFrame) (ip distance : Nat) :
    peek (atIp vm frame ip) distance = peek vm distance :=
  rfl

/-- C14. `OP_JUMP_IF_FALSE` with the operand bytes `hi` and `lo` on a
non-empty stack: the step goes on with the value stack (contents and height)
and the frame count unchanged, and the `ip` of the current frame is the address
after the two operand bytes plus `256 * hi + lo` if the top value is falsey
(nil or `false`), and the address after the operand bytes otherwise. -/
theorem OP_JUMP_IF_FALSE_spec (host : Host) (vm : VM) (frame : CallFrame) (code : List Nat)
    (hi lo : Nat) (v : Value)
    (hcur : currentFrame vm = some frame) (hcode : frameCode vm.heap frame = some code)
    (hop : code[frame.ip]? = some OpCode.OP_JUMP_IF_FALSE.toByte)
    (hhi : code[frame.ip + 1]? = some hi) (hlo : code[frame.ip + 2]? = some lo)
    (hhi8 : hi < 256) (hlo8 : lo < 256) (hpeek : peek vm 0 = some v) :
    ∃ vm', step host vm = some (Step.next vm') ∧
      vm'.stack = vm.stack ∧ vm'.stackTop = vm.stackTop ∧ vm'.frameCount = vm.frameCount ∧
      vm'.frames[vm.frameCount - 1]? = some { frame with
        ip := if isFalsey v then frame.ip + 3 + (256 * hi + lo) else frame.ip + 3 } ∧
      (isFalsey v = true ↔ v = Value.nil ∨ v = Value.bool false) := by
  obtain ⟨hframe, _, _⟩ := currentFrame_eq_some hcur
  have hbyte : OpCode.ofByte OpCode.OP_JUMP_IF_FALSE.toByte
      = some OpCode.OP_JUMP_IF_FALSE := by decide
  have hfalsey : isFalsey v = true ↔ v = Value.nil ∨ v = Value.bool false := by
    cases v with
    | nil => simp [isFalsey]
    | bool b => cases b <;> simp [isFalsey]
    | number n => simp [isFalsey]
    | obj p => simp [isFalsey]
  have hstep : step host vm = some (Step.next (atIp vm frame
      (if isFalsey v then frame.ip + 3 + (256 * hi + lo) else frame.ip + 3))) := by
    unfold step
    simp only [hframe, if_false, READ_BYTE_first hcur hcode hop, hbyte, READ_SHORT,
      READ_BYTE_atIp hcur hcode (frame.ip + 1) hhi,
      READ_BYTE_atIp hcur hcode (frame.ip + 1 + 1) hlo, short_eq hi lo hhi8 hlo8,
      peek_atIp, hpeek, setIp_atIp hcur]
    by_cases hf : isFalsey v = true
    · simp only [hf, if_true, Option.map_some']
    · simp only [hf, if_false, Bool.false_eq_true]
  exact ⟨_, hstep, rfl, rfl, rfl, atIp_frames hcur _, hfalsey⟩

/-- C14, at a jump over `256 * 1 + 2` bytes with `false` on top of the
stack. -/
theorem OP_JUMP_IF_FALSE_spec_witness :
    currentFrame jumpVM = some { closure := 1, ip := 1, slots := 0 } ∧
    frameCode jumpVM.heap { closure := 1, ip := 1, slots := 0 }
      = some [3, 23, 1, 2, 4, 1, 28] ∧
    OpCode.OP_JUMP_IF_FALSE.toByte = 23 ∧ peek jumpVM 0 = some (Value.bool false) ∧
    ∃ vm', step plainHost jumpVM = some (Step.next vm') ∧
      vm'.stack = jumpVM.stack ∧ vm'.stackTop = jumpVM.stackTop ∧
      vm'.frameCount = jumpVM.frameCount ∧
      vm'.frames[jumpVM.frameCount - 1]? = some (CallFrame.mk 1
        (if isFalsey (Value.bool false) then 1 + 3 + (256 * 1 + 2) else 1 + 3) 0) ∧
      (isFalsey (Value.bool false) = true ↔
        Value.bool false = Value.nil ∨ Value.bool false = Value.bool false) :=
  ⟨by decide, by decide, by decide, by decide,
    OP_JUMP_IF_FALSE_spec plainHost jumpVM { closure := 1, ip := 1, slots := 0 }
      [3, 23, 1, 2, 4, 1, 28] 1 2 (Value.bool false)
      (by decide) (by decide) (by decide) (by decide) (by decide) (by decide) (by decide)
      (by decide)⟩

theorem peek_eq_some {vm : VM} {distance : Nat} {v : Value}
    (h : peek vm distance = some v) :
    distance + 1 ≤ vm.stackTop ∧ vm.stack[vm.stackTop - 1 - distance]? = some v ∧
      vm.stackTop - 1 - distance < vm.stack.length := by
  unfold peek at h
  by_cases hlt : vm.stackTop < 1 + distance
  · simp [hlt] at h
  · rw [if_neg hlt] at h
    refine ⟨by omega, h, ?_⟩
    by_contra hge
    rw [List.getElem?_eq_none (Nat.le_of_not_lt hge)] at h
    cases h

theorem pop_of_peek {vm : VM} {v : Value} (h : peek vm 0 = some v) :
    pop vm = some (v, { vm with stackTop := vm.stackTop - 1 }) := by
  obtain ⟨h1, h2, _⟩ := peek_eq_some h
  unfold pop
  rw [if_neg (by omega)]
  simp only [Nat.sub_zero] at h2
  simp only [h2]

/-- The state after the two top values of the stack have been replaced by
`v`. -/
theorem replaceTop2 {vm : VM} {a b : Value} (v : Value) (hb : peek vm 0 = some b)
    (ha : peek vm 1 = some a) :
    ∃ vm', (match pop vm with
        | none => none
        | some (_, vm1) =>
          match pop vm1 with
          | none => none
          | some (_, vm2) => push vm2 v) = some vm' ∧
      pop vm = some (b, { vm with stackTop := vm.stackTop - 1 }) ∧
      pop { vm with stackTop := vm.stackTop - 1 }
        = some (a, { vm with stackTop := vm.stackTop - 1 - 1 }) ∧
      push { vm with stackTop := vm.stackTop - 1 - 1 } v = some vm' ∧
      vm' = { vm with stack := vm.stack.set (vm.stackTop - 2) v,
                      stackTop := vm.stackTop - 1 } ∧
      peek vm' 0 = some v ∧
      ∀ i, i < vm.stackTop - 2 → vm'.stack[i]? = vm.stack[i]? := by
  obtain ⟨h1, _, h3⟩ := peek_eq_some ha
  have hpop1 := pop_of_peek hb
  have ha' : peek { vm with stackTop := vm.stackTop - 1 } 0 = some a := by
    unfold peek at ha ⊢
    rw [if_neg (by omega)] at ha
    rw [if_neg (by simp only; omega)]
    exact ha
  have hpop2 := pop_of_peek ha'
  have hpush : push { vm with stackTop := vm.stackTop - 1 - 1 } v
      = some { vm with stack := vm.stack.set (vm.stackTop - 2) v,
                       stackTop := vm.stackTop - 1 } := by
    unfold push
    simp only
    rw [if_pos (by omega), show vm.stackTop - 1 - 1 = vm.stackTop - 2 by omega,
      show vm.stackTop - 2 + 1 = vm.stackTop - 1 by omega]
  refine ⟨_, by simp only [hpop1, hpop2]; exact hpush, hpop1, hpop2, hpush, rfl, ?_, ?_⟩
  · unfold peek
    simp only
    rw [if_neg (by omega), show vm.stackTop - 1 - 1 - 0 = vm.stackTop - 2 by omega]
    simp [List.getElem?_set, show vm.stackTop - 2 < vm.stack.length by omega]
  · intro i hi
    simp only
    rw [List.getElem?_set_ne (by omega)]

theorem BINARY_OP_numbers {vm : VM} (f : Nat → Nat → Value) {x y : Nat}
    (hb : peek vm 0 = some (Value.number y)) (ha : peek vm 1 = some (Value.number x)) :
    BINARY_OP vm f = some (Step.next { vm with
      stack := vm.stack.set (vm.stackTop - 2) (f x y), stackTop := vm.stackTop - 1 }) := by
  obtain ⟨vm', _, h2, h3, h4, hvm', _⟩ := replaceTop2 (f x y) hb ha
  subst hvm'
  unfold BINARY_OP
  simp only [hb, ha, h2, h3, h4, Option.map_some']

theorem BINARY_OP_error {vm : VM} (f : Nat → Nat → Value) {a b : Value}
    (hb : peek vm 0 = some b) (ha : peek vm 1 = some a)
    (hn : (IS_NUMBER a && IS_NUMBER b) = false) :
    BINARY_OP vm f = failWith vm "Operands must be numbers." := by
  unfold BINARY_OP
  simp only [hb, ha]
  cases b <;> cases a <;> simp [IS_NUMBER] at hn <;> rfl

/-- C16. `OP_GREATER`, `OP_LESS`, `OP_SUBTRACT`, `OP_MULTIPLY` and `OP_DIVIDE`
on the two top stack values `a` (below) and `b` (top), with a defined stack
trace: if both are numbers the step goes on, both are popped and the one value
pushed is `a op b` with `a` as the left operand (a Boolean for the
comparisons, a number for the arithmetic operators, whatever `b` is); else the
step ends in `INTERPRET_RUNTIME_ERROR` with "Operands must be numbers."; so it
fails exactly when `a` or `b` is not a number. -/
theorem binary_op_spec (host : Host) (vm : VM) (frame : CallFrame) (code : List Nat)
    (op : OpCode) (f : Nat → Nat → Value) (a b : Value)
    (hcur : currentFrame vm = some frame) (hcode : frameCode vm.heap frame = some code)
    (hop : code[frame.ip]? = some op.toByte) (hf : binaryOperator host op = some f)
    (hb : peek vm 0 = some b) (ha : peek vm 1 = some a)
    (htrace : TraceDefined (atIp vm frame (frame.ip + 1))) :
    (∀ x y, a = Value.number x → b = Value.number y →
      ∃ vm', step host vm = some (Step.next vm') ∧ vm'.stackTop = vm.stackTop - 1 ∧
        peek vm' 0 = some (f x y) ∧ ∀ i, i < vm.stackTop - 2 → vm'.stack[i]? = vm.stack[i]?) ∧
    ((IS_NUMBER a && IS_NUMBER b) = false →
      ∃ trace, step host vm = some (Step.halt InterpretResult.INTERPRET_RUNTIME_ERROR
        (afterError (atIp vm frame (frame.ip + 1)) "Operands must be numbers." trace))) ∧
    ((∃ vm', step host vm = some (Step.halt InterpretResult.INTERPRET_RUNTIME_ERROR vm')) ↔
      (IS_NUMBER a && IS_NUMBER b) = false) := by
  obtain ⟨hframe, _, _⟩ := currentFrame_eq_some hcur
  have hstep : step host vm = BINARY_OP (atIp vm frame (frame.ip + 1)) f := by
    unfold step
    simp only [hframe, if_false, READ_BYTE_first hcur hcode hop]
    cases op <;> simp only [binaryOperator, Option.some.injEq, reduceCtorEq] at hf <;>
      (subst hf
       simp only [show ∀ o : OpCode, OpCode.ofByte o.toByte = some o by
         intro o; cases o <;> rfl])
  have hnum : ∀ x y, a = Value.number x → b = Value.number y →
      ∃ vm', step host vm = some (Step.next vm') ∧ vm'.stackTop = vm.stackTop - 1 ∧
        peek vm' 0 = some (f x y) ∧
        ∀ i, i < vm.stackTop - 2 → vm'.stack[i]? = vm.stack[i]? := by
    intro x y hx hy
    subst hx hy
    have hb' : peek (atIp vm frame (frame.ip + 1)) 0 = some (Value.number y) := hb
    have ha' : peek (atIp vm frame (frame.ip + 1)) 1 = some (Value.number x) := ha
    obtain ⟨vm', _, _, _, _, hvm', hpk, hlow⟩ := replaceTop2 (f x y) hb' ha'
    refine ⟨vm', ?_, ?_, hpk, hlow⟩
    · rw [hstep, BINARY_OP_numbers f hb' ha', hvm']
    · rw [hvm']; rfl
  have herr : (IS_NUMBER a && IS_NUMBER b) = false →
      ∃ trace, step host vm = some (Step.halt InterpretResult.INTERPRET_RUNTIME_ERROR
        (afterError (atIp vm frame (frame.ip + 1)) "Operands must be numbers." trace)) := by
    intro hn
    obtain ⟨trace, _, ht⟩ := failWith_message (atIp vm frame (frame.ip + 1))
      "Operands must be numbers." htrace
    have hb' : peek (atIp vm frame (frame.ip + 1)) 0 = some b := hb
    have ha' : peek (atIp vm frame (frame.ip + 1)) 1 = some a := ha
    exact ⟨trace, by rw [hstep, BINARY_OP_error f hb' ha' hn, ht]⟩
  refine ⟨hnum, herr, ?_, fun hn => ?_⟩
  · rintro ⟨vm', hv⟩
    cases hna : (IS_NUMBER a && IS_NUMBER b) with
    | false => rfl
    | true =>
      exfalso
      cases a <;> cases b <;> simp [IS_NUMBER] at hna
      obtain ⟨vm2, h2, _⟩ := hnum _ _ rfl rfl
      rw [h2] at hv
      cases hv
  · obtain ⟨trace, ht⟩ := herr hn
    exact ⟨_, ht⟩

/-- C16, at the division of 6 by 0. -/
theorem binary_op_spec_witness :
    currentFrame divideVM = some { closure := 1, ip := 0, slots := 0 } ∧
    frameCode divideVM.heap { closure := 1, ip := 0, slots := 0 } = some [18, 4, 1, 28] ∧
    OpCode.OP_DIVIDE.toByte = 18 ∧
    peek divideVM 0 = some (Value.number 0) ∧ peek divideVM 1 = some (Value.number 6) ∧
    TraceDefined (atIp divideVM { closure := 1, ip := 0, slots := 0 } (0 + 1)) ∧
    ∃ vm', step divideHost divideVM = some (Step.next vm') ∧
      vm'.stackTop = divideVM.stackTop - 1 ∧
      peek vm' 0 = some (Value.number (divideHost.divide 6 0)) ∧
      ∀ i, i < divideVM.stackTop - 2 → vm'.stack[i]? = divideVM.stack[i]? :=
  ⟨by decide, by decide, by decide, by decide, by decide, by decide,
    (binary_op_spec divideHost divideVM { closure := 1, ip := 0, slots := 0 } [18, 4, 1, 28]
      OpCode.OP_DIVIDE (fun a b => Value.number (divideHost.divide a b))
      (Value.number 6) (Value.number 0)
      (by decide) (by decide) (by decide) rfl (by decide) (by decide) (by decide)).1 6 0 rfl rfl⟩

theorem take_set_succ {α : Type} (l : List α) (n : Nat) (a : α) (h : n < l.length) :
    (l.set n a).take (n + 1) = l.take n ++ [a] := by
  induction l generalizing n with
  | nil => simp at h
  | cons x xs ih =>
    cases n with
    | zero => rfl
    | succ m =>
      simp only [List.set_cons_succ, List.take_succ_cons, List.cons_append, List.cons.injEq,
        true_and]
      exact ih m (by simpa using h)

/-- C13. `OP_RETURN` in a frame `frame` with the result `r` on top of the
stack and a sorted open-upvalue list: every open upvalue at `frame.slots` or
above is closed. If this was the only frame (and a value lies below `r`), the
step halts with `INTERPRET_OK`, the frame count is 0 and one further value is
popped. Otherwise the step goes on with the frame count decreased by 1, the
value stack is exactly the part below `frame.slots` followed by `r`, and the
current frame is the caller's frame record, unchanged, so execution resumes at
its saved `ip`. -/
theorem OP_RETURN_spec (host : Host) (vm : VM) (frame : CallFrame) (code : List Nat)
    (r : Value)
    (hcur : currentFrame vm = some frame) (hcode : frameCode vm.heap frame = some code)
    (hop : code[frame.ip]? = some OpCode.OP_RETURN.toByte)
    (hpeek : peek vm 0 = some r) (hsorted : OpenSorted vm) :
    (vm.frameCount = 1 → 2 ≤ vm.stackTop →
      ∃ vm', step host vm = some (Step.halt InterpretResult.INTERPRET_OK vm') ∧
        ClosedFrom vm vm' frame.slots ∧ vm'.frameCount = 0 ∧
        vm'.stackTop = vm.stackTop - 2) ∧
    (vm.frameCount ≠ 1 → frame.slots < vm.stack.length →
      ∃ vm' caller, step host vm = some (Step.next vm') ∧
        ClosedFrom vm vm' frame.slots ∧ vm'.frameCount = vm.frameCount - 1 ∧
        vm'.stackTop = frame.slots + 1 ∧
        vm'.stack.take vm'.stackTop = vm.stack.take frame.slots ++ [r] ∧
        vm.frames[vm.frameCount - 2]? = some caller ∧ currentFrame vm' = some caller) := by
  obtain ⟨hframe, hfr, hlt⟩ := currentFrame_eq_some hcur
  have hbyte : OpCode.ofByte OpCode.OP_RETURN.toByte = some OpCode.OP_RETURN := by decide
  obtain ⟨l', heap', hclose, _, h3, _, h5, _⟩ :=
    closeLoop_spec vm.stack frame.slots vm.openUpvalues vm.heap hsorted.1 hsorted.2
  obtain ⟨htop, hstack, _⟩ := peek_eq_some hpeek
  have hpop : pop (atIp vm frame (frame.ip + 1))
      = some (r, { atIp vm frame (frame.ip + 1) with stackTop := vm.stackTop - 1 }) :=
    pop_of_peek (show peek (atIp vm frame (frame.ip + 1)) 0 = some r from hpeek)
  have hfr' : ({ atIp vm frame (frame.ip + 1) with stackTop := vm.stackTop - 1 } : VM).frames[
      vm.frameCount - 1]? = some { frame with ip := frame.ip + 1 } :=
    atIp_frames hcur (frame.ip + 1)
  have hcl : closeUpvalues { atIp vm frame (frame.ip + 1) with stackTop := vm.stackTop - 1 }
      frame.slots
      = some { atIp vm frame (frame.ip + 1) with
          stackTop := vm.stackTop - 1, openUpvalues := l', heap := heap' } := by
    unfold closeUpvalues
    simp only [atIp, hclose]
  constructor
  · intro hone htwo
    refine ⟨{ atIp vm frame (frame.ip + 1) with
      stackTop := vm.stackTop - 1 - 1, openUpvalues := l', heap := heap',
      frameCount := vm.frameCount - 1 }, ?_, ⟨h3, h5⟩, by simp only; omega, by simp only; omega⟩
    have hs : vm.stack[vm.stackTop - 1 - 1]? ≠ none := by
      intro hn
      rw [List.getElem?_eq_none_iff] at hn
      omega
    unfold step
    simp only [hframe, if_false, READ_BYTE_first hcur hcode hop, hbyte, hpop, hfr', hcl]
    rw [if_pos (by simp only [atIp]; omega)]
    unfold pop
    simp only [atIp]
    rw [if_neg (by omega)]
    cases hv : vm.stack[vm.stackTop - 1 - 1]? with
    | none => exact absurd hv hs
    | some v => rfl
  · intro hmany hslots
    have hcaller : vm.frameCount - 2 < vm.frames.length := by omega
    refine ⟨{ atIp vm frame (frame.ip + 1) with
      stack := vm.stack.set frame.slots r,
      stackTop := frame.slots + 1, openUpvalues := l', heap := heap',
      frameCount := vm.frameCount - 1 }, vm.frames[vm.frameCount - 2], ?_, ⟨h3, h5⟩, rfl, rfl,
      take_set_succ vm.stack frame.slots r hslots, List.getElem?_eq_getElem hcaller, ?_⟩
    · unfold step
      simp only [hframe, if_false, READ_BYTE_first hcur hcode hop, hbyte, hpop, hfr', hcl]
      rw [if_neg (by simp only [atIp]; omega)]
      unfold push
      simp only [atIp]
      rw [if_pos hslots]
      rfl
    · unfold currentFrame
      simp only [atIp]
      rw [if_neg (by omega), show vm.frameCount - 1 - 1 = vm.frameCount - 2 by omega,
        List.getElem?_set_ne (by omega), List.getElem?_eq_getElem hcaller]

/-- C13, at the return of a called frame that has one open upvalue. -/
theorem OP_RETURN_spec_witness :
    currentFrame returnVM = some { closure := 3, ip := 1, slots := 1 } ∧
    frameCode returnVM.heap { closure := 3, ip := 1, slots := 1 } = some [1, 28] ∧
    OpCode.OP_RETURN.toByte = 28 ∧ peek returnVM 0 = some (Value.number 9) ∧
    OpenSorted returnVM ∧ returnVM.frameCount ≠ 1 ∧
    ∃ vm' caller, step plainHost returnVM = some (Step.next vm') ∧
      ClosedFrom returnVM vm' 1 ∧ vm'.frameCount = returnVM.frameCount - 1 ∧
      vm'.stackTop = 1 + 1 ∧
      vm'.stack.take vm'.stackTop = returnVM.stack.take 1 ++ [Value.number 9] ∧
      returnVM.frames[returnVM.frameCount - 2]? = some caller ∧
      currentFrame vm' = some caller :=
  ⟨by decide, by decide, by decide, by decide, by decide, by decide,
    (OP_RETURN_spec plainHost returnVM { closure := 3, ip := 1, slots := 1 } [1, 28]
      (Value.number 9) (by decide) (by decide) (by decide) (by decide) (by decide)).2
      (by decide) (by decide)⟩

/-! ## Interning the result of a concatenation -/

theorem RawWF_of_agree {strs strs' : ObjPtr → ObjString} {capacity : Nat}
    {entries : List Entry} (hwf : RawWF strs capacity entries)
    (hagree : ∀ i k, keyAt entries i = some k → strs' k = strs k) :
    RawWF strs' capacity entries := by
  refine ⟨hwf.1, hwf.2.1, ?_⟩
  intro i hi k hk d hd hpd j hj
  have hik : keyAt entries i = some k := by simpa using hk
  rw [hagree i k hik] at hpd ⊢
  exact hwf.2.2 i hi k hk d hd hpd j hj

theorem Table.WF.of_agree {strs strs' : ObjPtr → ObjString} {t : Table} (hwf : t.WF strs)
    (hagree : ∀ i k, keyAt t.entries i = some k → strs' k = strs k) : t.WF strs' :=
  ⟨RawWF_of_agree hwf.1 hagree, hwf.2.1, hwf.2.2⟩

theorem stringAt_lt {heap : List Obj} {p : ObjPtr} {str : ObjString}
    (h : stringAt heap p = some str) : p < heap.length := by
  by_contra hlt
  unfold stringAt at h
  rw [List.getElem?_eq_none (Nat.le_of_not_lt hlt)] at h
  cases h

theorem stringAt_append {heap : List Obj} {p : ObjPtr} {str : ObjString}
    (h : stringAt heap p = some str) (o : Obj) : stringAt (heap ++ [o]) p = some str := by
  have hlt := stringAt_lt h
  unfold stringAt at h ⊢
  rw [List.getElem?_append_left hlt]
  exact h

theorem stringAt_append_new (heap : List Obj) (str : ObjString) :
    stringAt (heap ++ [Obj.string str]) heap.length = some str := by
  unfold stringAt
  simp

theorem strsOf_of_stringAt {heap : List Obj} {p : ObjPtr} {str : ObjString}
    (h : stringAt heap p = some str) : strsOf heap p = str := by
  simp [strsOf, h]

/-- A key the probe loop of `tableFindString` returns is stored in the table
and passes the comparison. -/
theorem tableFindStringLoop_sound (strs : ObjPtr → ObjString) (table : Table)
    (chars : List Nat) (length hash : Nat) (k : ObjPtr) :
    ∀ (fuel index : Nat),
      tableFindStringLoop strs table chars length hash fuel index = some (some k) →
      (∃ i, keyAt table.entries i = some k) ∧ keyMatches strs chars length hash k = true := by
  intro fuel
  induction fuel with
  | zero => intro index h; cases h
  | succ f ih =>
    intro index h
    rw [tableFindStringLoop_succ] at h
    cases hget : table.entries[index]? with
    | none => simp [hget] at h
    | some e =>
      simp only [hget] at h
      cases hek : e.key with
      | none =>
        simp only [hek] at h
        split at h
        · cases h
        · exact ih _ h
      | some k' =>
        simp only [hek] at h
        split at h
        · rename_i hm
          simp only [Option.some.injEq] at h
          subst h
          exact ⟨⟨index, by rw [keyAt_of_get hget, hek]⟩, hm⟩
        · exact ih _ h

/-- `tableFindString` on a well-formed table returns, and a key it returns is
stored in the table and passes the comparison. -/
theorem tableFindString_returns {strs : ObjPtr → ObjString} {t : Table} (hwf : t.WF strs)
    (chars : List Nat) (length hash : Nat) :
    ∃ r, tableFindString strs t chars length hash = some r ∧
      ∀ k, r = some k →
        (∃ i, keyAt t.entries i = some k) ∧ keyMatches strs chars length hash k = true := by
  have hlen := hwf.1.1
  by_cases hc : t.count = 0
  · exact ⟨none, by simp [tableFindString, hc], fun k hk => by cases hk⟩
  · have hlen' := occupied_le_length t.entries
    have hcount := hwf.2.1
    have hcap : t.capacity ≠ 0 := by omega
    have hi : hash % t.capacity < t.capacity := Nat.mod_lt _ (by omega)
    obtain ⟨e, he⟩ := hwf.exists_empty hc
    have hecap : e < t.capacity := hlen ▸ emptyAt_lt he
    obtain ⟨de, hde, hpde⟩ := probe_surj (hash % t.capacity) e hecap
    have hex : ∃ n, n < t.capacity ∧
        (emptyAt t.entries (probe t.capacity (hash % t.capacity) n) = true ∨
          ∃ k, keyAt t.entries (probe t.capacity (hash % t.capacity) n) = some k ∧
            keyMatches strs chars length hash k = true) :=
      ⟨de, hde, Or.inl (by rw [hpde]; exact he)⟩
    classical
    have hn := Nat.find_spec hex
    have hmin := fun j (hj : j < Nat.find hex) => Nat.find_min hex hj
    generalize Nat.find hex = n at hn hmin
    have hpath : ∀ j, j < n →
        emptyAt t.entries ((hash % t.capacity + j) % t.capacity) = false ∧
        ∀ k, keyAt t.entries ((hash % t.capacity + j) % t.capacity) = some k →
          keyMatches strs chars length hash k = false := by
      intro j hj
      have := hmin j hj
      simp only [probe, not_and, not_or, not_exists] at this
      have h2 := this (by omega)
      exact ⟨by simpa using h2.1, fun k hk => by simpa using h2.2 k hk⟩
    simp only [tableFindString, hc, hcap, if_false]
    rcases hn.2 with he' | hk
    · exact ⟨none, tableFindStringLoop_absent strs t chars length hash hlen n t.capacity
        (hash % t.capacity) hn.1 hi hpath he', fun k hk => by cases hk⟩
    · obtain ⟨k', i', hr, hkey, hm⟩ := tableFindStringLoop_found strs t chars length hash hlen n
        t.capacity (hash % t.capacity) hn.1 hi (fun j hj => (hpath j hj).1) hk
      refine ⟨some k', hr, fun k hk => ?_⟩
      simp only [Option.some.injEq] at hk
      subst hk
      exact ⟨⟨i', hkey⟩, hm⟩

/-- `takeString` on a well-formed intern table whose keys are strings of the
heap returns a string of the heap with the bytes `(chars, length)` that is a
key of the intern table; the stacks are as before. -/
theorem takeString_spec (vm : VM) (chars : List Nat) (length : Nat)
    (hwf : vm.strings.WF (strsOf vm.heap))
    (hkeys : ∀ i k, keyAt vm.strings.entries i = some k → (stringAt vm.heap k).isSome = true) :
    ∃ p vm' str, takeString vm chars length = some (p, vm') ∧
      stringAt vm'.heap p = some str ∧ str.length = length ∧
      str.bytes = chars.take length ∧ (∃ i, keyAt vm'.strings.entries i = some p) ∧
      vm'.stack = vm.stack ∧ vm'.stackTop = vm.stackTop ∧ vm'.frames = vm.frames ∧
      vm'.frameCount = vm.frameCount := by
  obtain ⟨r, hr, hsound⟩ := tableFindString_returns hwf chars length
    (hashString (chars.take length))
  cases r with
  | some k =>
    obtain ⟨⟨i, hik⟩, hm⟩ := hsound k rfl
    have hsome := hkeys i k hik
    obtain ⟨str, hstr⟩ := Option.isSome_iff_exists.1 hsome
    rw [keyMatches_iff, strsOf_of_stringAt hstr] at hm
    refine ⟨k, vm, str, by simp only [takeString, hr], hstr, hm.1.symm, ?_, ⟨i, hik⟩,
      rfl, rfl, rfl, rfl⟩
    unfold ObjString.bytes
    rw [← hm.1]
    exact hm.2.2
  | none =>
    have hagree : ∀ i k, keyAt vm.strings.entries i = some k →
        strsOf (vm.heap ++ [Obj.string
          { length := length, chars := chars, hash := hashString (chars.take length) }]) k
          = strsOf vm.heap k := by
      intro i k hik
      obtain ⟨str, hstr⟩ := Option.isSome_iff_exists.1 (hkeys i k hik)
      rw [strsOf_of_stringAt hstr, strsOf_of_stringAt (stringAt_append hstr _)]
    obtain ⟨b, t', hset, _, _, hlive⟩ :=
      tableSet_spec (hwf.of_agree hagree) vm.heap.length Value.nil
    obtain ⟨i, hi⟩ := (hlive vm.heap.length Value.nil).2 (Or.inl ⟨rfl, rfl⟩)
    refine ⟨vm.heap.length,
      { vm with
        heap := vm.heap ++ [Obj.string
          { length := length, chars := chars, hash := hashString (chars.take length) }],
        objects := vm.heap.length :: vm.objects,
        strings := t' },
      { length := length, chars := chars, hash := hashString (chars.take length) },
      ?_, stringAt_append_new _ _, rfl, rfl, ⟨i, by rw [keyAt_of_get hi]⟩, rfl, rfl, rfl, rfl⟩
    simp only [takeString, hr, allocateObject, hset]

theorem take_append_take {α : Type} (l1 l2 rest : List α) (n1 n2 : Nat)
    (h1 : n1 ≤ l1.length) (h2 : n2 ≤ l2.length) :
    (l1.take n1 ++ l2.take n2 ++ rest).take (n1 + n2) = l1.take n1 ++ l2.take n2 := by
  have hlen : (l1.take n1 ++ l2.take n2).length = n1 + n2 := by
    simp [List.length_take, Nat.min_eq_left h1, Nat.min_eq_left h2]
  rw [← hlen, List.take_left]

/-- `concatenate` on two strings, the intern table being well-formed with
strings of the heap as keys. -/
theorem concatenate_spec (vm : VM) (ap bp : ObjPtr) (sa sb : ObjString)
    (hb : peek vm 0 = some (Value.obj bp)) (ha : peek vm 1 = some (Value.obj ap))
    (hsa : stringAt vm.heap ap = some sa) (hsb : stringAt vm.heap bp = some sb)
    (hwf : vm.strings.WF (strsOf vm.heap))
    (hkeys : ∀ i k, keyAt vm.strings.entries i = some k → (stringAt vm.heap k).isSome = true)
    (hla : sa.length ≤ sa.chars.length) (hlb : sb.length ≤ sb.chars.length) :
    ∃ vm' p str, concatenate vm = some vm' ∧ vm'.stackTop = vm.stackTop - 1 ∧
      peek vm' 0 = some (Value.obj p) ∧
      (∀ i, i < vm.stackTop - 2 → vm'.stack[i]? = vm.stack[i]?) ∧
      stringAt vm'.heap p = some str ∧ str.length = sa.length + sb.length ∧
      str.bytes = sa.bytes ++ sb.bytes ∧ (∃ i, keyAt vm'.strings.entries i = some p) ∧
      vm'.frames = vm.frames ∧ vm'.frameCount = vm.frameCount := by
  obtain ⟨htop, _, hroom⟩ := peek_eq_some ha
  obtain ⟨_, _, hpop1, hpop2, _⟩ := replaceTop2 Value.nil hb ha
  obtain ⟨p, vm2, str, htake, hstr, hlen, hbytes, hkey, hst, htp, hfr, hfc⟩ :=
    takeString_spec { vm with stackTop := vm.stackTop - 1 - 1 }
      (sa.chars.take sa.length ++ sb.chars.take sb.length ++ [0]) (sa.length + sb.length)
      hwf hkeys
  have hst' : vm2.stack = vm.stack := hst
  have htp' : vm2.stackTop = vm.stackTop - 1 - 1 := htp
  have hpush : push vm2 (Value.obj p)
      = some { vm2 with stack := vm2.stack.set vm2.stackTop (Value.obj p),
                        stackTop := vm2.stackTop + 1 } := by
    unfold push
    rw [if_pos (by rw [hst', htp']; omega)]
  have hsa' : stringAt ({ vm with stackTop := vm.stackTop - 1 - 1 } : VM).heap ap = some sa :=
    hsa
  have hsb' : stringAt ({ vm with stackTop := vm.stackTop - 1 - 1 } : VM).heap bp = some sb :=
    hsb
  refine ⟨{ vm2 with stack := vm2.stack.set vm2.stackTop (Value.obj p),
                     stackTop := vm2.stackTop + 1 }, p, str, ?_, ?_, ?_, ?_, hstr, hlen, ?_,
    hkey, hfr, hfc⟩
  · unfold concatenate
    simp only [hpop1, hpop2, hsa', hsb', htake, hpush]
  · simp only [htp']; omega
  · unfold peek
    simp only [htp']
    rw [if_neg (by omega), show vm.stackTop - 1 - 1 + 1 - 1 - 0 = vm.stackTop - 1 - 1 by omega]
    simp [List.getElem?_set, hst', show vm.stackTop - 1 - 1 < vm.stack.length by omega]
  · intro i hi
    simp only [htp', hst']
    rw [List.getElem?_set_ne (by omega)]
  · rw [hbytes, take_append_take _ _ _ _ _ hla hlb]
    rfl

/-- C15. `OP_ADD` on the two top stack values `a` (below) and `b` (top), with
a defined stack trace. Two strings (the intern table being well-formed with
strings of the heap as keys, and both strings holding `length` bytes): the
step goes on, both are popped and the value pushed is a string of the heap
that is a key of the intern table, of length `a.length + b.length`, whose
bytes are those of `a` followed by those of `b`. Two numbers: both are popped
and the number `a + b` is pushed. Every other pair, a string with a number in
either order included: the step ends in `INTERPRET_RUNTIME_ERROR` with
"Operands must be two numbers or two strings.". -/
theorem OP_ADD_spec (host : Host) (vm : VM) (frame : CallFrame) (code : List Nat)
    (a b : Value)
    (hcur : currentFrame vm = some frame) (hcode : frameCode vm.heap frame = some code)
    (hop : code[frame.ip]? = some OpCode.OP_ADD.toByte)
    (hb : peek vm 0 = some b) (ha : peek vm 1 = some a)
    (htrace : TraceDefined (atIp vm frame (frame.ip + 1))) :
    (∀ ap bp sa sb, a = Value.obj ap → b = Value.obj bp →
      stringAt vm.heap ap = some sa → stringAt vm.heap bp = some sb →
      vm.strings.WF (strsOf vm.heap) →
      (∀ i k, keyAt vm.strings.entries i = some k → (stringAt vm.heap k).isSome = true) →
      sa.length ≤ sa.chars.length → sb.length ≤ sb.chars.length →
      ∃ vm' p str, step host vm = some (Step.next vm') ∧ vm'.stackTop = vm.stackTop - 1 ∧
        peek vm' 0 = some (Value.obj p) ∧
        (∀ i, i < vm.stackTop - 2 → vm'.stack[i]? = vm.stack[i]?) ∧
        stringAt vm'.heap p = some str ∧ str.length = sa.length + sb.length ∧
        str.bytes = sa.bytes ++ sb.bytes ∧ ∃ i, keyAt vm'.strings.entries i = some p) ∧
    (∀ x y, a = Value.number x → b = Value.number y →
      ∃ vm', step host vm = some (Step.next vm') ∧ vm'.stackTop = vm.stackTop - 1 ∧
        peek vm' 0 = some (Value.number (host.add x y)) ∧
        ∀ i, i < vm.stackTop - 2 → vm'.stack[i]? = vm.stack[i]?) ∧
    ((IS_STRING vm.heap a && IS_STRING vm.heap b) = false →
      (IS_NUMBER a && IS_NUMBER b) = false →
      ∃ trace, step host vm = some (Step.halt InterpretResult.INTERPRET_RUNTIME_ERROR
        (afterError (atIp vm frame (frame.ip + 1))
          "Operands must be two numbers or two strings." trace))) := by
  obtain ⟨hframe, _, _⟩ := currentFrame_eq_some hcur
  have hbyte : OpCode.ofByte OpCode.OP_ADD.toByte = some OpCode.OP_ADD := by decide
  have hb' : peek (atIp vm frame (frame.ip + 1)) 0 = some b := hb
  have ha' : peek (atIp vm frame (frame.ip + 1)) 1 = some a := ha
  have hheap : (atIp vm frame (frame.ip + 1)).heap = vm.heap := rfl
  obtain ⟨htop, _, hroom⟩ := peek_eq_some ha
  refine ⟨?_, ?_, ?_⟩
  · intro ap bp sa sb hap hbp hsa hsb hwf hkeys hla hlb
    subst hap hbp
    obtain ⟨vm', p, str, hconc, h1, h2, h3, h4, h5, h6, h7, _, _⟩ :=
      concatenate_spec (atIp vm frame (frame.ip + 1)) ap bp sa sb hb' ha' hsa hsb hwf hkeys
        hla hlb
    refine ⟨vm', p, str, ?_, h1, h2, h3, h4, h5, h6, h7⟩
    have hsa' : (stringAt (atIp vm frame (frame.ip + 1)).heap ap).isSome = true := by
      rw [hheap, hsa]; rfl
    have hsb' : (stringAt (atIp vm frame (frame.ip + 1)).heap bp).isSome = true := by
      rw [hheap, hsb]; rfl
    unfold step
    simp only [hframe, if_false, READ_BYTE_first hcur hcode hop, hbyte, hb', ha',
      IS_STRING, hsa', hsb', if_true, Option.map_some', hconc]
  · intro x y hx hy
    subst hx hy
    obtain ⟨vm', _, hpop1, hpop2, hpush, hvm', hpk, hlow⟩ :=
      replaceTop2 (Value.number (host.add x y)) hb' ha'
    refine ⟨vm', ?_, by rw [hvm']; rfl, hpk, hlow⟩
    · unfold step
      simp only [hframe, if_false, READ_BYTE_first hcur hcode hop, hbyte, hb', ha',
        IS_STRING, IS_NUMBER, Bool.false_eq_true, if_true, Option.map_some', hpop1, hpop2,
        hpush]
  · intro hs hn
    obtain ⟨trace, _, ht⟩ := failWith_message (atIp vm frame (frame.ip + 1))
      "Operands must be two numbers or two strings." htrace
    refine ⟨trace, ?_⟩
    have hbs : (if IS_STRING vm.heap b then (some a).map (IS_STRING vm.heap) else some false)
        = some false := by
      cases h1 : IS_STRING vm.heap b <;> simp [h1] at hs ⊢
      exact hs
    have hbn : (if IS_NUMBER b then (some a).map IS_NUMBER else some false) = some false := by
      cases h1 : IS_NUMBER b <;> simp [h1] at hn ⊢
      exact hn
    unfold step
    simp only [hframe, if_false, READ_BYTE_first hcur hcode hop, hbyte, hb', ha', hheap, hbs,
      hbn, ht]

/-- C15, at the concatenation of "ab" and "c". -/
theorem OP_ADD_spec_witness :
    currentFrame addVM = some { closure := 1, ip := 0, slots := 0 } ∧
    frameCode addVM.heap { closure := 1, ip := 0, slots := 0 } = some [15, 4, 1, 28] ∧
    OpCode.OP_ADD.toByte = 15 ∧
    peek addVM 0 = some (Value.obj 3) ∧ peek addVM 1 = some (Value.obj 2) ∧
    TraceDefined (atIp addVM { closure := 1, ip := 0, slots := 0 } (0 + 1)) ∧
    addVM.strings.WF (strsOf addVM.heap) ∧
    ∃ vm' p str, step plainHost addVM = some (Step.next vm') ∧
      vm'.stackTop = addVM.stackTop - 1 ∧ peek vm' 0 = some (Value.obj p) ∧
      (∀ i, i < addVM.stackTop - 2 → vm'.stack[i]? = addVM.stack[i]?) ∧
      stringAt vm'.heap p = some str ∧ str.length = 2 + 1 ∧
      str.bytes = [97, 98] ++ [99] ∧ ∃ i, keyAt vm'.strings.entries i = some p :=
  ⟨by decide, by decide, by decide, by decide, by decide, by decide, by decide,
    (OP_ADD_spec plainHost addVM { closure := 1, ip := 0, slots := 0 } [15, 4, 1, 28]
      (Value.obj 2) (Value.obj 3) (by decide) (by decide) (by decide) (by decide) (by decide)
      (by decide)).1 2 3
      { length := 2, chars := [97, 98, 0], hash := hashString [97, 98] }
      { length := 1, chars := [99, 0], hash := hashString [99] }
      rfl rfl (by decide) (by decide) (by decide) (fun i k h => by
        have hnone : keyAt addVM.strings.entries i = none := by
          simp [addVM, jumpVM, initTable, keyAt]
        rw [hnone] at h
        cases h) (by decide) (by decide)⟩

/-! ## What the helpers of the dispatcher leave in place -/

theorem HeapKept.heap_refl (heap : List Obj) : HeapKept heap heap :=
  ⟨fun _ _ h => h, fun _ c h => ⟨c, h, rfl⟩⟩

theorem HeapKept.heap_trans {h1 h2 h3 : List Obj} (a : HeapKept h1 h2) (b : HeapKept h2 h3) :
    HeapKept h1 h3 := by
  refine ⟨fun p fn h => b.1 p fn (a.1 p fn h), fun p c h => ?_⟩
  obtain ⟨c', hc', hf'⟩ := a.2 p c h
  obtain ⟨c'', hc'', hf''⟩ := b.2 p c' hc'
  exact ⟨c'', hc'', hf''.trans hf'⟩

theorem HeapKept.append (heap : List Obj) (o : Obj) : HeapKept heap (heap ++ [o]) := by
  constructor
  · intro p fn h
    unfold functionAt at h ⊢
    have hlt : p < heap.length := by
      by_contra hge
      rw [List.getElem?_eq_none (Nat.le_of_not_lt hge)] at h
      cases h
    rw [List.getElem?_append_left hlt]
    exact h
  · intro p c h
    refine ⟨c, ?_, rfl⟩
    unfold closureAt at h ⊢
    have hlt : p < heap.length := by
      by_contra hge
      rw [List.getElem?_eq_none (Nat.le_of_not_lt hge)] at h
      cases h
    rw [List.getElem?_append_left hlt]
    exact h

/-- Overwriting an upvalue object by an upvalue object. -/
theorem HeapKept.set_upvalue {heap : List Obj} {u : ObjPtr} {uv : ObjUpvalue}
    (h : upvalueAt heap u = some uv) (uv' : ObjUpvalue) :
    HeapKept heap (heap.set u (Obj.upvalue uv')) := by
  have hu : heap[u]? = some (Obj.upvalue uv) := by
    unfold upvalueAt at h
    split at h
    · rename_i x hx
      simp only [Option.some.injEq] at h
      rw [hx, h]
    · cases h
  constructor
  · intro p fn hp
    unfold functionAt at hp ⊢
    by_cases hpu : u = p
    · subst hpu
      rw [hu] at hp
      cases hp
    · rw [List.getElem?_set_ne hpu]
      exact hp
  · intro p c hp
    refine ⟨c, ?_, rfl⟩
    unfold closureAt at hp ⊢
    by_cases hpu : u = p
    · subst hpu
      rw [hu] at hp
      cases hp
    · rw [List.getElem?_set_ne hpu]
      exact hp

/-- Overwriting a closure object by one with the same function. -/
theorem HeapKept.heap_set_closure {heap : List Obj} {p0 : ObjPtr} {c0 : ObjClosure}
    (h : closureAt heap p0 = some c0) (c1 : ObjClosure) (hfn : c1.function = c0.function) :
    HeapKept heap (heap.set p0 (Obj.closure c1)) := by
  have hu : heap[p0]? = some (Obj.closure c0) := by
    unfold closureAt at h
    split at h
    · rename_i x hx
      simp only [Option.some.injEq] at h
      rw [hx, h]
    · cases h
  have hlt : p0 < heap.length := by
    by_contra hge
    rw [List.getElem?_eq_none (Nat.le_of_not_lt hge)] at hu
    cases hu
  constructor
  · intro p fn hp
    unfold functionAt at hp ⊢
    by_cases hpu : p0 = p
    · subst hpu
      rw [hu] at hp
      cases hp
    · rw [List.getElem?_set_ne hpu]
      exact hp
  · intro p c hp
    by_cases hpu : p0 = p
    · subst hpu
      rw [h] at hp
      simp only [Option.some.injEq] at hp
      subst hp
      refine ⟨c1, ?_, hfn⟩
      unfold closureAt
      rw [List.getElem?_set_self hlt]
    · refine ⟨c, ?_, rfl⟩
      unfold closureAt at hp ⊢
      rw [List.getElem?_set_ne hpu]
      exact hp

theorem Pres.pres_refl (fi : Nat) (vm : VM) : Pres fi vm vm :=
  ⟨rfl, rfl, rfl, fun _ _ => rfl, fun f h => ⟨f, h, rfl, rfl⟩, HeapKept.heap_refl _, fun h => h⟩

theorem Pres.pres_trans {fi : Nat} {a b c : VM} (h1 : Pres fi a b) (h2 : Pres fi b c) :
    Pres fi a c := by
  obtain ⟨a1, a2, a3, a4, a5, a6, a7⟩ := h1
  obtain ⟨b1, b2, b3, b4, b5, b6, b7⟩ := h2
  refine ⟨b1.trans a1, b2.trans a2, b3.trans a3, fun i hi => (b4 i hi).trans (a4 i hi), ?_,
    a6.heap_trans b6, fun h => b7 (a7 h)⟩
  intro f hf
  obtain ⟨f', hf', hc', hs'⟩ := a5 f hf
  obtain ⟨f'', hf'', hc'', hs''⟩ := b5 f' hf'
  exact ⟨f'', hf'', hc''.trans hc', hs''.trans hs'⟩

theorem Eff.eff_refl (fi : Nat) (vm : VM) : Eff fi vm vm 0 0 0 :=
  ⟨Pres.pres_refl fi vm, rfl, rfl⟩

theorem Eff.eff_trans {fi : Nat} {a b c : VM} {d1 u1 n1 d2 u2 n2 : Nat}
    (h1 : Eff fi a b d1 u1 n1) (h2 : Eff fi b c d2 u2 n2) :
    Eff fi a c (d1 + d2) (u1 + u2) (n1 + n2) := by
  obtain ⟨p1, i1, s1⟩ := h1
  obtain ⟨p2, i2, s2⟩ := h2
  exact ⟨p1.pres_trans p2, by omega, by omega⟩

theorem Eff.cast {fi : Nat} {a b : VM} {d u n d' u' n' : Nat} (h : Eff fi a b d u n)
    (hd : d = d') (hu : u = u') (hn : n = n') : Eff fi a b d' u' n' := by
  subst hd hu hn
  exact h

theorem ipAt_of_get {vm : VM} {fi : Nat} {f : CallFrame} (h : vm.frames[fi]? = some f) :
    ipAt vm fi = f.ip := by
  simp [ipAt, h]

theorem get_lt_of_some {α : Type} {l : List α} {i : Nat} {a : α} (h : l[i]? = some a) :
    i < l.length := by
  by_contra hge
  rw [List.getElem?_eq_none (Nat.le_of_not_lt hge)] at h
  cases h

/-- Moving the `ip` of the frame `fi`. -/
theorem Pres.setIp {vm : VM} {fi : Nat} {frame : CallFrame} (h : vm.frames[fi]? = some frame)
    (ip : Nat) :
    Pres fi vm { vm with frames := vm.frames.set fi { frame with ip := ip } } ∧
      ipAt { vm with frames := vm.frames.set fi { frame with ip := ip } } fi = ip := by
  have hlt := get_lt_of_some h
  refine ⟨⟨rfl, by simp, rfl, fun i hi => ?_, fun f hf => ?_, HeapKept.heap_refl _, fun hb => hb⟩, ?_⟩
  · simp only
    rw [List.getElem?_set_ne (Ne.symm hi)]
  · rw [h] at hf
    simp only [Option.some.injEq] at hf
    subst hf
    exact ⟨{ frame with ip := ip }, by simp only; rw [List.getElem?_set_self hlt], rfl, rfl⟩
  · unfold ipAt
    simp only
    rw [List.getElem?_set_self hlt]

theorem chunkAt_eq_some {vm : VM} {fi : Nat} {chunk : Chunk} (h : chunkAt vm fi = some chunk) :
    ∃ frame closure function, vm.frames[fi]? = some frame ∧
      closureAt vm.heap frame.closure = some closure ∧
      functionAt vm.heap closure.function = some function ∧ function.chunk = chunk := by
  unfold chunkAt at h
  split at h
  · cases h
  · rename_i frame hfr
    split at h
    · cases h
    · rename_i closure hc
      split at h
      · cases h
      · rename_i function hf
        simp only [Option.some.injEq] at h
        exact ⟨frame, closure, function, hfr, hc, hf, h⟩

/-- The chunk of the frame `fi` is kept. -/
theorem Pres.chunk_kept {fi : Nat} {vm vm' : VM} (h : Pres fi vm vm') {chunk : Chunk}
    (hc : chunkAt vm fi = some chunk) : chunkAt vm' fi = some chunk := by
  obtain ⟨frame, closure, function, hfr, hcl, hfn, hch⟩ := chunkAt_eq_some hc
  obtain ⟨f', hf', hc', _⟩ := h.2.2.2.2.1 frame hfr
  obtain ⟨c', hcl', hfun⟩ := h.2.2.2.2.2.1.2 frame.closure closure hcl
  have hfn' := h.2.2.2.2.2.1.1 closure.function function hfn
  unfold chunkAt
  simp only [hf', hc', hcl', hfun, hfn', hch]

theorem READ_BYTE_eff {vm vm' : VM} {fi byte : Nat} (h : READ_BYTE vm fi = some (byte, vm')) :
    Eff fi vm vm' 1 0 0 ∧ vm'.stack = vm.stack ∧ vm'.heap = vm.heap ∧
      ∃ chunk, chunkAt vm fi = some chunk ∧ chunk.code[ipAt vm fi]? = some byte := by
  unfold READ_BYTE at h
  split at h
  · cases h
  · rename_i frame hfr
    split at h
    · cases h
    · rename_i closure hc
      split at h
      · cases h
      · rename_i function hf
        split at h
        · cases h
        · rename_i b hb
          simp only [Option.some.injEq, Prod.mk.injEq] at h
          obtain ⟨h1, h2⟩ := h
          subst h1 h2
          obtain ⟨hp, hip⟩ := Pres.setIp hfr (frame.ip + 1)
          refine ⟨⟨hp, by rw [hip, ipAt_of_get hfr], rfl⟩, rfl, rfl, function.chunk, ?_, ?_⟩
          · simp only [chunkAt, hfr, hc, hf]
          · rw [ipAt_of_get hfr]; exact hb

theorem READ_CONSTANT_eff {vm vm' : VM} {fi : Nat} {value : Value}
    (h : READ_CONSTANT vm fi = some (value, vm')) :
    Eff fi vm vm' 1 0 0 ∧ vm'.stack = vm.stack ∧ vm'.heap = vm.heap ∧
      ∃ chunk index, chunkAt vm fi = some chunk ∧ chunk.code[ipAt vm fi]? = some index ∧
        chunk.constants[index]? = some value := by
  unfold READ_CONSTANT at h
  split at h
  · cases h
  · rename_i index vm0 hb
    obtain ⟨heff, hst, hhp, chunk, hch, hcode⟩ := READ_BYTE_eff hb
    have hch0 := heff.1.chunk_kept hch
    split at h
    · cases h
    · rename_i frame hfr
      split at h
      · cases h
      · rename_i closure hc
        split at h
        · cases h
        · rename_i function hf
          split at h
          · cases h
          · rename_i v hv
            simp only [Option.some.injEq, Prod.mk.injEq] at h
            obtain ⟨h1, h2⟩ := h
            subst h1 h2
            refine ⟨heff, hst, hhp, chunk, index, hch, hcode, ?_⟩
            have : chunkAt vm0 fi = some function.chunk := by
              simp only [chunkAt, hfr, hc, hf]
            rw [hch0] at this
            simp only [Option.some.injEq] at this
            rw [this]
            exact hv

theorem READ_SHORT_eff {vm vm' : VM} {fi short : Nat}
    (h : READ_SHORT vm fi = some (short, vm')) :
    Eff fi vm vm' 2 0 0 ∧ vm'.stack = vm.stack ∧ vm'.heap = vm.heap ∧
      ∃ chunk hi lo, chunkAt vm fi = some chunk ∧ chunk.code[ipAt vm fi]? = some hi ∧
        chunk.code[ipAt vm fi + 1]? = some lo ∧ short = ((hi <<< 8) ||| lo) % 65536 := by
  unfold READ_SHORT at h
  split at h
  · cases h
  · rename_i hi vm0 hb
    obtain ⟨heff, hst, hhp, chunk, hch, hcode⟩ := READ_BYTE_eff hb
    split at h
    · cases h
    · rename_i lo vm1 hb1
      obtain ⟨heff1, hst1, hhp1, chunk1, hch1, hcode1⟩ := READ_BYTE_eff hb1
      simp only [Option.some.injEq, Prod.mk.injEq] at h
      obtain ⟨h1, h2⟩ := h
      subst h1 h2
      refine ⟨heff.eff_trans heff1, hst1.trans hst, hhp1.trans hhp, chunk, hi, lo, hch, hcode, ?_,
        rfl⟩
      have := heff.1.chunk_kept hch
      rw [hch1] at this
      simp only [Option.some.injEq] at this
      rw [← this, ← heff.2.1]
      exact hcode1

theorem READ_STRING_eff {vm vm' : VM} {fi : Nat} {name : ObjPtr}
    (h : READ_STRING vm fi = some (name, vm')) :
    Eff fi vm vm' 1 0 0 ∧ vm'.stack = vm.stack ∧ vm'.heap = vm.heap := by
  unfold READ_STRING at h
  split at h
  · rename_i q vm0 hc
    obtain ⟨heff, hst, hhp, _⟩ := READ_CONSTANT_eff hc
    split at h
    · simp only [Option.some.injEq, Prod.mk.injEq] at h
      obtain ⟨_, h2⟩ := h
      subst h2
      exact ⟨heff, hst, hhp⟩
    · cases h
  · cases h

theorem setIp_eff {vm vm' : VM} {fi : Nat} {f : Nat → Option Nat}
    (h : setIp vm fi f = some vm') :
    Pres fi vm vm' ∧ vm'.stackTop = vm.stackTop ∧ f (ipAt vm fi) = some (ipAt vm' fi) := by
  unfold setIp at h
  split at h
  · cases h
  · rename_i frame hfr
    split at h
    · cases h
    · rename_i ip hip
      simp only [Option.some.injEq] at h
      subst h
      obtain ⟨hp, hi⟩ := Pres.setIp hfr ip
      exact ⟨hp, rfl, by rw [hi, ipAt_of_get hfr]; exact hip⟩

theorem push_eff (fi : Nat) {vm vm' : VM} {value : Value} (h : push vm value = some vm') :
    Eff fi vm vm' 0 1 0 ∧ vm'.heap = vm.heap ∧ vm'.stackTop ≤ vm'.stack.length := by
  unfold push at h
  split at h
  · rename_i hlt
    simp only [Option.some.injEq] at h
    subst h
    refine ⟨⟨⟨by simp, rfl, rfl, fun _ _ => rfl, fun f hf => ⟨f, hf, rfl, rfl⟩, HeapKept.heap_refl _,
      fun _ => by simp only [List.length_set]; omega⟩, rfl, rfl⟩, rfl,
      by simp only [List.length_set]; omega⟩
  · cases h

theorem pop_eff (fi : Nat) {vm vm' : VM} {value : Value} (h : pop vm = some (value, vm')) :
    Eff fi vm vm' 0 0 1 ∧ vm'.heap = vm.heap ∧ vm'.stack = vm.stack ∧ vm.stackTop ≠ 0 := by
  unfold pop at h
  split at h
  · cases h
  · rename_i hne
    split at h
    · cases h
    · simp only [Option.some.injEq, Prod.mk.injEq] at h
      obtain ⟨_, h2⟩ := h
      subst h2
      refine ⟨⟨⟨rfl, rfl, rfl, fun _ _ => rfl, fun f hf => ⟨f, hf, rfl, rfl⟩, HeapKept.heap_refl _,
        fun hb => by simp only; omega⟩, rfl, by simp only; omega⟩, rfl, rfl, hne⟩

theorem assign_eff (fi : Nat) {vm vm' : VM} {p : ValuePtr} {v : Value}
    (h : assign vm p v = some vm') : Eff fi vm vm' 0 0 0 := by
  unfold assign at h
  split at h
  · split at h
    · simp only [Option.some.injEq] at h
      subst h
      exact ⟨⟨by simp, rfl, rfl, fun _ _ => rfl, fun f hf => ⟨f, hf, rfl, rfl⟩, HeapKept.heap_refl _,
        fun hb => by simpa using hb⟩, rfl, rfl⟩
    · cases h
  · split at h
    · rename_i u uv hu
      simp only [Option.some.injEq] at h
      subst h
      exact ⟨⟨rfl, rfl, rfl, fun _ _ => rfl, fun f hf => ⟨f, hf, rfl, rfl⟩,
        HeapKept.set_upvalue hu _, fun hb => hb⟩, rfl, rfl⟩
    · cases h

theorem closeLoop_kept (stack : List Value) (last : Nat) :
    ∀ (l : List ObjPtr) (heap : List Obj) (l' : List ObjPtr) (heap' : List Obj),
      closeLoop stack last l heap = some (l', heap') → HeapKept heap heap' := by
  intro l
  induction l with
  | nil =>
    intro heap l' heap' h
    simp only [closeLoop, Option.some.injEq, Prod.mk.injEq] at h
    rw [← h.2]
    exact HeapKept.heap_refl _
  | cons u rest ih =>
    intro heap l' heap' h
    rw [closeLoop_cons] at h
    split at h
    · cases h
    · rename_i uv hu
      split at h
      · cases h
      · split at h
        · split at h
          · cases h
          · exact (HeapKept.set_upvalue hu _).heap_trans (ih _ _ _ h)
        · simp only [Option.some.injEq, Prod.mk.injEq] at h
          rw [← h.2]
          exact HeapKept.heap_refl _

theorem closeUpvalues_eff (fi : Nat) {vm vm' : VM} {last : Nat}
    (h : closeUpvalues vm last = some vm') :
    Eff fi vm vm' 0 0 0 ∧ vm'.stack = vm.stack ∧ vm'.frames = vm.frames := by
  unfold closeUpvalues at h
  split at h
  · cases h
  · rename_i l' heap' hl
    simp only [Option.some.injEq] at h
    subst h
    exact ⟨⟨⟨rfl, rfl, rfl, fun _ _ => rfl, fun f hf => ⟨f, hf, rfl, rfl⟩,
      closeLoop_kept _ _ _ _ _ _ hl, fun hb => hb⟩, rfl, rfl⟩, rfl, rfl⟩

theorem Eff.globals (fi : Nat) (vm : VM) (globals : Table) :
    Eff fi vm { vm with globals := globals } 0 0 0 :=
  ⟨⟨rfl, rfl, rfl, fun _ _ => rfl, fun f hf => ⟨f, hf, rfl, rfl⟩, HeapKept.heap_refl _,
    fun hb => hb⟩, rfl, rfl⟩

theorem Eff.out (fi : Nat) (vm : VM) (out : String) :
    Eff fi vm { vm with out := out } 0 0 0 :=
  ⟨⟨rfl, rfl, rfl, fun _ _ => rfl, fun f hf => ⟨f, hf, rfl, rfl⟩, HeapKept.heap_refl _,
    fun hb => hb⟩, rfl, rfl⟩

theorem takeString_eff (fi : Nat) {vm vm' : VM} {chars : List Nat} {length : Nat} {p : ObjPtr}
    (h : takeString vm chars length = some (p, vm')) : Eff fi vm vm' 0 0 0 := by
  unfold takeString at h
  simp only at h
  split at h
  · cases h
  · simp only [Option.some.injEq, Prod.mk.injEq] at h
    rw [← h.2]
    exact Eff.eff_refl fi vm
  · simp only [allocateObject] at h
    split at h
    · cases h
    · simp only [Option.some.injEq, Prod.mk.injEq] at h
      rw [← h.2]
      exact ⟨⟨rfl, rfl, rfl, fun _ _ => rfl, fun f hf => ⟨f, hf, rfl, rfl⟩,
        HeapKept.append _ _, fun hb => hb⟩, rfl, rfl⟩

theorem concatenate_eff (fi : Nat) {vm vm' : VM} (h : concatenate vm = some vm') :
    Eff fi vm vm' 0 0 1 := by
  unfold concatenate at h
  split at h
  · cases h
  · rename_i bv vm1 hp1
    split at h
    · cases h
    · rename_i av vm2 hp2
      split at h
      · split at h
        · simp only at h
          split at h
          · cases h
          · rename_i result vm3 ht
            have e := (((pop_eff fi hp1).1.eff_trans (pop_eff fi hp2).1).eff_trans
              (takeString_eff fi ht)).eff_trans (push_eff fi h).1
            exact ⟨e.1, e.2.1, by have := e.2.2; omega⟩
        · cases h
      · cases h

theorem newClosure_eff (fi : Nat) {vm vm' : VM} {function closure : ObjPtr}
    (h : newClosure vm function = some (closure, vm')) :
    Eff fi vm vm' 0 0 0 ∧ vm'.stack = vm.stack ∧
      ∃ fn, functionAt vm.heap function = some fn ∧
        closureAt vm'.heap closure = some
          { function := function, upvalues := List.replicate fn.upvalueCount none,
            upvalueCount := fn.upvalueCount } := by
  unfold newClosure at h
  split at h
  · cases h
  · rename_i fn hfn
    simp only [allocateObject, Option.some.injEq, Prod.mk.injEq] at h
    obtain ⟨h1, h2⟩ := h
    subst h1 h2
    refine ⟨⟨⟨rfl, rfl, rfl, fun _ _ => rfl, fun f hf => ⟨f, hf, rfl, rfl⟩,
      HeapKept.append _ _, fun hb => hb⟩, rfl, rfl⟩, rfl, fn, hfn, ?_⟩
    unfold closureAt
    simp

theorem captureUpvalue_eff (fi : Nat) {vm vm' : VM} {slot : Nat} {u : ObjPtr}
    (h : captureUpvalue vm slot = some (u, vm')) :
    Eff fi vm vm' 0 0 0 ∧ vm'.stack = vm.stack := by
  unfold captureUpvalue at h
  split at h
  · cases h
  · simp only at h
    split at h
    · simp only [Option.some.injEq, Prod.mk.injEq] at h
      rw [← h.2]
      exact ⟨Eff.eff_refl fi vm, rfl⟩
    · simp only [newUpvalue, allocateObject, Option.some.injEq, Prod.mk.injEq] at h
      rw [← h.2]
      exact ⟨⟨⟨rfl, rfl, rfl, fun _ _ => rfl, fun f hf => ⟨f, hf, rfl, rfl⟩,
        HeapKept.append _ _, fun hb => hb⟩, rfl, rfl⟩, rfl⟩

theorem Eff.eff_set_closure (fi : Nat) (vm : VM) {p : ObjPtr} {c : ObjClosure}
    (hc : closureAt vm.heap p = some c) (c1 : ObjClosure) (hfn : c1.function = c.function) :
    Eff fi vm { vm with heap := vm.heap.set p (Obj.closure c1) } 0 0 0 :=
  ⟨⟨rfl, rfl, rfl, fun _ _ => rfl, fun f hf => ⟨f, hf, rfl, rfl⟩,
    HeapKept.heap_set_closure hc c1 hfn, fun hb => hb⟩, rfl, rfl⟩

theorem closureLoop_succ (closure : ObjPtr) (fi n i : Nat) (vm : VM) :
    closureLoop closure fi (n + 1) i vm =
      match READ_BYTE vm fi with
      | none => none
      | some (isLocal, vm) =>
        match READ_BYTE vm fi with
        | none => none
        | some (index, vm) =>
          match vm.frames[fi]? with
          | none => none
          | some frame =>
            let captured : Option (Option ObjPtr × VM) :=
              if isLocal ≠ 0 then
                (captureUpvalue vm (frame.slots + index)).map (fun r => (some r.1, r.2))
              else
                match closureAt vm.heap frame.closure with
                | none => none
                | some enclosing =>
                  match enclosing.upvalues[index]? with
                  | none => none
                  | some u => some (u, vm)
            match captured with
            | none => none
            | some (u, vm) =>
              match closureAt vm.heap closure with
              | none => none
              | some c =>
                if i < c.upvalues.length then
                  let c := Obj.closure { c with upvalues := c.upvalues.set i u }
                  closureLoop closure fi n (i + 1) { vm with heap := vm.heap.set closure c }
                else none :=
  rfl

theorem closureLoop_eff (closure : ObjPtr) (fi : Nat) :
    ∀ (n i : Nat) (vm vm' : VM), closureLoop closure fi n i vm = some vm' →
      Eff fi vm vm' (2 * n) 0 0 := by
  intro n
  induction n with
  | zero =>
    intro i vm vm' h
    simp only [closureLoop, Option.some.injEq] at h
    subst h
    exact Eff.eff_refl fi vm
  | succ n ih =>
    intro i vm vm' h
    rw [closureLoop_succ] at h
    split at h
    · cases h
    · rename_i isLocal vm1 hb1
      split at h
      · cases h
      · rename_i index vm2 hb2
        split at h
        · cases h
        · rename_i frame hfr
          simp only at h
          split at h
          · cases h
          · rename_i u vm3 hcap
            have e3 : Eff fi vm2 vm3 0 0 0 := by
              split at hcap
              · simp only [Option.map_eq_some', Prod.mk.injEq, Prod.exists] at hcap
                obtain ⟨a, b, hc, _, hb⟩ := hcap
                subst hb
                exact (captureUpvalue_eff fi hc).1
              · split at hcap
                · cases hcap
                · split at hcap
                  · cases hcap
                  · simp only [Option.some.injEq, Prod.mk.injEq] at hcap
                    rw [← hcap.2]
                    exact Eff.eff_refl fi vm2
            split at h
            · cases h
            · rename_i c hc
              split at h
              · have e4 := Eff.eff_set_closure fi vm3 hc { c with upvalues := c.upvalues.set i u } rfl
                have e := ((((READ_BYTE_eff hb1).1.eff_trans (READ_BYTE_eff hb2).1).eff_trans e3).eff_trans
                  e4).eff_trans (ih _ _ _ h)
                exact ⟨e.1, by have := e.2.1; omega, by have := e.2.2; omega⟩
              · cases h

theorem runtimeError_shape {vm vm' : VM} {message : String}
    (h : runtimeError vm message = some vm') :
    ∃ err, vm' = resetStack { vm with err := err } := by
  unfold runtimeError at h
  split at h
  · cases h
  · rename_i err _
    simp only [Option.some.injEq] at h
    exact ⟨err, h.symm⟩

theorem failWith_shape {vm : VM} {message : String} {s : Step}
    (h : failWith vm message = some s) :
    ∃ err, s = Step.halt InterpretResult.INTERPRET_RUNTIME_ERROR
      (resetStack { vm with err := err }) := by
  unfold failWith at h
  simp only [Option.map_eq_some'] at h
  obtain ⟨vm', hr, hs⟩ := h
  obtain ⟨err, he⟩ := runtimeError_shape hr
  exact ⟨err, by rw [← hs, he]⟩

theorem call_shape {vm vm' : VM} {closure : ObjPtr} {argCount : Nat} {ok : Bool}
    (h : call vm closure argCount = some (ok, vm')) :
    (ok = false ∧ ∃ err, vm' = resetStack { vm with err := err }) ∨
    (ok = true ∧ vm.frameCount < vm.frames.length ∧ argCount + 1 ≤ vm.stackTop ∧
      vm' = { vm with
        frames := vm.frames.set vm.frameCount
          { closure := closure, ip := 0, slots := vm.stackTop - argCount - 1 },
        frameCount := vm.frameCount + 1 }) := by
  unfold call at h
  split at h
  · cases h
  · split at h
    · cases h
    · split at h
      · simp only [Option.map_eq_some', Prod.mk.injEq] at h
        obtain ⟨a, hr, h1, h2⟩ := h
        subst h2
        exact Or.inl ⟨h1.symm, runtimeError_shape hr⟩
      · split at h
        · simp only [Option.map_eq_some', Prod.mk.injEq] at h
          obtain ⟨a, hr, h1, h2⟩ := h
          subst h2
          exact Or.inl ⟨h1.symm, runtimeError_shape hr⟩
        · split at h
          · cases h
          · rename_i hne hnot
            simp only [Option.some.injEq, Prod.mk.injEq] at h
            unfold VM.FRAMES_MAX at hne hnot
            exact Or.inr ⟨h.1.symm, by omega, by omega, h.2.symm⟩

theorem callValue_shape (fi : Nat) {host : Host} {vm vm' : VM} {callee : Value}
    {argCount : Nat} {ok : Bool} (h : callValue host vm callee argCount = some (ok, vm')) :
    (ok = false ∧ ∃ err, vm' = resetStack { vm with err := err }) ∨
    (ok = true ∧ Eff fi vm vm' 0 1 (argCount + 1)) ∨
    (ok = true ∧ ∃ closure, vm.frameCount < vm.frames.length ∧ argCount + 1 ≤ vm.stackTop ∧
      vm' = { vm with
        frames := vm.frames.set vm.frameCount
          { closure := closure, ip := 0, slots := vm.stackTop - argCount - 1 },
        frameCount := vm.frameCount + 1 }) := by
  have hnot : ∀ {r : Option (Bool × VM)},
      r = (runtimeError vm "Can only call functions and classes.").map
        (fun vm => (false, vm)) → r = some (ok, vm') →
      ok = false ∧ ∃ err, vm' = resetStack { vm with err := err } := by
    intro r hr h
    rw [hr] at h
    simp only [Option.map_eq_some', Prod.mk.injEq] at h
    obtain ⟨a, hr, h1, h2⟩ := h
    subst h2
    exact ⟨h1.symm, runtimeError_shape hr⟩
  unfold callValue at h
  simp only at h
  split at h
  · split at h
    · cases h
    · split at h
      · cases h
      · rename_i hge
        simp only [Option.map_eq_some', Prod.mk.injEq] at h
        obtain ⟨a, hp, h1, h2⟩ := h
        subst h2
        obtain ⟨e, _, _⟩ := push_eff fi hp
        refine Or.inr (Or.inl ⟨h1.symm, ⟨?_, e.2.1, ?_⟩⟩)
        · obtain ⟨p1, p2, p3, p4, p5, p6, p7⟩ := e.1
          exact ⟨p1, p2, p3, p4, p5, p6, fun _ => (push_eff fi hp).2.2⟩
        · have := e.2.2
          simp only at this
          omega
    · rcases call_shape h with hc | hc
      · exact Or.inl hc
      · exact Or.inr (Or.inr ⟨hc.1, _, hc.2⟩)
    · exact Or.inl (hnot rfl h)
  · exact Or.inl (hnot rfl h)

theorem BINARY_OP_shape (fi : Nat) {vm : VM} {op : Nat → Nat → Value} {s : Step}
    (h : BINARY_OP vm op = some s) :
    (∃ vm', s = Step.next vm' ∧ Eff fi vm vm' 0 0 1) ∨
    ∃ err, s = Step.halt InterpretResult.INTERPRET_RUNTIME_ERROR
      (resetStack { vm with err := err }) := by
  unfold BINARY_OP at h
  split at h
  · cases h
  · split at h
    · cases h
    · split at h
      · rename_i b vm1 hp1
        split at h
        · rename_i a vm2 hp2
          simp only [Option.map_eq_some'] at h
          obtain ⟨vm3, hp3, hs⟩ := h
          have e := ((pop_eff fi hp1).1.eff_trans (pop_eff fi hp2).1).eff_trans (push_eff fi hp3).1
          exact Or.inl ⟨vm3, hs.symm, e.1, e.2.1, by have := e.2.2; omega⟩
        · cases h
      · cases h
    · exact Or.inr (failWith_shape h)
  · exact Or.inr (failWith_shape h)

/-! ## The outcome of a step -/

/-- A step that goes on in the current frame. -/
theorem Outcome.same {vm vm' : VM} {chunk : Chunk} (hfc : vm.frameCount ≠ 0)
    (hch : chunkAt vm (vm.frameCount - 1) = some chunk)
    (hp : Pres (vm.frameCount - 1) vm vm')
    (hmem : (ipAt vm' (vm.frameCount - 1), vm'.stackTop)
      ∈ stackEffect vm.heap chunk (ipAt vm (vm.frameCount - 1)) vm.stackTop) :
    Outcome vm (Step.next vm') := by
  obtain ⟨p1, p2, p3, p4, p5, p6, p7⟩ := hp
  exact ⟨hfc, chunk, hch, ⟨p1, p2, p6, fun i hi => p4 i (by omega), p7⟩,
    Or.inl ⟨p3, p5, hmem⟩⟩

/-- A step that goes on in the current frame, `ip` and height as counted. -/
theorem Outcome.eff {vm vm' : VM} {chunk : Chunk} {d u n : Nat} (hfc : vm.frameCount ≠ 0)
    (hch : chunkAt vm (vm.frameCount - 1) = some chunk)
    (e : Eff (vm.frameCount - 1) vm vm' d u n)
    (hmem : ∀ t, t + n = vm.stackTop + u → (ipAt vm (vm.frameCount - 1) + d, t)
      ∈ stackEffect vm.heap chunk (ipAt vm (vm.frameCount - 1)) vm.stackTop) :
    Outcome vm (Step.next vm') := by
  refine Outcome.same hfc hch e.1 ?_
  rw [e.2.1]
  exact hmem _ e.2.2

/-- A step that ends in a runtime error. -/
theorem Outcome.error {vm vm1 : VM} {chunk : Chunk} {s : Step} (hfc : vm.frameCount ≠ 0)
    (hch : chunkAt vm (vm.frameCount - 1) = some chunk)
    (hlen : vm1.stack.length = vm.stack.length)
    (h : ∃ err, s = Step.halt InterpretResult.INTERPRET_RUNTIME_ERROR
      (resetStack { vm1 with err := err })) : Outcome vm s := by
  obtain ⟨err, rfl⟩ := h
  exact ⟨hfc, chunk, hch, rfl, hlen, Or.inl ⟨rfl, rfl⟩⟩

theorem stackEffect_eq {heap : List Obj} {chunk : Chunk} {ip byte : Nat}
    (hcode : chunk.code[ip]? = some byte) (h : Nat) :
    stackEffect heap chunk ip h = opEffect heap chunk ip h (OpCode.ofByte byte) := by
  simp only [stackEffect, hcode]

theorem toByte_of_ofByte {byte : Nat} {op : OpCode} (h : OpCode.ofByte byte = some op) :
    byte = op.toByte := by
  have hlt : byte < 29 := get_lt_of_some h
  have hall : ∀ b, b < 29 → ∀ o, OpCode.ofByte b = some o → b = o.toByte := by decide
  exact hall byte hlt op h

theorem ipAt_set_ne (vm : VM) {i fi : Nat} (hne : i ≠ fi) (frame : CallFrame) (frameCount : Nat) :
    ipAt { vm with frames := vm.frames.set i frame, frameCount := frameCount } fi = ipAt vm fi := by
  unfold ipAt
  simp only
  rw [List.getElem?_set_ne hne]

/-- The step of `OP_CALL` on a closure: a frame is added. -/
theorem Outcome.call {vm vm3 : VM} {chunk : Chunk} {byte argCount : Nat} (closure : ObjPtr)
    (hfc : vm.frameCount ≠ 0) (hch : chunkAt vm (vm.frameCount - 1) = some chunk)
    (hcode : chunk.code[ipAt vm (vm.frameCount - 1)]? = some byte)
    (hop : OpCode.ofByte byte = some OpCode.OP_CALL)
    (e : Eff (vm.frameCount - 1) vm vm3 2 0 0)
    (harg : chunk.code[ipAt vm (vm.frameCount - 1) + 1]? = some argCount)
    (hlt : vm3.frameCount < vm3.frames.length) (hargs : argCount + 1 ≤ vm3.stackTop) :
    Outcome vm (Step.next { vm3 with
      frames := vm3.frames.set vm3.frameCount
        { closure := closure, ip := 0, slots := vm3.stackTop - argCount - 1 },
      frameCount := vm3.frameCount + 1 }) := by
  obtain ⟨⟨p1, p2, p3, p4, p5, p6, p7⟩, hip, htop⟩ := e
  refine ⟨hfc, chunk, hch, ⟨p1, by simp only [List.length_set]; exact p2, p6, fun i hi => ?_, p7⟩,
    Or.inr (Or.inl ⟨by simp only [p3], fun f hf => ?_,
      { closure := closure, ip := 0, slots := vm3.stackTop - argCount - 1 }, ?_, ?_⟩)⟩
  · simp only
    rw [List.getElem?_set_ne (by omega)]
    exact p4 i (by omega)
  · obtain ⟨f', hf', hc', hs'⟩ := p5 f hf
    refine ⟨f', ?_, hc', hs'⟩
    simp only
    rw [List.getElem?_set_ne (by omega)]
    exact hf'
  · simp only
    rw [← p3, List.getElem?_set_self hlt]
  · rw [ipAt_set_ne vm3 (by omega), hip, stackEffect_eq hcode, hop]
    simp only [opEffect, harg, List.mem_singleton, Prod.mk.injEq, true_and]
    omega

/-- The step of `OP_RETURN`, once the result is popped and the upvalues of
the frame are closed. -/
theorem Outcome.ret {vm vm3 : VM} {chunk : Chunk} {byte : Nat} {frame : CallFrame}
    {result : Value} {s : Step}
    (hfc : vm.frameCount ≠ 0) (hch : chunkAt vm (vm.frameCount - 1) = some chunk)
    (hcode : chunk.code[ipAt vm (vm.frameCount - 1)]? = some byte)
    (hop : OpCode.ofByte byte = some OpCode.OP_RETURN)
    (e : Eff (vm.frameCount - 1) vm vm3 1 0 1)
    (hfr : vm3.frames[vm.frameCount - 1]? = some frame)
    (h : (if vm3.frameCount - 1 = 0 then
        (pop { vm3 with frameCount := vm3.frameCount - 1 }).map
          (fun r => Step.halt InterpretResult.INTERPRET_OK r.2)
      else (push { vm3 with frameCount := vm3.frameCount - 1, stackTop := frame.slots }
        result).map Step.next) = some s) :
    Outcome vm s := by
  obtain ⟨⟨p1, p2, p3, p4, p5, p6, p7⟩, hip, htop⟩ := e
  split at h
  · rename_i hz
    simp only [Option.map_eq_some'] at h
    obtain ⟨⟨v, vm5⟩, hp, rfl⟩ := h
    obtain ⟨e5, _, hst5, _⟩ := pop_eff (vm.frameCount - 1) hp
    refine ⟨hfc, chunk, hch, ?_, ?_, Or.inr ⟨rfl, by omega, ?_, ?_⟩⟩
    · have := e5.1.2.2.1
      simp only at this ⊢
      omega
    · simp only
      rw [hst5]
      exact p1
    · have := e5.2.2
      simp only at this ⊢
      omega
    · rw [hcode, toByte_of_ofByte hop]
  · rename_i hz
    simp only [Option.map_eq_some'] at h
    obtain ⟨vm5, hp, rfl⟩ := h
    obtain ⟨⟨⟨q1, q2, q3, q4, q5, q6, q7⟩, _, qtop⟩, qheap, qbound⟩ :=
      push_eff (vm.frameCount - 1) hp
    obtain ⟨f0, _, _, hf0, _⟩ := chunkAt_eq_some hch
    obtain ⟨f', hf', _, hs'⟩ := p5 f0 hf0
    rw [hfr] at hf'
    simp only [Option.some.injEq] at hf'
    subst hf'
    refine ⟨hfc, chunk, hch, ⟨q1.trans p1, q2.trans p2, ?_, fun i hi => ?_, fun _ => qbound⟩,
      Or.inr (Or.inr ⟨?_, ?_, f0, hf0, ?_⟩)⟩
    · rw [qheap]
      exact p6
    · rw [q4 i (by omega)]
      exact p4 i (by omega)
    · simp only at q3
      omega
    · simp only at q3
      omega
    · simp only at qtop
      omega

/-- A step that goes on in the current frame after the instruction `op`. -/
theorem Outcome.op {vm vm' : VM} {chunk : Chunk} {byte : Nat} {op : Option OpCode}
    {d u n : Nat} (hfc : vm.frameCount ≠ 0)
    (hch : chunkAt vm (vm.frameCount - 1) = some chunk)
    (hcode : chunk.code[ipAt vm (vm.frameCount - 1)]? = some byte)
    (hop : OpCode.ofByte byte = op)
    (e : Eff (vm.frameCount - 1) vm vm' d u n)
    (hmem : ∀ t, t + n = vm.stackTop + u → (ipAt vm (vm.frameCount - 1) + d, t)
      ∈ opEffect vm.heap chunk (ipAt vm (vm.frameCount - 1)) vm.stackTop op) :
    Outcome vm (Step.next vm') := by
  refine Outcome.eff hfc hch e (fun t ht => ?_)
  rw [stackEffect_eq hcode, hop]
  exact hmem t ht

/-- The two operand bytes that `READ_SHORT` reads after the opcode. -/
theorem READ_SHORT_operands {vm vm1 vm2 : VM} {fi short : Nat} {chunk : Chunk}
    (hch : chunkAt vm fi = some chunk) (e1 : Eff fi vm vm1 1 0 0)
    (h : READ_SHORT vm1 fi = some (short, vm2)) :
    Eff fi vm vm2 3 0 0 ∧ ∃ hi lo, chunk.code[ipAt vm fi + 1]? = some hi ∧
      chunk.code[ipAt vm fi + 2]? = some lo ∧ short = ((hi <<< 8) ||| lo) % 65536 := by
  obtain ⟨e2, _, _, chunk', hi, lo, hch', hhi, hlo, hs⟩ := READ_SHORT_eff h
  have := e1.1.chunk_kept hch
  rw [hch'] at this
  simp only [Option.some.injEq] at this
  subst this
  rw [e1.2.1] at hhi hlo
  exact ⟨e1.eff_trans e2, hi, lo, hhi, hlo, hs⟩

/-- The operand byte that `READ_BYTE` reads after the opcode. -/
theorem READ_BYTE_operand {vm vm1 vm2 : VM} {fi byte : Nat} {chunk : Chunk}
    (hch : chunkAt vm fi = some chunk) (e1 : Eff fi vm vm1 1 0 0)
    (h : READ_BYTE vm1 fi = some (byte, vm2)) :
    Eff fi vm vm2 2 0 0 ∧ chunk.code[ipAt vm fi + 1]? = some byte := by
  obtain ⟨e2, _, _, chunk', hch', hb⟩ := READ_BYTE_eff h
  have := e1.1.chunk_kept hch
  rw [hch'] at this
  simp only [Option.some.injEq] at this
  subst this
  rw [e1.2.1] at hb
  exact ⟨e1.eff_trans e2, hb⟩

/-- The constant that `READ_CONSTANT` reads after the opcode. -/
theorem READ_CONSTANT_operand {vm vm1 vm2 : VM} {fi : Nat} {value : Value} {chunk : Chunk}
    (hch : chunkAt vm fi = some chunk) (e1 : Eff fi vm vm1 1 0 0)
    (h : READ_CONSTANT vm1 fi = some (value, vm2)) :
    Eff fi vm vm2 2 0 0 ∧ vm2.heap = vm1.heap ∧ ∃ index, chunk.code[ipAt vm fi + 1]? = some index ∧
      chunk.constants[index]? = some value := by
  obtain ⟨e2, _, hhp, chunk', index, hch', hb, hv⟩ := READ_CONSTANT_eff h
  have := e1.1.chunk_kept hch
  rw [hch'] at this
  simp only [Option.some.injEq] at this
  subst this
  rw [e1.2.1] at hb
  exact ⟨e1.eff_trans e2, hhp, index, hb, hv⟩

/-- Every step of the dispatcher that returns has the outcome `Outcome`. -/
theorem step_outcome {host : Host} {vm : VM} {s : Step} (h : step host vm = some s) :
    Outcome vm s := by
  unfold step at h
  split at h
  · cases h
  · rename_i hfc
    simp only at h
    split at h
    · cases h
    · rename_i instruction vm1 hb
      obtain ⟨e1, hst1, hhp1, chunk, hch, hcode⟩ := READ_BYTE_eff hb
      split at h
      · rename_i hop
        simp only [Option.some.injEq] at h
        subst h
        exact Outcome.op hfc hch hcode hop (e1) (fun t ht => by
          simp only [opEffect]
          rw [List.mem_singleton, Prod.mk.injEq]
          exact ⟨by omega, by omega⟩)
      · rename_i hop
        split at h
        · cases h
        · rename_i aValue vm2 hc
          split at h
          · cases h
          · rename_i vm3 hp
            simp only [Option.some.injEq] at h
            subst h
            have e0 := ((READ_CONSTANT_operand hch e1 hc).1.eff_trans
              (push_eff _ hp).1).eff_trans (Eff.out _ vm3 (vm3.out ++ "\n"))
            exact Outcome.op hfc hch hcode hop e0 (fun t ht => by
              simp only [opEffect]
              rw [List.mem_singleton, Prod.mk.injEq]
              exact ⟨by omega, by omega⟩)
      · rename_i hop
        simp only [Option.map_eq_some'] at h
        obtain ⟨vm2, hp, rfl⟩ := h
        exact Outcome.op hfc hch hcode hop (e1.eff_trans (push_eff _ hp).1) (fun t ht => by
          simp only [opEffect]
          rw [List.mem_singleton, Prod.mk.injEq]
          exact ⟨by omega, by omega⟩)
      · rename_i hop
        simp only [Option.map_eq_some'] at h
        obtain ⟨vm2, hp, rfl⟩ := h
        exact Outcome.op hfc hch hcode hop (e1.eff_trans (push_eff _ hp).1) (fun t ht => by
          simp only [opEffect]
          rw [List.mem_singleton, Prod.mk.injEq]
          exact ⟨by omega, by omega⟩)
      · rename_i hop
        simp only [Option.map_eq_some'] at h
        obtain ⟨vm2, hp, rfl⟩ := h
        exact Outcome.op hfc hch hcode hop (e1.eff_trans (push_eff _ hp).1) (fun t ht => by
          simp only [opEffect]
          rw [List.mem_singleton, Prod.mk.injEq]
          exact ⟨by omega, by omega⟩)
      · rename_i hop
        simp only [Option.map_eq_some'] at h
        obtain ⟨⟨v, vm2⟩, hp, rfl⟩ := h
        exact Outcome.op hfc hch hcode hop (e1.eff_trans (pop_eff _ hp).1) (fun t ht => by
          simp only [opEffect]
          rw [List.mem_singleton, Prod.mk.injEq]
          exact ⟨by omega, by omega⟩)
      · rename_i hop
        split at h
        · cases h
        · rename_i offset8 vm2 hb2
          split at h
          · cases h
          · split at h
            · cases h
            · simp only [Option.map_eq_some'] at h
              obtain ⟨vm3, hp, rfl⟩ := h
              have e0 := (READ_BYTE_operand hch e1 hb2).1.eff_trans (push_eff _ hp).1
              exact Outcome.op hfc hch hcode hop e0 (fun t ht => by
                simp only [opEffect]
                rw [List.mem_singleton, Prod.mk.injEq]
                exact ⟨by omega, by omega⟩)
      · rename_i hop
        split at h
        · cases h
        · rename_i offset8 vm2 hb2
          split at h
          · simp only [Option.map_eq_some'] at h
            obtain ⟨vm3, ha, rfl⟩ := h
            have e0 := (READ_BYTE_operand hch e1 hb2).1.eff_trans (assign_eff _ ha)
            exact Outcome.op hfc hch hcode hop e0 (fun t ht => by
              simp only [opEffect]
              rw [List.mem_singleton, Prod.mk.injEq]
              exact ⟨by omega, by omega⟩)
          · cases h
      · rename_i hop
        split at h
        · cases h
        · rename_i name vm2 hs
          have e2 := e1.eff_trans (READ_STRING_eff hs).1
          split at h
          · cases h
          · exact Outcome.error hfc hch e2.1.1 (failWith_shape h)
          · simp only [Option.map_eq_some'] at h
            obtain ⟨vm3, hp, rfl⟩ := h
            exact Outcome.op hfc hch hcode hop (e2.eff_trans (push_eff _ hp).1) (fun t ht => by
              simp only [opEffect]
              rw [List.mem_singleton, Prod.mk.injEq]
              exact ⟨by omega, by omega⟩)
      · rename_i hop
        split at h
        · cases h
        · rename_i name vm2 hs
          have e2 := e1.eff_trans (READ_STRING_eff hs).1
          split at h
          · cases h
          · split at h
            · cases h
            · rename_i globals _
              simp only [Option.map_eq_some'] at h
              obtain ⟨⟨v1, vm3⟩, hp, rfl⟩ := h
              have e0 := (e2.eff_trans (Eff.globals _ vm2 globals)).eff_trans (pop_eff _ hp).1
              exact Outcome.op hfc hch hcode hop e0 (fun t ht => by
                simp only [opEffect]
                rw [List.mem_singleton, Prod.mk.injEq]
                exact ⟨by omega, by omega⟩)
      · rename_i hop
        split at h
        · cases h
        · rename_i name vm2 hs
          have e2 := e1.eff_trans (READ_STRING_eff hs).1
          split at h
          · cases h
          · split at h
            · cases h
            · split at h
              · cases h
              · rename_i globals2 _
                exact Outcome.error hfc hch (e2.eff_trans (Eff.globals _ vm2 globals2)).1.1
                  (failWith_shape h)
            · rename_i globals _
              simp only [Option.some.injEq] at h
              subst h
              have e0 := e2.eff_trans (Eff.globals _ vm2 globals)
              exact Outcome.op hfc hch hcode hop e0 (fun t ht => by
                simp only [opEffect]
                rw [List.mem_singleton, Prod.mk.injEq]
                exact ⟨by omega, by omega⟩)
      · rename_i hop
        split at h
        · cases h
        · rename_i offset8 vm2 hb2
          split at h
          · cases h
          · split at h
            · cases h
            · split at h
              · split at h
                · cases h
                · simp only [Option.map_eq_some'] at h
                  obtain ⟨vm3, hp, rfl⟩ := h
                  have e0 := (READ_BYTE_operand hch e1 hb2).1.eff_trans (push_eff _ hp).1
                  exact Outcome.op hfc hch hcode hop e0 (fun t ht => by
                    simp only [opEffect]
                    rw [List.mem_singleton, Prod.mk.injEq]
                    exact ⟨by omega, by omega⟩)
              · cases h
      · rename_i hop
        split at h
        · cases h
        · rename_i offset8 vm2 hb2
          split at h
          · cases h
          · split at h
            · cases h
            · split at h
              · split at h
                · cases h
                · simp only [Option.map_eq_some'] at h
                  obtain ⟨vm3, ha, rfl⟩ := h
                  have e0 := (READ_BYTE_operand hch e1 hb2).1.eff_trans (assign_eff _ ha)
                  exact Outcome.op hfc hch hcode hop e0 (fun t ht => by
                    simp only [opEffect]
                    rw [List.mem_singleton, Prod.mk.injEq]
                    exact ⟨by omega, by omega⟩)
              · cases h
      · rename_i hop
        split at h
        · cases h
        · rename_i bValue vm2 hp1
          split at h
          · cases h
          · rename_i aValue vm3 hp2
            simp only [Option.map_eq_some'] at h
            obtain ⟨vm4, hp3, rfl⟩ := h
            have e0 := ((e1.eff_trans (pop_eff _ hp1).1).eff_trans (pop_eff _ hp2).1).eff_trans
              (push_eff _ hp3).1
            exact Outcome.op hfc hch hcode hop e0 (fun t ht => by
              simp only [opEffect]
              rw [List.mem_singleton, Prod.mk.injEq]
              exact ⟨by omega, by omega⟩)
      · rename_i hop
        rcases BINARY_OP_shape (vm.frameCount - 1) h with ⟨vm2, rfl, e⟩ | herr
        · exact Outcome.op hfc hch hcode hop (e1.eff_trans e) (fun t ht => by
            simp only [opEffect]
            rw [List.mem_singleton, Prod.mk.injEq]
            exact ⟨by omega, by omega⟩)
        · exact Outcome.error hfc hch e1.1.1 herr
      · rename_i hop
        rcases BINARY_OP_shape (vm.frameCount - 1) h with ⟨vm2, rfl, e⟩ | herr
        · exact Outcome.op hfc hch hcode hop (e1.eff_trans e) (fun t ht => by
            simp only [opEffect]
            rw [List.mem_singleton, Prod.mk.injEq]
            exact ⟨by omega, by omega⟩)
        · exact Outcome.error hfc hch e1.1.1 herr
      · rename_i hop
        split at h
        · cases h
        · split at h
          · cases h
          · simp only [Option.map_eq_some'] at h
            obtain ⟨vm2, hc, rfl⟩ := h
            exact Outcome.op hfc hch hcode hop (e1.eff_trans (concatenate_eff _ hc)) (fun t ht => by
              simp only [opEffect]
              rw [List.mem_singleton, Prod.mk.injEq]
              exact ⟨by omega, by omega⟩)
          · split at h
            · cases h
            · split at h
              · rename_i b vm2 hp1
                split at h
                · rename_i a vm3 hp2
                  simp only [Option.map_eq_some'] at h
                  obtain ⟨vm4, hp3, rfl⟩ := h
                  have e0 := ((e1.eff_trans (pop_eff _ hp1).1).eff_trans
                    (pop_eff _ hp2).1).eff_trans (push_eff _ hp3).1
                  exact Outcome.op hfc hch hcode hop e0 (fun t ht => by
                    simp only [opEffect]
                    rw [List.mem_singleton, Prod.mk.injEq]
                    exact ⟨by omega, by omega⟩)
                · cases h
              · cases h
            · exact Outcome.error hfc hch e1.1.1 (failWith_shape h)
      · rename_i hop
        rcases BINARY_OP_shape (vm.frameCount - 1) h with ⟨vm2, rfl, e⟩ | herr
        · exact Outcome.op hfc hch hcode hop (e1.eff_trans e) (fun t ht => by
            simp only [opEffect]
            rw [List.mem_singleton, Prod.mk.injEq]
            exact ⟨by omega, by omega⟩)
        · exact Outcome.error hfc hch e1.1.1 herr
      · rename_i hop
        rcases BINARY_OP_shape (vm.frameCount - 1) h with ⟨vm2, rfl, e⟩ | herr
        · exact Outcome.op hfc hch hcode hop (e1.eff_trans e) (fun t ht => by
            simp only [opEffect]
            rw [List.mem_singleton, Prod.mk.injEq]
            exact ⟨by omega, by omega⟩)
        · exact Outcome.error hfc hch e1.1.1 herr
      · rename_i hop
        rcases BINARY_OP_shape (vm.frameCount - 1) h with ⟨vm2, rfl, e⟩ | herr
        · exact Outcome.op hfc hch hcode hop (e1.eff_trans e) (fun t ht => by
            simp only [opEffect]
            rw [List.mem_singleton, Prod.mk.injEq]
            exact ⟨by omega, by omega⟩)
        · exact Outcome.error hfc hch e1.1.1 herr
      · rename_i hop
        split at h
        · cases h
        · rename_i v vm2 hp1
          simp only [Option.map_eq_some'] at h
          obtain ⟨vm3, hp2, rfl⟩ := h
          have e0 := (e1.eff_trans (pop_eff _ hp1).1).eff_trans (push_eff _ hp2).1
          exact Outcome.op hfc hch hcode hop e0 (fun t ht => by
            simp only [opEffect]
            rw [List.mem_singleton, Prod.mk.injEq]
            exact ⟨by omega, by omega⟩)
      · rename_i hop
        split at h
        · cases h
        · split at h
          · rename_i a vm2 hp1
            simp only [Option.map_eq_some'] at h
            obtain ⟨vm3, hp2, rfl⟩ := h
            have e0 := (e1.eff_trans (pop_eff _ hp1).1).eff_trans (push_eff _ hp2).1
            exact Outcome.op hfc hch hcode hop e0 (fun t ht => by
              simp only [opEffect]
              rw [List.mem_singleton, Prod.mk.injEq]
              exact ⟨by omega, by omega⟩)
          · cases h
        · exact Outcome.error hfc hch e1.1.1 (failWith_shape h)
      · rename_i hop
        split at h
        · cases h
        · rename_i v vm2 hp1
          simp only [Option.some.injEq] at h
          subst h
          have e0 := (e1.eff_trans (pop_eff _ hp1).1).eff_trans (Eff.out _ vm2 (vm2.out ++ host.printValue vm2.heap v ++ "\n"))
          exact Outcome.op hfc hch hcode hop e0 (fun t ht => by
            simp only [opEffect]
            rw [List.mem_singleton, Prod.mk.injEq]
            exact ⟨by omega, by omega⟩)
      · rename_i hop
        split at h
        · cases h
        · rename_i offset16 vm2 hs
          obtain ⟨e2, hi, lo, hhi, hlo, hoff⟩ := READ_SHORT_operands hch e1 hs
          subst hoff
          simp only [Option.map_eq_some'] at h
          obtain ⟨vm3, hset, rfl⟩ := h
          obtain ⟨p3, t3, i3⟩ := setIp_eff hset
          simp only [Option.some.injEq] at i3
          refine Outcome.same hfc hch (e2.1.pres_trans p3) ?_
          rw [stackEffect_eq hcode, hop]
          simp only [opEffect, hhi, hlo]
          rw [List.mem_singleton, Prod.mk.injEq]
          have h1 := e2.2.1
          have h2 := e2.2.2
          exact ⟨by omega, by omega⟩
      · rename_i hop
        split at h
        · cases h
        · rename_i offset16 vm2 hs
          obtain ⟨e2, hi, lo, hhi, hlo, hoff⟩ := READ_SHORT_operands hch e1 hs
          subst hoff
          have h1 := e2.2.1
          have h2 := e2.2.2
          split at h
          · cases h
          · split at h
            · simp only [Option.map_eq_some'] at h
              obtain ⟨vm3, hset, rfl⟩ := h
              obtain ⟨p3, t3, i3⟩ := setIp_eff hset
              simp only [Option.some.injEq] at i3
              refine Outcome.same hfc hch (e2.1.pres_trans p3) ?_
              rw [stackEffect_eq hcode, hop]
              simp only [opEffect, hhi, hlo]
              rw [List.mem_cons, Prod.mk.injEq]
              exact Or.inl ⟨by omega, by omega⟩
            · simp only [Option.some.injEq] at h
              subst h
              refine Outcome.same hfc hch e2.1 ?_
              rw [stackEffect_eq hcode, hop]
              simp only [opEffect, hhi, hlo]
              rw [List.mem_cons, List.mem_singleton, Prod.mk.injEq, Prod.mk.injEq]
              exact Or.inr ⟨by omega, by omega⟩
      · rename_i hop
        split at h
        · cases h
        · rename_i offset16 vm2 hs
          obtain ⟨e2, hi, lo, hhi, hlo, hoff⟩ := READ_SHORT_operands hch e1 hs
          subst hoff
          simp only [Option.map_eq_some'] at h
          obtain ⟨vm3, hset, rfl⟩ := h
          obtain ⟨p3, t3, i3⟩ := setIp_eff hset
          have h1 := e2.2.1
          have h2 := e2.2.2
          split at i3
          · cases i3
          · simp only [Option.some.injEq] at i3
            refine Outcome.same hfc hch (e2.1.pres_trans p3) ?_
            rw [stackEffect_eq hcode, hop]
            simp only [opEffect, hhi, hlo]
            rw [List.mem_singleton, Prod.mk.injEq]
            exact ⟨by omega, by omega⟩
      · rename_i hop
        split at h
        · cases h
        · rename_i argCount vm2 hb2
          obtain ⟨e2, harg⟩ := READ_BYTE_operand hch e1 hb2
          split at h
          · cases h
          · split at h
            · cases h
            · rename_i vm3 hcv
              simp only [Option.some.injEq] at h
              rcases callValue_shape (vm.frameCount - 1) hcv with
                ⟨_, herr⟩ | ⟨hok, _⟩ | ⟨hok, _⟩
              · obtain ⟨err, rfl⟩ := herr
                exact Outcome.error hfc hch e2.1.1 ⟨err, h.symm⟩
              · cases hok
              · cases hok
            · rename_i vm3 hcv
              simp only [Option.some.injEq] at h
              subst h
              rcases callValue_shape (vm.frameCount - 1) hcv with
                ⟨hok, _⟩ | ⟨_, e3⟩ | ⟨_, closure, hlt, hargs, rfl⟩
              · cases hok
              · exact Outcome.op hfc hch hcode hop (e2.eff_trans e3) (fun t ht => by
                  simp only [opEffect, harg]
                  rw [List.mem_singleton, Prod.mk.injEq]
                  exact ⟨by omega, by omega⟩)
              · exact Outcome.call closure hfc hch hcode hop e2 harg hlt hargs
      · rename_i hop
        split at h
        · rename_i function vm2 hc
          obtain ⟨e2, hhp2, index, hidx, hconst⟩ := READ_CONSTANT_operand hch e1 hc
          split at h
          · cases h
          · rename_i closure vm3 hn
            obtain ⟨e3, _, fn, hfn, hcl⟩ := newClosure_eff (vm.frameCount - 1) hn
            rw [hhp2, hhp1] at hfn
            split at h
            · rename_i vm4 c hp hc4
              simp only [Option.map_eq_some'] at h
              obtain ⟨vm5, hloop, rfl⟩ := h
              obtain ⟨e4, hhp4, _⟩ := push_eff (vm.frameCount - 1) hp
              rw [hcl] at hc4
              simp only [Option.some.injEq] at hc4
              subst hc4
              have e5 := closureLoop_eff closure (vm.frameCount - 1) _ _ _ _ hloop
              have e0 := ((e2.eff_trans e3).eff_trans e4).eff_trans e5
              exact Outcome.op hfc hch hcode hop e0 (fun t ht => by
                simp only [opEffect, hidx, hconst, hfn]
                rw [List.mem_singleton, Prod.mk.injEq]
                exact ⟨by omega, by omega⟩)
            · cases h
        · cases h
      · rename_i hop
        split at h
        · cases h
        · split at h
          · cases h
          · rename_i vm2 hcl
            simp only [Option.map_eq_some'] at h
            obtain ⟨⟨v, vm3⟩, hp, rfl⟩ := h
            have e0 := (e1.eff_trans (closeUpvalues_eff _ hcl).1).eff_trans (pop_eff _ hp).1
            exact Outcome.op hfc hch hcode hop e0 (fun t ht => by
              simp only [opEffect]
              rw [List.mem_singleton, Prod.mk.injEq]
              exact ⟨by omega, by omega⟩)
      · rename_i hop
        split at h
        · cases h
        · rename_i result vm2 hp
          split at h
          · cases h
          · rename_i frame hfr
            split at h
            · cases h
            · rename_i vm3 hcl
              obtain ⟨e3, _, hfr3⟩ := closeUpvalues_eff (vm.frameCount - 1) hcl
              have e := (e1.eff_trans (pop_eff _ hp).1).eff_trans e3
              exact Outcome.ret hfc hch hcode hop (e.cast rfl rfl rfl)
                (by rw [hfr3]; exact hfr) h

/-- C18, as stated, fails: the stream `OP_POP`, `OP_POP` run on the stack that
holds the closure only reaches the empty stack within I1, and there the second
`OP_POP` has no result within I1, the `vm.stackTop--` of `pop` leading to the
offset -1; and `OP_NIL` on a full stack has no result within I1, the
`vm.stackTop++` of `push` leading past the capacity. -/
theorem I1_not_kept :
    (I1 popVM ∧ ∃ vm1, step plainHost popVM = some (Step.next vm1) ∧ I1 vm1 ∧
      poppedTop vm1 = -1 ∧ ¬ ∃ s, step plainHost vm1 = some s ∧ I1 s.vm) ∧
    (I1 fullVM ∧ pushedTop fullVM = fullVM.stack.length + 1 ∧
      ¬ ∃ s, step plainHost fullVM = some s ∧ I1 s.vm) := by
  refine ⟨⟨by decide, { popVM with
      frames := [{ closure := 1, ip := 1, slots := 0 }, { closure := 0, ip := 0, slots := 0 }],
      stackTop := 0 }, by decide, by decide, by decide, ?_⟩, by decide, by decide, ?_⟩
  · rintro ⟨s, hs, _⟩
    have hnone : step plainHost { popVM with
        frames := [{ closure := 1, ip := 1, slots := 0 },
          { closure := 0, ip := 0, slots := 0 }],
        stackTop := 0 } = none := by decide
    rw [hnone] at hs
    cases hs
  · rintro ⟨s, hs, _⟩
    have hnone : step plainHost fullVM = none := by decide
    rw [hnone] at hs
    cases hs

/-- C18, amended. From a state within I1, every step of the dispatcher that
returns leads to a state within I1: the stack pointer is neither below
`stack[0]` nor above the capacity. `push` and `pop` test nothing: they return
exactly when their move of `stackTop` stays inside the array, that is `push`
below the capacity and `pop` above `stack[0]`. -/
theorem I1_kept_in_bounds (host : Host) (vm : VM) (h1 : I1 vm) :
    (∀ s, step host vm = some s → I1 s.vm) ∧
    (∀ v, (push vm v).isSome = true ↔ pushedTop vm ≤ vm.stack.length) ∧
    ((pop vm).isSome = true ↔ 0 ≤ poppedTop vm) := by
  refine ⟨fun s hs => ?_, fun v => ?_, ?_⟩
  · obtain ⟨_, chunk, _, hout⟩ := step_outcome hs
    cases s with
    | next vm' => exact hout.1.2.2.2.2 h1
    | halt r vm' =>
      obtain ⟨_, hlen, hr⟩ := hout
      unfold I1 at h1 ⊢
      simp only [Step.vm]
      rcases hr with ⟨_, h0⟩ | ⟨_, _, h2, _⟩ <;> omega
  · unfold push pushedTop
    by_cases hlt : vm.stackTop < vm.stack.length
    · simp only [hlt, if_true, Option.isSome_some, true_iff]
      omega
    · simp only [hlt, if_false, Option.isSome_none, Bool.false_eq_true, false_iff]
      omega
  · unfold I1 at h1
    unfold pop poppedTop
    by_cases hz : vm.stackTop = 0
    · simp only [hz, if_true, Option.isSome_none, Bool.false_eq_true, false_iff]
      omega
    · rw [if_neg hz]
      have hlt : vm.stackTop - 1 < vm.stack.length := by omega
      rw [List.getElem?_eq_getElem hlt]
      simp only [Option.isSome_some, true_iff]
      omega

/-- C18, amended, at the division of 6 by 0. -/
theorem I1_kept_in_bounds_witness :
    I1 divideVM ∧ (step divideHost divideVM).isSome = true ∧
    (∀ s, step divideHost divideVM = some s → I1 s.vm) ∧
    (∀ v, (push divideVM v).isSome = true ↔ pushedTop divideVM ≤ divideVM.stack.length) ∧
    ((pop divideVM).isSome = true ↔ 0 ≤ poppedTop divideVM) :=
  ⟨by decide, by decide, I1_kept_in_bounds divideHost divideVM (by decide)⟩

/-! ## The stack height along a run -/

/-- The stack effect of a complete instruction is the same on a heap that
keeps the functions. -/
theorem stackEffect_kept {heap0 heap : List Obj} (hk : HeapKept heap0 heap) (chunk : Chunk)
    (ip h : Nat) (hne : stackEffect heap0 chunk ip h ≠ []) :
    stackEffect heap chunk ip h = stackEffect heap0 chunk ip h := by
  unfold stackEffect at hne ⊢
  cases hc : chunk.code[ip]? with
  | none => rfl
  | some byte =>
    simp only [hc] at hne ⊢
    cases hop : OpCode.ofByte byte with
    | none => rfl
    | some op =>
      rw [hop] at hne
      cases op
      case OP_CLOSURE =>
        simp only [opEffect] at hne ⊢
        cases h1 : chunk.code[ip + 1]? with
        | none => rfl
        | some index =>
          simp only [h1] at hne ⊢
          cases h2 : chunk.constants[index]? with
          | none => rfl
          | some v =>
            cases v with
            | obj function =>
              simp only [h2] at hne ⊢
              cases h3 : functionAt heap0 function with
              | none => simp [h3] at hne
              | some fn => simp only [hk.1 function fn h3]
            | nil => rfl
            | bool b => rfl
            | number n => rfl
      all_goals rfl

theorem heightAt_lt {heights : List (Option Nat)} {ip h : Nat}
    (hh : heightAt heights ip = some h) : ip < heights.length := by
  by_contra hge
  unfold heightAt at hh
  rw [List.getElem?_eq_none (Nat.le_of_not_lt hge)] at hh
  cases hh

/-- The chunk of a frame that keeps its closure, on a heap that keeps the
functions. -/
theorem chunkAt_kept {vm vm' : VM} {i : Nat} {chunk : Chunk} (hk : HeapKept vm.heap vm'.heap)
    (hf : ∀ f, vm.frames[i]? = some f →
      ∃ f', vm'.frames[i]? = some f' ∧ f'.closure = f.closure ∧ f'.slots = f.slots)
    (hc : chunkAt vm i = some chunk) : chunkAt vm' i = some chunk := by
  obtain ⟨frame, closure, function, hfr, hcl, hfn, hch⟩ := chunkAt_eq_some hc
  obtain ⟨f', hf', hc', _⟩ := hf frame hfr
  obtain ⟨c', hcl', hfun⟩ := hk.2 frame.closure closure hcl
  have hfn' := hk.1 closure.function function hfn
  unfold chunkAt
  simp only [hf', hc', hcl', hfun, hfn', hch]

theorem ipAt_congr {vm vm' : VM} {i : Nat} (h : vm'.frames[i]? = vm.frames[i]?) :
    ipAt vm' i = ipAt vm i := by
  unfold ipAt
  rw [h]

/-- A recorded address is followed by recorded addresses. -/
theorem StackBalanced.succ {heap0 heap : List Obj} {chunk : Chunk}
    {heights : List (Option Nat)} (hb : StackBalanced heap0 chunk heights)
    (hk : HeapKept heap0 heap) {ip h ip' h' : Nat} (hh : heightAt heights ip = some h)
    (hmem : (ip', h') ∈ stackEffect heap chunk ip h) : heightAt heights ip' = some h' := by
  have hcon := hb.2 ip (heightAt_lt hh) h hh
  split at hcon
  · rename_i hret
    rw [stackEffect_eq hret] at hmem
    have : OpCode.ofByte OpCode.OP_RETURN.toByte = some OpCode.OP_RETURN := by decide
    rw [this] at hmem
    simp [opEffect] at hmem
  · rw [stackEffect_kept hk chunk ip h hcon.1] at hmem
    exact hcon.2 (ip', h') hmem

/-- A step that goes on keeps the invariant of `run`. -/
theorem RunInv.after_step {heap0 : List Obj} {chunk : Chunk} {heights : List (Option Nat)}
    (hb : StackBalanced heap0 chunk heights) {host : Host} {vm vm' : VM}
    (hinv : RunInv heap0 chunk heights vm) (hs : step host vm = some (Step.next vm')) :
    RunInv heap0 chunk heights vm' := by
  obtain ⟨hfc, hch0, hk0, hcases⟩ := hinv
  obtain ⟨_, chunk1, hch1, ⟨hlen, hflen, hk, hbelow, _⟩, heff⟩ := step_outcome hs
  rcases hcases with ⟨hone, hh⟩ | ⟨htwo, f1, hf1, hh⟩
  · -- the frame 0 is the current frame
    rw [hone] at hch1 heff
    simp only [Nat.sub_self] at hch1 heff
    rw [hch0] at hch1
    simp only [Option.some.injEq] at hch1
    subst hch1
    have hkeep : KeepsFrame vm vm' →
        ∀ f, vm.frames[0]? = some f →
          ∃ f', vm'.frames[0]? = some f' ∧ f'.closure = f.closure ∧ f'.slots = f.slots := by
      intro hkf
      unfold KeepsFrame at hkf
      rw [hone] at hkf
      exact hkf
    rcases heff with ⟨hfc', hkf, hmem⟩ | ⟨hfc', hkf, new, hnew, hmem⟩ | ⟨hfc', hne, _⟩
    · exact ⟨by omega, chunkAt_kept hk (hkeep hkf) hch0, hk0.heap_trans hk,
        Or.inl ⟨by omega, hb.succ hk0 hh hmem⟩⟩
    · exact ⟨by omega, chunkAt_kept hk (hkeep hkf) hch0, hk0.heap_trans hk,
        Or.inr ⟨by omega, new, hnew, hb.succ hk0 hh hmem⟩⟩
    · omega
  · -- a called frame is the current frame
    have hfr0 : vm'.frames[0]? = vm.frames[0]? := hbelow 0 (by omega)
    have hch' : chunkAt vm' 0 = some chunk :=
      chunkAt_kept hk (fun f hf => ⟨f, by rw [hfr0]; exact hf, rfl, rfl⟩) hch0
    have hip : ipAt vm' 0 = ipAt vm 0 := ipAt_congr hfr0
    have hfr1 : vm.frameCount = 2 ∨ vm'.frames[1]? = vm.frames[1]? := by
      by_cases h2 : vm.frameCount = 2
      · exact Or.inl h2
      · exact Or.inr (hbelow 1 (by omega))
    have hkeep1 : KeepsFrame vm vm' →
        ∃ f1', vm'.frames[1]? = some f1' ∧ f1'.slots = f1.slots := by
      intro hkf
      rcases hfr1 with h2 | hsame
      · unfold KeepsFrame at hkf
        rw [h2] at hkf
        obtain ⟨f', hf', _, hs'⟩ := hkf f1 hf1
        exact ⟨f', hf', hs'⟩
      · exact ⟨f1, by rw [hsame]; exact hf1, rfl⟩
    rcases heff with ⟨hfc', hkf, _⟩ | ⟨hfc', hkf, _⟩ | ⟨hfc', hne, f, hf, htop⟩
    · obtain ⟨f1', hf1', hs1⟩ := hkeep1 hkf
      exact ⟨by omega, hch', hk0.heap_trans hk,
        Or.inr ⟨by omega, f1', hf1', by rw [hip, hs1]; exact hh⟩⟩
    · obtain ⟨f1', hf1', hs1⟩ := hkeep1 hkf
      exact ⟨by omega, hch', hk0.heap_trans hk,
        Or.inr ⟨by omega, f1', hf1', by rw [hip, hs1]; exact hh⟩⟩
    · refine ⟨hne, hch', hk0.heap_trans hk, ?_⟩
      by_cases h2 : vm.frameCount = 2
      · left
        rw [h2] at hf
        simp only [show 2 - 1 = 1 by rfl] at hf
        rw [hf1] at hf
        simp only [Option.some.injEq] at hf
        subst hf
        exact ⟨by omega, by rw [hip, htop]; exact hh⟩
      · right
        exact ⟨by omega, f1, by rw [hbelow 1 (by omega)]; exact hf1, by rw [hip]; exact hh⟩

/-- A step that halts with `INTERPRET_OK` under the invariant of `run` leaves
no value and no frame. -/
theorem RunInv.at_halt {heap0 : List Obj} {chunk : Chunk} {heights : List (Option Nat)}
    (hb : StackBalanced heap0 chunk heights) {host : Host} {vm vm' : VM}
    (hinv : RunInv heap0 chunk heights vm)
    (hs : step host vm = some (Step.halt InterpretResult.INTERPRET_OK vm')) :
    vm'.stackTop = 0 ∧ vm'.frameCount = 0 := by
  obtain ⟨hfc, hch0, hk0, hcases⟩ := hinv
  obtain ⟨_, chunk1, hch1, hfc', _, hr⟩ := step_outcome hs
  rcases hr with ⟨hr, _⟩ | ⟨_, hone, htop, hret⟩
  · cases hr
  · rw [hone] at hch1 hret
    simp only [Nat.sub_self] at hch1 hret
    rw [hch0] at hch1
    simp only [Option.some.injEq] at hch1
    subst hch1
    rcases hcases with ⟨_, hh⟩ | ⟨htwo, _⟩
    · have hcon := hb.2 _ (heightAt_lt hh) _ hh
      rw [if_pos hret] at hcon
      exact ⟨by omega, hfc'⟩
    · omega

/-- A run that returns `INTERPRET_OK` from a state with the invariant leaves
no value and no frame. -/
theorem RunInv.after_run {heap0 : List Obj} {chunk : Chunk} {heights : List (Option Nat)}
    (hb : StackBalanced heap0 chunk heights) (host : Host) :
    ∀ (fuel : Nat) (vm vm' : VM), RunInv heap0 chunk heights vm →
      run host fuel vm = some (InterpretResult.INTERPRET_OK, vm') →
      vm'.stackTop = 0 ∧ vm'.frameCount = 0 := by
  intro fuel
  induction fuel with
  | zero => intro vm vm' _ h; cases h
  | succ fuel ih =>
    intro vm vm' hinv h
    unfold run at h
    split at h
    · cases h
    · rename_i r vm1 hs
      simp only [Option.some.injEq, Prod.mk.injEq] at h
      obtain ⟨h1, h2⟩ := h
      subst h1 h2
      exact hinv.at_halt hb hs
    · rename_i vm1 hs
      exact ih vm1 vm' (hinv.after_step hb hs) h

theorem run_no_frame (host : Host) (fuel : Nat) (vm : VM) (h : vm.frameCount = 0) :
    run host fuel vm = none := by
  cases fuel with
  | zero => rfl
  | succ fuel =>
    unfold run
    have hs : step host vm = none := by
      unfold step
      rw [if_pos h]
    simp only [hs]

/-- The state in which `interpret` starts `run`: the script closure in slot 0
is the only value, its frame the only frame, at the first byte of the
chunk. -/
theorem interpret_loaded {host : Host} {fuel : Nat} {vm : VM} {function : ObjPtr}
    {fn : ObjFunction} {heights : List (Option Nat)} {r : InterpretResult × VM}
    (hstack : vm.stackTop = 0) (hframes : vm.frameCount = 0)
    (hfn : functionAt vm.heap function = some fn) (hentry : heightAt heights 0 = some 1)
    (hrun : interpret host fuel vm (some function) = some r) :
    ∃ vm5, RunInv vm.heap fn.chunk heights vm5 ∧ run host fuel vm5 = some r := by
  unfold interpret at hrun
  simp only at hrun
  split at hrun
  · cases hrun
  · rename_i vm1 hp1
    obtain ⟨e1, hh1, _⟩ := push_eff 0 hp1
    split at hrun
    · cases hrun
    · rename_i closure vm2 hn
      obtain ⟨e2, _, fn', hfn', hcl⟩ := newClosure_eff 0 hn
      rw [hh1, hfn] at hfn'
      simp only [Option.some.injEq] at hfn'
      subst hfn'
      split at hrun
      · cases hrun
      · rename_i v vm3 hp3
        obtain ⟨e3, hh3, _, _⟩ := pop_eff 0 hp3
        split at hrun
        · cases hrun
        · rename_i vm4 hp4
          obtain ⟨e4, hh4, _⟩ := push_eff 0 hp4
          have e := ((e1.eff_trans e2).eff_trans e3).eff_trans e4
          have hfc4 : vm4.frameCount = 0 := by rw [e.1.2.2.1, hframes]
          have htop4 : vm4.stackTop = 1 := by have := e.2.2; omega
          split at hrun
          · cases hrun
          · rename_i ok vm5 hc
            rcases call_shape hc with ⟨_, err, rfl⟩ | ⟨_, hlt, _, rfl⟩
            · rw [run_no_frame host fuel _ rfl] at hrun
              cases hrun
            · have hlt0 : 0 < vm4.frames.length := by rw [← hfc4]; exact hlt
              refine ⟨{ vm4 with
                  frames := vm4.frames.set vm4.frameCount
                    { closure := closure, ip := 0, slots := vm4.stackTop - 0 - 1 },
                  frameCount := vm4.frameCount + 1 },
                ⟨Nat.succ_ne_zero _, ?_, e.1.2.2.2.2.2.1, Or.inl ⟨?_, ?_⟩⟩, hrun⟩
              · have hcl4 : closureAt vm4.heap closure = some
                    { function := function, upvalues := List.replicate fn.upvalueCount none,
                      upvalueCount := fn.upvalueCount } := by
                  rw [hh4, hh3]; exact hcl
                have hfn4 : functionAt vm4.heap function = some fn :=
                  e.1.2.2.2.2.2.1.1 function fn hfn
                unfold chunkAt
                simp only [hfc4]
                rw [List.getElem?_set_self hlt0]
                simp only [hcl4, hfn4]
              · simp only [hfc4]
              · unfold ipAt
                simp only [hfc4]
                rw [List.getElem?_set_self hlt0]
                simp only [hentry, htop4]

/-- C17. `interpret` on a VM with an empty value stack and no frame, applied
to a top-level function of the heap that meets the compiler contract
(`StackBalanced`, with some record `heights` of stack heights): if it returns
`INTERPRET_OK`, the value stack is empty and the frame count is 0
afterwards. -/
theorem interpret_ok_stack_empty (host : Host) (fuel : Nat) (vm vm' : VM)
    (function : ObjPtr) (fn : ObjFunction) (heights : List (Option Nat))
    (hstack : vm.stackTop = 0) (hframes : vm.frameCount = 0)
    (hfn : functionAt vm.heap function = some fn)
    (hcontract : StackBalanced vm.heap fn.chunk heights)
    (hrun : interpret host fuel vm (some function)
      = some (InterpretResult.INTERPRET_OK, vm')) :
    vm'.stackTop = 0 ∧ vm'.frameCount = 0 := by
  obtain ⟨vm5, hinv, hr⟩ := interpret_loaded hstack hframes hfn hcontract.1 hrun
  exact RunInv.after_run hcontract host fuel vm5 vm' hinv hr

/-- C17, at the script `OP_NIL`, `OP_POP`, `OP_NIL`, `OP_RETURN`. -/
theorem interpret_ok_stack_empty_witness :
    scriptVM.stackTop = 0 ∧ scriptVM.frameCount = 0 ∧
    StackBalanced scriptVM.heap
      { code := [1, 4, 1, 28], lines := [1, 1, 1, 1], constants := [] }
      [some 1, some 2, some 1, some 2] ∧
    ∃ vm', interpret plainHost 4 scriptVM (some 0)
        = some (InterpretResult.INTERPRET_OK, vm') ∧
      vm'.stackTop = 0 ∧ vm'.frameCount = 0 := by
  have hres : (interpret plainHost 4 scriptVM (some 0)).map Prod.fst
      = some InterpretResult.INTERPRET_OK := by decide
  simp only [Option.map_eq_some'] at hres
  obtain ⟨⟨r, vm'⟩, h, hr⟩ := hres
  simp only at hr
  subst hr
  exact ⟨rfl, rfl, by decide, vm', h,
    interpret_ok_stack_empty plainHost 4 scriptVM vm' 0
      { arity := 0, upvalueCount := 0,
        chunk := { code := [1, 4, 1, 28], lines := [1, 1, 1, 1], constants := [] },
        name := none }
      [some 1, some 2, some 1, some 2] rfl rfl (by decide) (by decide) h⟩

/-! ## Probing on reachable tables -/

theorem AdjustProbes_cons (strs : ObjPtr → ObjString) (capacity : Nat) (entry : Entry)
    (rest entries : List Entry) :
    AdjustProbes strs capacity (entry :: rest) entries =
      match entry.key with
      | none => AdjustProbes strs capacity rest entries
      | some k =>
        ProbeReturns strs entries capacity k ∧
        match findEntry strs entries capacity k with
        | none => False
        | some dest =>
          AdjustProbes strs capacity rest
            (entries.set dest { key := some k, value := entry.value }) :=
  rfl

/-- A call of `findEntry` that returns is a call as `ProbeReturns`
describes. -/
theorem ProbeReturns.of_findEntry {strs : ObjPtr → ObjString} {entries : List Entry}
    {capacity : Nat} {key : ObjPtr} {r : Nat}
    (h : findEntry strs entries capacity key = some r) :
    ProbeReturns strs entries capacity key := by
  unfold findEntry at h
  by_cases hc : capacity = 0
  · rw [if_pos hc] at h
    cases h
  · rw [if_neg hc] at h
    exact ⟨hc, by rw [h]; rfl⟩

/-- When the second loop of `adjustCapacity` returns, each of its calls of
`findEntry` has returned. -/
theorem adjustLoop_probes (strs : ObjPtr → ObjString) (capacity : Nat) :
    ∀ (old entries : List Entry) (count : Nat) (r : List Entry × Nat),
      adjustLoop strs capacity old entries count = some r →
      AdjustProbes strs capacity old entries := by
  intro old
  induction old with
  | nil => intro entries count r _; trivial
  | cons entry rest ih =>
    intro entries count r h
    rw [adjustLoop_cons] at h
    rw [AdjustProbes_cons]
    cases hk : entry.key with
    | none =>
      simp only [hk] at h ⊢
      exact ih entries count r h
    | some k =>
      simp only [hk] at h ⊢
      cases hf : findEntry strs entries capacity k with
      | none => simp [hf] at h
      | some dest =>
        simp only [hf] at h ⊢
        exact ⟨ProbeReturns.of_findEntry hf, ih _ _ r h⟩

theorem GROW_CAPACITY_ne_zero (capacity : Nat) : GROW_CAPACITY capacity ≠ 0 := by
  unfold GROW_CAPACITY
  split <;> omega

/-- C21. Probing is total on reachable tables. For every table `t` reached
from `initTable` by `tableSet`, `tableDelete` and `tableAddAll`: `tableGet`
and `tableDelete` return, and when they get past the `count == 0` guard their
call of `findEntry` takes `hash % capacity` with a capacity that is not 0 and
its loop returns within `capacity` iterations; `tableSet` returns, the calls of
`findEntry` in its `adjustCapacity`, if it grows, are on the new capacity,
which is not 0, and return within that many iterations, and so does its own
call on the table after the growth step; `tableAddAll` into `t` returns; and
`tableFindString` returns, with a capacity that is not 0 and within `capacity`
iterations of its loop when it gets past its guard. -/
theorem probing_total (strs : ObjPtr → ObjString) (t : Table) (h : Reachable strs t) :
    (∀ k, (∃ res, tableGet strs t k = some res) ∧
      (∃ b t', tableDelete strs t k = some (b, t')) ∧
      (t.count ≠ 0 → ProbeReturns strs t.entries t.capacity k)) ∧
    (∀ k v, ∃ t1 b t',
      (if overLoad t then adjustCapacity strs t (GROW_CAPACITY t.capacity) else some t)
        = some t1 ∧
      (overLoad t = true → GROW_CAPACITY t.capacity ≠ 0 ∧
        AdjustProbes strs (GROW_CAPACITY t.capacity) t.entries
          (List.replicate (GROW_CAPACITY t.capacity) { key := none, value := Value.nil })) ∧
      ProbeReturns strs t1.entries t1.capacity k ∧
      tableSet strs t k v = some (b, t')) ∧
    (∀ src, ∃ t', tableAddAll strs src t = some t') ∧
    (∀ chars length hash,
      (∃ res, tableFindString strs t chars length hash = some res) ∧
      (t.count ≠ 0 → t.capacity ≠ 0 ∧
        (tableFindStringLoop strs t chars length hash t.capacity
          (hash % t.capacity)).isSome = true)) := by
  obtain ⟨hwf, _, _⟩ := h.occupancy
  have hcap : t.count ≠ 0 → t.capacity ≠ 0 := by
    intro hc
    have hlen := occupied_le_length t.entries
    have h1 := hwf.1.1
    have h2 := hwf.2.1
    omega
  refine ⟨fun k => ⟨?_, ?_, fun hc => ?_⟩, fun k v => ?_, fun src => ?_,
    fun chars length hash => ?_⟩
  · by_cases hlive : ∃ v, Live t.entries k v
    · obtain ⟨v, hv⟩ := hlive
      exact ⟨_, (tableGet_spec hwf k).1 v hv⟩
    · exact ⟨_, (tableGet_spec hwf k).2 (fun v hv => hlive ⟨v, hv⟩)⟩
  · obtain ⟨b, t', hdel, _⟩ := tableDelete_spec hwf k
    exact ⟨b, t', hdel⟩
  · obtain ⟨r, hr, _⟩ := findEntry_spec hwf.1 (hwf.exists_empty hc) k
    exact ProbeReturns.of_findEntry hr
  · obtain ⟨t1, h1, hraw, hcount, hroom, _⟩ := tableSet_grow_spec hwf
    obtain ⟨r, hr, _⟩ := findEntry_spec hraw (exists_emptyAt (by
      have := hraw.1
      omega)) k
    obtain ⟨b, t', hset, _⟩ := tableSet_spec hwf k v
    refine ⟨t1, b, t', h1, fun hov => ⟨GROW_CAPACITY_ne_zero _, ?_⟩,
      ProbeReturns.of_findEntry hr, hset⟩
    rw [if_pos hov] at h1
    unfold adjustCapacity at h1
    split at h1
    · cases h1
    · rename_i entries count hloop
      exact adjustLoop_probes strs _ _ _ _ _ hloop
  · obtain ⟨t', hadd, _⟩ := tableAddAll_WF strs src t hwf
    exact ⟨t', hadd⟩
  · obtain ⟨r, hr, _⟩ := tableFindString_returns hwf chars length hash
    refine ⟨⟨r, hr⟩, fun hc => ⟨hcap hc, ?_⟩⟩
    unfold tableFindString at hr
    rw [if_neg hc, if_neg (hcap hc)] at hr
    rw [hr]
    rfl

/-- C21, at a table reached by an insertion followed by the deletion of the
key: the probes pass its tombstone. -/
theorem probing_total_witness :
    Reachable sampleStrs tombstoneTable ∧
    (∀ k, (∃ res, tableGet sampleStrs tombstoneTable k = some res) ∧
      (∃ b t', tableDelete sampleStrs tombstoneTable k = some (b, t')) ∧
      (tombstoneTable.count ≠ 0 →
        ProbeReturns sampleStrs tombstoneTable.entries tombstoneTable.capacity k)) ∧
    (∀ k v, ∃ t1 b t',
      (if overLoad tombstoneTable then
          adjustCapacity sampleStrs tombstoneTable (GROW_CAPACITY tombstoneTable.capacity)
        else some tombstoneTable) = some t1 ∧
      (overLoad tombstoneTable = true → GROW_CAPACITY tombstoneTable.capacity ≠ 0 ∧
        AdjustProbes sampleStrs (GROW_CAPACITY tombstoneTable.capacity) tombstoneTable.entries
          (List.replicate (GROW_CAPACITY tombstoneTable.capacity)
            { key := none, value := Value.nil })) ∧
      ProbeReturns sampleStrs t1.entries t1.capacity k ∧
      tableSet sampleStrs tombstoneTable k v = some (b, t')) ∧
    (∀ src, ∃ t', tableAddAll sampleStrs src tombstoneTable = some t') ∧
    (∀ chars length hash,
      (∃ res, tableFindString sampleStrs tombstoneTable chars length hash = some res) ∧
      (tombstoneTable.count ≠ 0 → tombstoneTable.capacity ≠ 0 ∧
        (tableFindStringLoop sampleStrs tombstoneTable chars length hash
          tombstoneTable.capacity (hash % tombstoneTable.capacity)).isSome = true)) :=
  have hreach : Reachable sampleStrs tombstoneTable :=
    @Reachable.delete sampleStrs oneKeyTable tombstoneTable 1 true
      (@Reachable.set sampleStrs initTable oneKeyTable 1 (Value.number 10) true
        Reachable.init (by decide))
      (by decide)
  ⟨hreach, probing_total sampleStrs tombstoneTable hreach⟩

end Clox
